import Mathlib

/-!
# aws-ssm: YAML documents and the flat parameter namespace

A shallow embedding of the tree/flat-namespace mapping of `cmd/load.go`,
`cmd/save.go`, `cmd/delete.go` and `cmd/yamltree.go`, and of the two tree
renderers of `cmd/tree.go` and `cmd/yamltree.go`, followed by theorems about
them.

Modelling conventions.

* A Go `string` is modelled as the list of its characters (`Str`).  Splitting on
  `/`, prefix and suffix trimming, substring search and `<` agree with the
  byte-level operations on valid UTF-8 text.
* A dynamically typed document value (`interface{}`) is the sum type `Node`.
  Both Go `int` and `int64` are `Node.int`.
* A Go `map[string]interface{}` is an association list.  Ranging over a map
  visits the entries in list order; that order is one of the orders the Go
  runtime may choose.  Assigning `m[k] = v` to a map built by the program keeps
  the list ordered by key, so that a Go map has one representative list.
* A run-time panic is `none`.
* Library functions whose behaviour is not reproduced here (`strconv.ParseFloat`,
  the `%v` format of a `float64`, `strings.ToLower`) are fields of `GoLib`;
  every theorem holds for all of them.  The colouring of a text by
  `github.com/fatih/color` is the field of `ColorLib`, in the same way.
* What a renderer prints is the list of the strings it writes to standard
  output, one per call of `fmt.Printf` or `fmt.Println`, in order.
* A recursive closure that looks a child up by key (`walk(v[k], ...)`) is given
  the recursive calls on all the children, by key, and looks the call up.
-/

/-- A Go string, as the list of its characters. -/
abbrev Str := List Char

/-- A `float64`, identified by its IEEE-754 bit pattern. -/
structure Float64 where
  bits : Nat
deriving DecidableEq, Repr

/-- Library functions taken as parameters. -/
structure GoLib where
  /-- The call `strconv.ParseFloat(s, 64)`; `none` when it returns an error. -/
  ParseFloat : Str → Option Float64
  /-- The `%v` formatting of a `float64`. -/
  FormatFloat : Float64 → Str
  /-- The function `strings.ToLower`. -/
  ToLower : Str → Str

/-- An instance of the library parameters, used to run the definitions on
concrete inputs made of ASCII text without float literals, on which it agrees
with the Go library: no string is accepted as a float and `ToLower` maps `A-Z`
to `a-z`. -/
def GoLib.ascii : GoLib :=
  { ParseFloat := fun _ => none
    FormatFloat := fun _ => []
    ToLower := List.map Char.toLower }

/-- A document value: what `yaml.v3` decodes into `interface{}` and what
`flattenToNestedMap` builds. -/
inductive Node where
  | null
  | bool (b : Bool)
  | int (i : Int)
  | float (f : Float64)
  | str (s : Str)
  | map (m : List (Str × Node))
  | seq (l : List Node)
deriving Repr

instance : Inhabited Node := ⟨Node.null⟩

/-! ## Package `strings` -/

namespace strings

/-- The function `strings.TrimPrefix`. -/
def TrimPrefix (s pre : Str) : Str :=
  if pre.isPrefixOf s then s.drop pre.length else s

/-- The function `strings.TrimSuffix`. -/
def TrimSuffix (s suf : Str) : Str :=
  if suf.isSuffixOf s then s.take (s.length - suf.length) else s

/-- Removal of every leading occurrence of the character `c`. -/
def trimLeft (c : Char) : Str → Str
  | [] => []
  | a :: as => if a = c then trimLeft c as else a :: as

/-- The function `strings.Trim(s, cutset)` for a one-character cutset. -/
def Trim (s : Str) (c : Char) : Str :=
  (trimLeft c (trimLeft c s).reverse).reverse

/-- The function `strings.Split(s, sep)` for a one-character separator. -/
def Split (sep : Char) : Str → List Str
  | [] => [[]]
  | a :: as =>
    if a = sep then [] :: Split sep as
    else
      match Split sep as with
      | [] => [[a]]
      | hd :: tl => (a :: hd) :: tl

/-- The function `strings.Contains`. -/
def Contains : Str → Str → Bool
  | [], sub => sub.isEmpty
  | a :: as, sub => sub.isPrefixOf (a :: as) || Contains as sub

/-- The comparison `a < b` of two Go strings. -/
def Less : Str → Str → Bool
  | [], [] => false
  | [], _ :: _ => true
  | _ :: _, [] => false
  | a :: as, b :: bs =>
    if a.toNat < b.toNat then true
    else if a.toNat = b.toNat then Less as bs
    else false

end strings

/-! ## Packages `unicode`, `strconv` and `fmt` -/

/-- The function `unicode.IsSpace`: the Unicode White_Space property. -/
def unicode.IsSpace (c : Char) : Bool :=
  let n := c.toNat
  (9 ≤ n && n ≤ 13) || n == 0x20 || n == 0x85 || n == 0xA0 || n == 0x1680 ||
  (0x2000 ≤ n && n ≤ 0x200A) || n == 0x2028 || n == 0x2029 || n == 0x202F ||
  n == 0x205F || n == 0x3000

/-- The function `strings.TrimSpace`. -/
def strings.TrimSpace (s : Str) : Str :=
  ((s.dropWhile unicode.IsSpace).reverse.dropWhile unicode.IsSpace).reverse

namespace strconv

/-- The function `strconv.ParseBool`; `none` when it returns an error. -/
def ParseBool (s : Str) : Option Bool :=
  if s ∈ ["1", "t", "T", "TRUE", "true", "True"].map String.toList then some true
  else if s ∈ ["0", "f", "F", "FALSE", "false", "False"].map String.toList then some false
  else none

/-- The test `'0' <= c && c <= '9'`. -/
def isDigit (c : Char) : Bool := decide (48 ≤ c.toNat) && decide (c.toNat ≤ 57)

/-- The digit loop of `strconv.ParseUint` in base 10: `none` on a character
that is not a decimal digit. -/
def parseDigits : Nat → Str → Option Nat
  | acc, [] => some acc
  | acc, c :: cs =>
    if isDigit c then parseDigits (acc * 10 + (c.toNat - 48)) cs else none

/-- The call `strconv.ParseUint(s, 10, 64)` up to the range check, which
`ParseInt` redoes: the value of a non-empty string of decimal digits. -/
def ParseUint (s : Str) : Option Nat :=
  if s = [] then none else parseDigits 0 s

/-- The call `strconv.ParseInt(s, 10, 64)`; `none` when it returns an error
(bad syntax or a value outside the signed 64-bit range). -/
def ParseInt (s : Str) : Option Int :=
  match s with
  | [] => none
  | c :: cs =>
    let neg := decide (c = '-')
    let digits := if c = '+' ∨ c = '-' then cs else s
    match ParseUint digits with
    | none => none
    | some un =>
      if !neg && decide (2 ^ 63 ≤ un) then none
      else if neg && decide (2 ^ 63 < un) then none
      else some (if neg then -(un : Int) else (un : Int))

/-- The function `strconv.Atoi` on a platform whose `int` has 64 bits; `none`
when it returns an error. -/
def Atoi (s : Str) : Option Int := ParseInt s

end strconv

namespace fmt

/-- The decimal digit character of `d < 10`. -/
def digit (d : Nat) : Char := Char.ofNat (48 + d)

/-- Decimal digits of `n`, most significant first, in front of `acc`. -/
def natAux : Nat → Nat → Str → Str
  | 0, _, acc => acc
  | fuel + 1, n, acc =>
    if n / 10 = 0 then digit (n % 10) :: acc
    else natAux fuel (n / 10) (digit (n % 10) :: acc)

/-- The `%d` formatting of a non-negative integer. -/
def formatNat (n : Nat) : Str := natAux (n + 1) n []

/-- The `%d` (and `%v`) formatting of an integer. -/
def formatInt (i : Int) : Str :=
  if i < 0 then '-' :: formatNat i.natAbs else formatNat i.natAbs

/-- The `%v` formatting of a leaf value, `fmt.Sprintf("%v", val)`.  The callers
format leaves only; the container cases are never reached. -/
def Sprint (L : GoLib) : Node → Str
  | .null => "<nil>".toList
  | .bool b => if b then "true".toList else "false".toList
  | .int i => formatInt i
  | .float f => L.FormatFloat f
  | .str s => s
  | .map _ => []
  | .seq _ => []

end fmt

/-! ## Go maps as association lists -/

/-- The lookup `v, ok := m[k]`. -/
def mapGet : List (Str × Node) → Str → Option Node
  | [], _ => none
  | (k', v) :: rest, k => if k = k' then some v else mapGet rest k

/-- The assignment `m[k] = v`. -/
def mapSet : List (Str × Node) → Str → Node → List (Str × Node)
  | [], k, v => [(k, v)]
  | (k', v') :: rest, k, v =>
    if k = k' then (k, v) :: rest
    else if strings.Less k k' then (k, v) :: (k', v') :: rest
    else (k', v') :: mapSet rest k v

/-- The lookup `flat[k]` in a `map[string]string`; the zero value when absent. -/
def flatGet : List (Str × Str) → Str → Str
  | [], _ => []
  | (k', v) :: rest, k => if k = k' then v else flatGet rest k

/-! ## `cmd/save.go` -/

/-- The function `parseTypedValue` of `cmd/save.go`. -/
def parseTypedValue (L : GoLib) (s : Str) : Node :=
  let s := strings.TrimSpace s
  match strconv.ParseBool s with
  | some b => .bool b
  | none =>
    match strconv.ParseInt s with
    | some i => .int i
    | none =>
      match L.ParseFloat s with
      | some f => .float f
      | none => .str s

/-- The function `insertIntoTree` of `cmd/save.go`.  The result is the tree
after the in-place update; `none` is the panic of the type assertion
`current[part].(map[string]interface{})` on a value that is not a mapping. -/
def insertIntoTree (current : List (Str × Node)) : List Str → Node → Option (List (Str × Node))
  | [], _ => some current
  | [part], val => some (mapSet current part val)
  | part :: next :: more, val =>
    match mapGet current part with
    | none =>
      (insertIntoTree [] (next :: more) val).map (fun c => mapSet current part (.map c))
    | some (.map child) =>
      (insertIntoTree child (next :: more) val).map (fun c => mapSet current part (.map c))
    | some _ => none

/-- The function `isNumericMap` of `cmd/save.go`. -/
def isNumericMap (m : List (Str × Node)) : Bool :=
  if m.length = 0 then false
  else m.all (fun kv => (strconv.Atoi kv.1).isSome)

/-- The value of `max` after the loop of `convertMapsToSlices` over the keys. -/
def maxIndex : List (Str × Node) → Int → Int
  | [], max => max
  | (k, _) :: rest, max =>
    let idx := (strconv.Atoi k).getD 0
    maxIndex rest (if idx > max then idx else max)

/-- The lookup `temp[i]` in the `map[int]interface{}` filled by the loop of
`convertMapsToSlices`: the last value assigned to index `i`, `nil` when there
is none. -/
def tempGet (temp : List (Int × Node)) (i : Int) : Node :=
  temp.foldl (fun acc jv => if jv.1 = i then jv.2 else acc) .null

/-- The slice filled by `for i := 0; i <= max; i++ { slice[i] = temp[i] }`. -/
def makeSlice (temp : List (Int × Node)) (len : Nat) : List Node :=
  (List.range len).map (fun (i : Nat) => tempGet temp (Int.ofNat i))

/-- Wrap-around of a 64-bit signed integer. -/
def wrapInt64 (x : Int) : Int := (x + 2 ^ 63) % 2 ^ 64 - 2 ^ 63

mutual
/-- The function `convertMapsToSlices` of `cmd/save.go`.  `none` is the panic of
`make([]interface{}, max+1)` when `max+1` wraps around to a negative length.
Memory is taken to be unbounded. -/
def convertMapsToSlices : Node → Option Node
  | .map m =>
    if isNumericMap m then
      match convertTemp m with
      | none => none
      | some temp =>
        let len := wrapInt64 (maxIndex m (-1) + 1)
        if len < 0 then none else some (.seq (makeSlice temp len.toNat))
    else
      match convertEntries m with
      | none => none
      | some m' => some (.map m')
  | .seq l =>
    match convertList l with
    | none => none
    | some l' => some (.seq l')
  | .null => some .null
  | .bool b => some (.bool b)
  | .int i => some (.int i)
  | .float f => some (.float f)
  | .str s => some (.str s)
/-- The loop `temp[idx] = convertMapsToSlices(val)` over a numeric mapping: the
assignments to `temp`, in iteration order. -/
def convertTemp : List (Str × Node) → Option (List (Int × Node))
  | [] => some []
  | (k, val) :: rest =>
    match convertMapsToSlices val, convertTemp rest with
    | some val', some rest' => some (((strconv.Atoi k).getD 0, val') :: rest')
    | _, _ => none
/-- The loop `v[k] = convertMapsToSlices(val)` over a mapping. -/
def convertEntries : List (Str × Node) → Option (List (Str × Node))
  | [] => some []
  | (k, val) :: rest =>
    match convertMapsToSlices val, convertEntries rest with
    | some val', some rest' => some ((k, val') :: rest')
    | _, _ => none
/-- The loop `v[i] = convertMapsToSlices(val)` over a sequence. -/
def convertList : List Node → Option (List Node)
  | [] => some []
  | val :: rest =>
    match convertMapsToSlices val, convertList rest with
    | some val', some rest' => some (val' :: rest')
    | _, _ => none
end

/-- The comparison function given to `sort.SliceStable` in `flattenToNestedMap`,
`printTree` and `printYAMLTree`: number of `/`-separated parts first, then the
string order. -/
def keyLess (a b : Str) : Bool :=
  let depthI := (strings.Split '/' a).length
  let depthJ := (strings.Split '/' b).length
  if depthI ≠ depthJ then decide (depthI < depthJ) else strings.Less a b

/-- Insertion of `a` into a sorted list, before the first element that is not
less than it. -/
def sort.insert (less : Str → Str → Bool) (a : Str) : List Str → List Str
  | [] => [a]
  | b :: bs => if less b a then b :: sort.insert less a bs else a :: b :: bs

/-- The function `sort.SliceStable`, as a stable insertion sort. -/
def sort.SliceStable (less : Str → Str → Bool) : List Str → List Str
  | [] => []
  | a :: as => sort.insert less a (sort.SliceStable less as)

/-- The path segments of a full key: lines 112-113 of `cmd/save.go`,
`strings.Split(strings.Trim(strings.TrimPrefix(fullKey, prefix), "/"), "/")`. -/
def toSegments (fullKey pfx : Str) : List Str :=
  strings.Split '/' (strings.Trim (strings.TrimPrefix fullKey pfx) '/')

/-- The insertion loop of `flattenToNestedMap` over the sorted keys. -/
def insertAll (L : GoLib) (flat : List (Str × Str)) (pfx : Str) :
    List (Str × Node) → List Str → Option (List (Str × Node))
  | tree, [] => some tree
  | tree, fullKey :: rest =>
    match insertIntoTree tree (toSegments fullKey pfx) (parseTypedValue L (flatGet flat fullKey)) with
    | none => none
    | some tree' => insertAll L flat pfx tree' rest

/-- The function `flattenToNestedMap` of `cmd/save.go`; `rawOutput` is the
global flag of that name.  `none` is a panic: of `insertIntoTree`, of
`convertMapsToSlices`, or of the final type assertion to a mapping. -/
def flattenToNestedMap (L : GoLib) (rawOutput : Bool) (flat : List (Str × Str)) (pfx : Str) :
    Option (List (Str × Node)) :=
  let keys := sort.SliceStable keyLess (flat.map Prod.fst)
  match insertAll L flat pfx [] keys with
  | none => none
  | some tree =>
    if rawOutput then some tree
    else
      match convertMapsToSlices (.map tree) with
      | some (.map m) => some m
      | _ => none

/-! ## `cmd/load.go` -/

/-- The function `isSensitiveKey` of `cmd/load.go`. -/
def isSensitiveKey (L : GoLib) (key : Str) : Bool :=
  let sensitive := ["password", "secret", "token", "key", "apikey", "auth", "private"].map String.toList
  let key := L.ToLower key
  sensitive.any (fun s => strings.Contains key s)

/-- The two parameter types `loadConfig` chooses between. -/
inductive ParameterType where
  | String
  | SecureString
deriving DecidableEq, Repr

/-- The input of one `PutParameter` call. -/
structure PutParameterInput where
  Name : Str
  Value : Str
  /-- The field `Type` of the input. -/
  ParamType : ParameterType
  Overwrite : Bool
deriving DecidableEq, Repr

/-- The global flags read by `loadConfig`. -/
structure LoadFlags where
  secure : Bool
  autoSecure : Bool
  showValues : Bool
  overwrite : Bool

/-- The parameter store seen by `loadConfig`: the outcome of a `PutParameter`
call, `none` for success or the error, given the calls issued before it. -/
abbrev PutClient := List PutParameterInput → PutParameterInput → Option Str

/-- The effects of a run of `loadConfig`, oldest first. -/
structure LoadLog where
  /-- The `PutParameter` calls issued. -/
  puts : List PutParameterInput
  /-- The lines printed to standard output. -/
  stdout : List Str
  /-- The failures reported on standard error: the path and the error. -/
  stderr : List (Str × Str)

/-- The `PutParameterInput` built by the leaf branch of `loadConfig`. -/
def putInputOf (L : GoLib) (fl : LoadFlags) (val : Node) (path : Str) : PutParameterInput :=
  let valueStr := fmt.Sprint L val
  let isSecure := fl.secure || (fl.autoSecure && isSensitiveKey L path)
  let paramType := if isSecure then ParameterType.SecureString else ParameterType.String
  { Name := path, Value := valueStr, ParamType := paramType, Overwrite := fl.overwrite }

/-- The leaf branch of `loadConfig`: one `PutParameter` call; an error of the
call is reported and dropped. -/
def loadLeaf (L : GoLib) (fl : LoadFlags) (client : PutClient) (val : Node) (path : Str)
    (log : LoadLog) : Option Str × LoadLog :=
  let valueStr := fmt.Sprint L val
  let isSecure := fl.secure || (fl.autoSecure && isSensitiveKey L path)
  let lockIcon := if isSecure then " 🔒".toList else []
  let line :=
    if fl.showValues then "Uploading ".toList ++ path ++ lockIcon ++ " = ".toList ++ valueStr
    else "Uploading ".toList ++ path ++ lockIcon
  let input := putInputOf L fl val path
  match client log.puts input with
  | some err =>
    (none, { puts := log.puts ++ [input], stdout := log.stdout ++ [line],
             stderr := log.stderr ++ [(path, err)] })
  | none =>
    (none, { puts := log.puts ++ [input], stdout := log.stdout ++ [line],
             stderr := log.stderr })

mutual
/-- The function `loadConfig` of `cmd/load.go`: the returned error and the
effects. -/
def loadConfig (L : GoLib) (fl : LoadFlags) (client : PutClient) :
    Node → Str → LoadLog → Option Str × LoadLog
  | .map m, path, log => loadConfigMap L fl client m path log
  | .seq l, path, log => loadConfigSeq L fl client l 0 path log
  | .null, path, log => loadLeaf L fl client .null path log
  | .bool b, path, log => loadLeaf L fl client (.bool b) path log
  | .int i, path, log => loadLeaf L fl client (.int i) path log
  | .float f, path, log => loadLeaf L fl client (.float f) path log
  | .str s, path, log => loadLeaf L fl client (.str s) path log
/-- The loop of `loadConfig` over the entries of a mapping. -/
def loadConfigMap (L : GoLib) (fl : LoadFlags) (client : PutClient) :
    List (Str × Node) → Str → LoadLog → Option Str × LoadLog
  | [], _, log => (none, log)
  | (key, v) :: rest, path, log =>
    let childPath := strings.TrimSuffix path "/".toList ++ "/".toList ++ key
    match loadConfig L fl client v childPath log with
    | (some err, log') => (some err, log')
    | (none, log') => loadConfigMap L fl client rest path log'
/-- The loop of `loadConfig` over the elements of a sequence, from index `i`. -/
def loadConfigSeq (L : GoLib) (fl : LoadFlags) (client : PutClient) :
    List Node → Nat → Str → LoadLog → Option Str × LoadLog
  | [], _, _, log => (none, log)
  | v :: rest, i, path, log =>
    let childPath := path ++ "/".toList ++ fmt.formatNat i
    match loadConfig L fl client v childPath log with
    | (some err, log') => (some err, log')
    | (none, log') => loadConfigSeq L fl client rest (i + 1) path log'
end

/-! ## `cmd/delete.go` -/

mutual
/-- The closure `walk` of `flattenYAMLKeys`: the keys it appends, in order. -/
def flattenYAMLKeys.walk : Node → Str → List Str
  | .map m, path => flattenYAMLKeys.walkMap m path
  | .seq l, path => flattenYAMLKeys.walkSeq l 0 path
  | .null, path => [path]
  | .bool _, path => [path]
  | .int _, path => [path]
  | .float _, path => [path]
  | .str _, path => [path]
/-- The loop of `walk` over the entries of a mapping. -/
def flattenYAMLKeys.walkMap : List (Str × Node) → Str → List Str
  | [], _ => []
  | (k, v) :: rest, path =>
    flattenYAMLKeys.walk v (path ++ "/".toList ++ k) ++ flattenYAMLKeys.walkMap rest path
/-- The loop of `walk` over the elements of a sequence, from index `i`. -/
def flattenYAMLKeys.walkSeq : List Node → Nat → Str → List Str
  | [], _, _ => []
  | v :: rest, i, path =>
    flattenYAMLKeys.walk v (path ++ "/".toList ++ fmt.formatNat i) ++
      flattenYAMLKeys.walkSeq rest (i + 1) path
end

/-- The function `flattenYAMLKeys` of `cmd/delete.go`. -/
def flattenYAMLKeys (data : Node) (pfx : Str) : List Str :=
  flattenYAMLKeys.walk data (strings.TrimSuffix pfx "/".toList)

/-! ## `cmd/yamltree.go` -/

/-- The closure `isSensitiveKey` of `printYAMLTree` in `cmd/yamltree.go`. -/
def printYAMLTree.isSensitiveKey (L : GoLib) (key : Str) : Bool :=
  let keywords := ["password", "secret", "token", "key", "apikey", "auth", "private"].map String.toList
  let key := L.ToLower key
  keywords.any (fun word => strings.Contains key word)

/-! ## Routes and leaves of a document -/

/-- One step on the way from a node to a child: a mapping key or a zero-based
sequence index. -/
inductive Step where
  | key (k : Str)
  | index (i : Nat)
deriving DecidableEq, Repr

/-- The segment a step contributes to a path: the key, or the index in decimal. -/
def Step.text : Step → Str
  | .key k => k
  | .index i => fmt.formatNat i

mutual
/-- The scalar-or-null leaves of a document, each with the route that leads to
it.  An empty mapping and an empty sequence have no leaf. -/
def leafEntries : Node → List (List Step × Node)
  | .map m => leafEntriesMap m
  | .seq l => leafEntriesSeq l 0
  | .null => [([], .null)]
  | .bool b => [([], .bool b)]
  | .int i => [([], .int i)]
  | .float f => [([], .float f)]
  | .str s => [([], .str s)]
/-- The leaves below the entries of a mapping. -/
def leafEntriesMap : List (Str × Node) → List (List Step × Node)
  | [] => []
  | (k, v) :: rest =>
    (leafEntries v).map (fun e => (Step.key k :: e.1, e.2)) ++ leafEntriesMap rest
/-- The leaves below the elements of a sequence whose first index is `i`. -/
def leafEntriesSeq : List Node → Nat → List (List Step × Node)
  | [], _ => []
  | v :: rest, i =>
    (leafEntries v).map (fun e => (Step.index i :: e.1, e.2)) ++ leafEntriesSeq rest (i + 1)
end

/-- The routes to the leaves of a document. -/
def leafRoutes (d : Node) : List (List Step) := (leafEntries d).map Prod.fst

/-- The segments of a list written one after the other, each preceded by `/`. -/
def slashJoin : List Str → Str
  | [] => []
  | s :: r => '/' :: (s ++ slashJoin r)

/-- A route written as `/`-separated segments, each preceded by `/`. -/
def routeText (r : List Step) : Str := slashJoin (r.map Step.text)

/-- Joining segments back onto a prefix, in the words of the specification:
the prefix without its trailing slash, then `/` and the segment, for each
segment. -/
def joinPath (segs : List Str) (pre : Str) : Str :=
  strings.TrimSuffix pre "/".toList ++ slashJoin segs

/-- The document in which the mappings nested along `segs` lead to `leaf`. -/
def chainDoc : List Str → Node → Node
  | [], leaf => leaf
  | k :: rest, leaf => .map [(k, chainDoc rest leaf)]

/-- The path of a route under a prefix, as the specification of the flattener
words it: the prefix with one trailing slash removed, followed by the
`/`-separated keys and indices of the route. -/
def routePath (pfx : Str) (r : List Step) : Str :=
  strings.TrimSuffix pfx "/".toList ++ routeText r

/-- The path `loadConfig` computes along a route: the successive `childPath`
values of its mapping and sequence branches. -/
def loadPath : Str → List Step → Str
  | path, [] => path
  | path, .key k :: r => loadPath (strings.TrimSuffix path "/".toList ++ "/".toList ++ k) r
  | path, .index i :: r => loadPath (path ++ "/".toList ++ fmt.formatNat i) r

/-- The log before `loadConfig` runs. -/
def LoadLog.empty : LoadLog := { puts := [], stdout := [], stderr := [] }

/-! ## Example inputs -/

/-- The document `{a: {b: 1, c: [true, "x"]}}` of the specification's scenarios. -/
def exampleDoc : Node :=
  .map [("a".toList, .map [("b".toList, .int 1),
                            ("c".toList, .seq [.bool true, .str "x".toList])])]

/-- The flags of `load` when none is given on the command line. -/
def LoadFlags.default : LoadFlags :=
  { secure := false, autoSecure := false, showValues := false, overwrite := false }

/-- A parameter store in which every `PutParameter` call succeeds. -/
def PutClient.ok : PutClient := fun _ _ => none

/-! ## Decimal keys, in the words of the specification -/

/-- A non-negative base-10 integer with no extra characters: a non-empty
string of decimal digits. -/
def isDecimal (k : Str) : Bool := !k.isEmpty && k.all strconv.isDigit

/-- The number a string of decimal digits denotes. -/
def decimalValue (k : Str) : Nat := k.foldl (fun acc c => acc * 10 + (c.toNat - 48)) 0

/-- An optional sign `+` or `-` followed by a non-empty string of decimal digits. -/
def isSignedDecimal : Str → Bool
  | [] => false
  | c :: cs => if c = '+' ∨ c = '-' then isDecimal cs else isDecimal (c :: cs)

/-! ## Reaching a value in a tree -/

/-- Descending from a node along a list of segments: every node passed on the
way is a mapping, and the result is the node reached. -/
def descend : Node → List Str → Option Node
  | n, [] => some n
  | .map m, k :: rest =>
    match mapGet m k with
    | some c => descend c rest
    | none => none
  | _, _ :: _ => none

/-- Neither segment list is a prefix of the other (in particular they differ). -/
def Separate (a b : List Str) : Prop := ¬ a <+: b ∧ ¬ b <+: a

/-- The mapping `insertIntoTree` descends into at the key `k` of `t`: the
mapping stored there, the fresh empty mapping when `k` is absent, and `none`
(the panic) when the value stored there is not a mapping. -/
def childOf (t : List (Str × Node)) (k : Str) : Option (List (Str × Node)) :=
  match mapGet t k with
  | none => some []
  | some (.map c) => some c
  | some _ => none

/-! ## Round trip: the documents concerned, and the expected result -/

mutual
/-- The documents the round trip is stated for.  Every leaf is a scalar that
the codec returns unchanged, `parseTypedValue` of its `%v` text being the leaf
itself; every mapping is non-empty, has pairwise distinct keys that are
non-empty and without `/`, and has a key `strconv.Atoi` rejects; every
sequence is non-empty (and shorter than `2^63`, as every Go slice is). -/
def RoundTrips (L : GoLib) : Node → Prop
  | .map m =>
    m ≠ [] ∧ isNumericMap m = false ∧ (m.map Prod.fst).Nodup ∧ RoundTripsEntries L m
  | .seq l => l ≠ [] ∧ l.length < 2 ^ 63 ∧ RoundTripsList L l
  | .null => parseTypedValue L (fmt.Sprint L .null) = .null
  | .bool b => parseTypedValue L (fmt.Sprint L (.bool b)) = .bool b
  | .int i => parseTypedValue L (fmt.Sprint L (.int i)) = .int i
  | .float f => parseTypedValue L (fmt.Sprint L (.float f)) = .float f
  | .str s => parseTypedValue L (fmt.Sprint L (.str s)) = .str s
/-- The condition `RoundTrips` on the entries of a mapping. -/
def RoundTripsEntries (L : GoLib) : List (Str × Node) → Prop
  | [] => True
  | (k, v) :: rest => k ≠ [] ∧ '/' ∉ k ∧ RoundTrips L v ∧ RoundTripsEntries L rest
/-- The condition `RoundTrips` on the elements of a sequence. -/
def RoundTripsList (L : GoLib) : List Node → Prop
  | [] => True
  | v :: rest => RoundTrips L v ∧ RoundTripsList L rest
end

mutual
/-- The tree `insertIntoTree` builds from the leaves of a document: a sequence
appears as the mapping of its decimal indices. -/
def rawOf : Node → Node
  | .map m => .map (rawEntries m [])
  | .seq l => .map (rawItems l 0 [])
  | .null => .null
  | .bool b => .bool b
  | .int i => .int i
  | .float f => .float f
  | .str s => .str s
/-- The entries of a mapping, assigned one after the other to `acc`. -/
def rawEntries : List (Str × Node) → List (Str × Node) → List (Str × Node)
  | [], acc => acc
  | (k, v) :: rest, acc => rawEntries rest (mapSet acc k (rawOf v))
/-- The elements of a sequence whose first index is `i`, assigned one after the
other to `acc` under their decimal indices. -/
def rawItems : List Node → Nat → List (Str × Node) → List (Str × Node)
  | [], _, acc => acc
  | v :: rest, i, acc => rawItems rest (i + 1) (mapSet acc (fmt.formatNat i) (rawOf v))
end

mutual
/-- The representative of a document: the same document with the entries of
every mapping assigned one after the other to an empty map, which orders them
by key. -/
def canon : Node → Node
  | .map m => .map (canonEntries m [])
  | .seq l => .seq (canonList l)
  | .null => .null
  | .bool b => .bool b
  | .int i => .int i
  | .float f => .float f
  | .str s => .str s
/-- The entries of a mapping, assigned one after the other to `acc`. -/
def canonEntries : List (Str × Node) → List (Str × Node) → List (Str × Node)
  | [], acc => acc
  | (k, v) :: rest, acc => canonEntries rest (mapSet acc k (canon v))
/-- The representatives of the elements of a sequence. -/
def canonList : List Node → List Node
  | [] => []
  | v :: rest => canon v :: canonList rest
end

mutual
/-- Structural equality of documents: equal scalars, sequences with equal
elements in the same order, and mappings with the same keys and equal values,
the order of the entries of a mapping being irrelevant. -/
inductive SameDoc : Node → Node → Prop
  | null : SameDoc .null .null
  | bool (b : Bool) : SameDoc (.bool b) (.bool b)
  | int (i : Int) : SameDoc (.int i) (.int i)
  | float (f : Float64) : SameDoc (.float f) (.float f)
  | str (s : Str) : SameDoc (.str s) (.str s)
  | seq {l l' : List Node} : SameList l l' → SameDoc (.seq l) (.seq l')
  | map {m m₁ m' : List (Str × Node)} :
      List.Perm m m₁ → SameEntries m₁ m' → SameDoc (.map m) (.map m')
/-- Element-wise structural equality of two sequences. -/
inductive SameList : List Node → List Node → Prop
  | nil : SameList [] []
  | cons {v v' : Node} {l l' : List Node} :
      SameDoc v v' → SameList l l' → SameList (v :: l) (v' :: l')
/-- Entry-wise structural equality of two entry lists: same keys, equal values. -/
inductive SameEntries : List (Str × Node) → List (Str × Node) → Prop
  | nil : SameEntries [] []
  | cons {k : Str} {v v' : Node} {m m' : List (Str × Node)} :
      SameDoc v v' → SameEntries m m' → SameEntries ((k, v) :: m) ((k, v') :: m')
end

/-- The insertion loop of `flattenToNestedMap`, over the segments and values of
the keys. -/
def insertPairs : List (Str × Node) → List (List Str × Node) → Option (List (Str × Node))
  | t, [] => some t
  | t, (p, v) :: rest => (insertIntoTree t p v).bind (fun t1 => insertPairs t1 rest)

/-- The store after `loadConfig` has run on an empty store in which every call
succeeds: the name and value of every `PutParameter` call. -/
def storeOf (log : LoadLog) : List (Str × Str) :=
  log.puts.map (fun p => (p.Name, p.Value))

/-- The elements of a sequence whose first index is `i`, each under its
decimal index, in order. -/
def itemEntries : List Node → Nat → List (Str × Node)
  | [], _ => []
  | v :: rest, i => (fmt.formatNat i, rawOf v) :: itemEntries rest (i + 1)

/-- The document `{a: {b: 2, c: [true, "x"]}}`: the scenario document with the
integer 2 in place of 1. -/
def exampleDoc2 : List (Str × Node) :=
  [("a".toList, .map [("b".toList, .int 2),
                       ("c".toList, .seq [.bool true, .str "x".toList])])]

/-! ## Leaves, by position -/

/-- The node `v` is reached from `n` by the route `r`: each key step goes to the
value of an entry with that key, each index step to the element at that
zero-based position. -/
inductive Reaches : Node → List Step → Node → Prop
  | here (n : Node) : Reaches n [] n
  | key {m : List (Str × Node)} {k : Str} {c : Node} {r : List Step} {v : Node} :
      (k, c) ∈ m → Reaches c r v → Reaches (.map m) (.key k :: r) v
  | index {l : List Node} {i : Nat} {c : Node} {r : List Step} {v : Node} :
      l[i]? = some c → Reaches c r v → Reaches (.seq l) (.index i :: r) v

/-- A scalar or null node: neither a mapping nor a sequence. -/
def Node.isLeaf : Node → Bool
  | .map _ => false
  | .seq _ => false
  | _ => true

mutual
/-- Every mapping of the document has pairwise distinct keys, as every Go map
has. -/
def DistinctKeys : Node → Prop
  | .map m => (m.map Prod.fst).Nodup ∧ DistinctKeysEntries m
  | .seq l => DistinctKeysList l
  | _ => True
/-- The condition `DistinctKeys` on the values of a mapping. -/
def DistinctKeysEntries : List (Str × Node) → Prop
  | [] => True
  | (_, v) :: rest => DistinctKeys v ∧ DistinctKeysEntries rest
/-- The condition `DistinctKeys` on the elements of a sequence. -/
def DistinctKeysList : List Node → Prop
  | [] => True
  | v :: rest => DistinctKeys v ∧ DistinctKeysList rest
end

mutual
/-- Every key of every mapping of the document is non-empty and does not end
in `/`. -/
def PlainKeys : Node → Prop
  | .map m => PlainKeysEntries m
  | .seq l => PlainKeysList l
  | _ => True
/-- The condition `PlainKeys` on the entries of a mapping. -/
def PlainKeysEntries : List (Str × Node) → Prop
  | [] => True
  | (k, v) :: rest => k ≠ [] ∧ k.getLast? ≠ some '/' ∧ PlainKeys v ∧ PlainKeysEntries rest
/-- The condition `PlainKeys` on the elements of a sequence. -/
def PlainKeysList : List Node → Prop
  | [] => True
  | v :: rest => PlainKeys v ∧ PlainKeysList rest
end

/-- The store `loadConfig` leaves for a document under the prefix `/app`, when
every call succeeds. -/
def storedUnderApp (d : Node) : List (Str × Str) :=
  storeOf (loadConfig GoLib.ascii LoadFlags.default PutClient.ok d "/app".toList LoadLog.empty).2

/-! ## Package `github.com/fatih/color` -/

/-- The attributes the renderers pass to `color.New`. -/
inductive color.Attribute where
  | Bold
  | FgYellow
  | FgCyan
  | FgWhite
  | FgHiBlack
  | FgHiCyan
deriving DecidableEq, Repr

/-- The colouring library, taken as a parameter. -/
structure ColorLib where
  /-- The call `color.New(attrs...).Sprint(s)`: the text `s` between the escape
  sequences of the attributes, or `s` itself when colours are disabled.
  `Sprintf` is `Sprint` of the formatted text. -/
  Sprint : List color.Attribute → Str → Str

/-- The colouring library with colours disabled (`color.NoColor`, the setting
when standard output is not a terminal). -/
def ColorLib.plain : ColorLib := { Sprint := fun _ s => s }

/-! ## Go maps with other value types -/

/-- The lookup `v, ok := m[k]` in a map with string keys. -/
def assocGet {α : Type} : List (Str × α) → Str → Option α
  | [], _ => none
  | (k', v) :: rest, k => if k = k' then some v else assocGet rest k

/-- The assignment `m[k] = v` in a map with string keys. -/
def assocSet {α : Type} : List (Str × α) → Str → α → List (Str × α)
  | [], k, v => [(k, v)]
  | (k', v') :: rest, k, v =>
    if k = k' then (k, v) :: rest
    else if strings.Less k k' then (k, v) :: (k', v') :: rest
    else (k', v') :: assocSet rest k v

/-! ## `cmd/yamltree.go`: the renderer -/

/-- The closure `isLeaf` of `printYAMLTree`. -/
def printYAMLTree.isLeaf : Node → Bool
  | .str _ => true
  | .bool _ => true
  | .int _ => true
  | .float _ => true
  | .null => true
  | .map _ => false
  | .seq _ => false

/-- The body of the loop `for i, k := range keys` of the mapping case of `walk`:
the strings written by `fmt.Printf` for the key `k` at position `i`, in order.
`v` is the mapping, `n` is `len(keys)`, `connector` is the connector `walk`
chose on entry, and `walkOf k` is the recursive call `walk(v[k], ...)`.  The
body runs only when `n` is positive, where `i == len(keys)-1` is `i = n - 1`. -/
def printYAMLTree.keyBody (L : GoLib) (C : ColorLib) (showValues : Bool)
    (v : List (Str × Node)) (walkOf : Str → Str → Bool → Str → List Str)
    (pfx connector fullPath : Str) (n i : Nat) (k : Str) : List Str :=
  let isLast := decide (i = n - 1)
  let newPrefix := pfx ++ (if !isLast then "    ".toList else "│   ".toList)
  let nextPath := fullPath ++ "/".toList ++ k
  let sensitive := printYAMLTree.isSensitiveKey L nextPath
  let label := if sensitive then C.Sprint [.FgCyan] k else C.Sprint [.FgWhite] k
  let lock := if sensitive then " 🔒".toList else []
  let item := (mapGet v k).getD .null
  if printYAMLTree.isLeaf item && showValues then
    [pfx ++ connector ++ label ++ lock ++ " = ".toList ++
      C.Sprint [.FgHiBlack] (fmt.Sprint L item) ++ "\n".toList]
  else
    (pfx ++ connector ++ label ++ lock ++ "\n".toList) :: walkOf k newPrefix isLast nextPath

/-- The loop `for i, k := range keys` of the mapping case of `walk`, from
position `i`. -/
def printYAMLTree.walkKeys (L : GoLib) (C : ColorLib) (showValues : Bool)
    (v : List (Str × Node)) (walkOf : Str → Str → Bool → Str → List Str)
    (pfx connector fullPath : Str) (n : Nat) : Nat → List Str → List Str
  | _, [] => []
  | i, k :: rest =>
    printYAMLTree.keyBody L C showValues v walkOf pfx connector fullPath n i k ++
      printYAMLTree.walkKeys L C showValues v walkOf pfx connector fullPath n (i + 1) rest

/-- The body of the loop `for i, item := range v` of the sequence case of
`walk`: the strings written for the element `item` at index `i`; `n` is
`len(v)` and `walkItem` is the recursive call `walk(item, ...)`. -/
def printYAMLTree.itemBody (L : GoLib) (C : ColorLib) (showValues : Bool)
    (walkItem : Str → Bool → Str → List Str)
    (pfx connector fullPath : Str) (n i : Nat) (item : Node) : List Str :=
  let isLast := decide (i = n - 1)
  let newPrefix := pfx ++ (if !isLast then "    ".toList else "│   ".toList)
  let nextPath := fullPath ++ "/".toList ++ fmt.formatNat i
  let sensitive := printYAMLTree.isSensitiveKey L nextPath
  let label :=
    if sensitive then C.Sprint [.FgCyan] (fmt.formatNat i)
    else C.Sprint [.FgYellow] (fmt.formatNat i)
  let lock := if sensitive then " 🔒".toList else []
  if printYAMLTree.isLeaf item && showValues then
    [pfx ++ connector ++ label ++ lock ++ " = ".toList ++
      C.Sprint [.FgHiBlack] (fmt.Sprint L item) ++ "\n".toList]
  else
    (pfx ++ connector ++ label ++ lock ++ "\n".toList) :: walkItem newPrefix isLast nextPath

mutual
/-- The closure `walk` of `printYAMLTree`: the strings written by `fmt.Printf`,
in order. -/
def printYAMLTree.walk (L : GoLib) (C : ColorLib) (showValues : Bool) :
    Node → Str → Bool → Str → List Str
  | .map v, pfx, last, fullPath =>
    let connector := if last then "└── ".toList else "├── ".toList
    let keys := sort.SliceStable keyLess (v.map Prod.fst)
    printYAMLTree.walkKeys L C showValues v
      (fun k => (assocGet (printYAMLTree.walkEntries L C showValues v) k).getD (fun _ _ _ => []))
      pfx connector fullPath keys.length 0 keys
  | .seq v, pfx, last, fullPath =>
    let connector := if last then "└── ".toList else "├── ".toList
    printYAMLTree.walkItems L C showValues v pfx connector fullPath v.length 0
  | .null, _, _, _ => []
  | .bool _, _, _, _ => []
  | .int _, _, _, _ => []
  | .float _, _, _, _ => []
  | .str _, _, _, _ => []
/-- The recursive calls of `walk` on the values of a mapping, by key. -/
def printYAMLTree.walkEntries (L : GoLib) (C : ColorLib) (showValues : Bool) :
    List (Str × Node) → List (Str × (Str → Bool → Str → List Str))
  | [] => []
  | (k, val) :: rest =>
    (k, printYAMLTree.walk L C showValues val) :: printYAMLTree.walkEntries L C showValues rest
/-- The loop `for i, item := range v` of the sequence case of `walk`, from
index `i`; `n` is `len(v)`. -/
def printYAMLTree.walkItems (L : GoLib) (C : ColorLib) (showValues : Bool) :
    List Node → Str → Str → Str → Nat → Nat → List Str
  | [], _, _, _, _, _ => []
  | item :: rest, pfx, connector, fullPath, n, i =>
    printYAMLTree.itemBody L C showValues (printYAMLTree.walk L C showValues item)
      pfx connector fullPath n i item ++
    printYAMLTree.walkItems L C showValues rest pfx connector fullPath n (i + 1)
end

/-- The function `printYAMLTree` of `cmd/yamltree.go`: the strings written to
standard output, in order.  `showValues` is the global flag of that name. -/
def printYAMLTree (L : GoLib) (C : ColorLib) (showValues : Bool) (data : Node) : List Str :=
  (C.Sprint [.FgHiCyan, .Bold] "root".toList ++ "\n".toList) ::
    printYAMLTree.walk L C showValues data [] true []

/-! ## `cmd/tree.go` -/

/-- The type `treeParam` of `cmd/tree.go`; `types.ParameterType` is a string
type. -/
structure treeParam where
  /-- The field `Type`. -/
  ParamType : Str
  Value : Str
deriving DecidableEq, Repr

/-- The local type `node` of `printTree`. -/
inductive printTree.node where
  | mk (name : Str) (fullPath : Str) (children : List (Str × printTree.node))

instance : Inhabited printTree.node := ⟨.mk [] [] []⟩

/-- The name of a node. -/
def printTree.node.name : printTree.node → Str
  | .mk name _ _ => name

/-- The children of a node. -/
def printTree.node.children : printTree.node → List (Str × printTree.node)
  | .mk _ _ children => children

/-- The inner loop `for _, part := range parts` of `printTree`, on the children
of `current`: the children after the loop. -/
def printTree.addPath :
    List (Str × printTree.node) → Str → List Str → List (Str × printTree.node)
  | children, _, [] => children
  | children, currentPath, part :: rest =>
    let currentPath := currentPath ++ "/".toList ++ part
    match assocGet children part with
    | none =>
      assocSet children part (.mk part currentPath (printTree.addPath [] currentPath rest))
    | some (.mk name fullPath ch) =>
      assocSet children part (.mk name fullPath (printTree.addPath ch currentPath rest))

/-- The tree `printTree` builds from the paths. -/
def printTree.build (paths : List Str) (rootPrefix : Str) : printTree.node :=
  .mk "/".toList rootPrefix
    (paths.foldl
      (fun children path =>
        printTree.addPath children (strings.TrimSuffix rootPrefix "/".toList)
          (strings.Split '/' path))
      [])

/-- The loop `for i, k := range keys` of the closure `walk` of `printTree`, from
position `i`; `n` is `len(keys)` and `walkOf k` is the recursive call
`walk(n.children[k], ...)`. -/
def printTree.walkKeys (walkOf : Str → Str → Bool → List Str) (newPrefix : Str) (n : Nat) :
    Nat → List Str → List Str
  | _, [] => []
  | i, k :: rest =>
    walkOf k newPrefix (decide (i = n - 1)) ++ printTree.walkKeys walkOf newPrefix n (i + 1) rest

/-- The label `walk` prints for a node. -/
def printTree.label (C : ColorLib) (values : List (Str × treeParam)) (showValues : Bool)
    (name fullPath : Str) : Str :=
  let label := name
  let label := if (strconv.Atoi name).isSome then C.Sprint [.FgYellow] label else label
  match assocGet values fullPath with
  | some param =>
    let label :=
      if param.ParamType = "SecureString".toList then C.Sprint [.FgCyan] (label ++ " 🔒".toList)
      else C.Sprint [.FgWhite] label
    if showValues then label ++ " = ".toList ++ C.Sprint [.FgHiBlack] param.Value else label
  | none => label

mutual
/-- The closure `walk` of `printTree`: the strings written by `fmt.Printf`, in
order. -/
def printTree.walk (C : ColorLib) (values : List (Str × treeParam)) (showValues : Bool) :
    printTree.node → Str → Bool → List Str
  | .mk name fullPath children, pfx, last =>
    let connector := if last then "└── ".toList else "├── ".toList
    let label := printTree.label C values showValues name fullPath
    let keys := sort.SliceStable keyLess (children.map Prod.fst)
    let newPrefix :=
      if name ≠ "/".toList then pfx ++ (if last then "    ".toList else "│   ".toList) else pfx
    (if name ≠ "/".toList then [pfx ++ connector ++ label ++ "\n".toList] else []) ++
      printTree.walkKeys
        (fun k =>
          (assocGet (printTree.walkChildren C values showValues children) k).getD (fun _ _ => []))
        newPrefix keys.length 0 keys
/-- The recursive calls of `walk` on the children of a node, by key. -/
def printTree.walkChildren (C : ColorLib) (values : List (Str × treeParam))
    (showValues : Bool) : List (Str × printTree.node) → List (Str × (Str → Bool → List Str))
  | [] => []
  | (k, c) :: rest =>
    (k, printTree.walk C values showValues c) :: printTree.walkChildren C values showValues rest
end

/-- The function `printTree` of `cmd/tree.go`: the strings written to standard
output, in order.  `showValues` is the global flag of that name. -/
def printTree (C : ColorLib) (showValues : Bool) (paths : List Str)
    (values : List (Str × treeParam)) (rootPrefix : Str) : List Str :=
  printTree.walk C values showValues (printTree.build paths rootPrefix) [] true

/-- The number of `/`-separated segments of a name, `len(strings.Split(k, "/"))`. -/
def segmentCount (k : Str) : Nat := (strings.Split '/' k).length

/-- The order of the siblings, in the words of the specification: fewer
segments first, and the string order among names with the same number of
segments. -/
def SiblingBefore (a b : Str) : Prop :=
  segmentCount a < segmentCount b ∨
    (segmentCount a = segmentCount b ∧ strings.Less a b = true)

mutual
/-- A tree of `printTree` nodes as the construction loop produces them: the
children of a node are listed by ascending key, which is the representative
list of a Go map and makes the keys pairwise distinct, and every child is
stored under its own name, which contains no `/`. -/
def printTree.node.Built : printTree.node → Prop
  | .mk _ _ children =>
    (children.map Prod.fst).Pairwise (fun a b => strings.Less a b = true) ∧
      printTree.BuiltChildren children
/-- The condition `Built` on the children of a node. -/
def printTree.BuiltChildren : List (Str × printTree.node) → Prop
  | [] => True
  | (k, c) :: rest =>
    c.name = k ∧ '/' ∉ k ∧ printTree.node.Built c ∧ printTree.BuiltChildren rest
end

/-- The recursive call `walk(n.children[k], ...)` of the closure `walk` of
`printTree`, for a key `k` of the children. -/
def printTree.walkChild (C : ColorLib) (values : List (Str × treeParam)) (showValues : Bool)
    (children : List (Str × printTree.node)) (k : Str) (pfx : Str) (last : Bool) : List Str :=
  match assocGet children k with
  | some c => printTree.walk C values showValues c pfx last
  | none => []

/-! ## Strings as bytes -/

/-- The UTF-8 encoding of a character, the bytes Go stores for it in a string. -/
def utf8.encodeRune (c : Char) : List Nat :=
  let n := c.toNat
  if n < 0x80 then [n]
  else if n < 0x800 then [0xC0 + n / 0x40, 0x80 + n % 0x40]
  else if n < 0x10000 then [0xE0 + n / 0x1000, 0x80 + n / 0x40 % 0x40, 0x80 + n % 0x40]
  else [0xF0 + n / 0x40000, 0x80 + n / 0x1000 % 0x40, 0x80 + n / 0x40 % 0x40, 0x80 + n % 0x40]

/-- The bytes of a Go string holding the text `s`. -/
def bytesOf : Str → List Nat
  | [] => []
  | c :: cs => utf8.encodeRune c ++ bytesOf cs

/-- The byte-wise lexicographic order, which the comparison `a < b` of two Go
strings is. -/
def bytesLess : List Nat → List Nat → Bool
  | [], [] => false
  | [], _ :: _ => true
  | _ :: _, [] => false
  | a :: as, b :: bs =>
    if a < b then true
    else if a = b then bytesLess as bs
    else false

/-! ## Decimal formatting and parsing -/

theorem fmt.natAux_eq (n : Nat) : ∀ (fuel : Nat) (acc : Str), n < fuel →
    fmt.natAux fuel n acc = fmt.formatNat n ++ acc := by
  induction n using Nat.strong_induction_on with
  | _ n ih =>
    intro fuel acc hlt
    cases fuel with
    | zero => omega
    | succ f =>
      by_cases h0 : n / 10 = 0
      · simp [fmt.natAux, fmt.formatNat, h0]
      · have hdiv : n / 10 < n := by omega
        have hlhs : fmt.natAux (f + 1) n acc
            = fmt.natAux f (n / 10) (fmt.digit (n % 10) :: acc) := by
          simp [fmt.natAux, h0]
        have hrhs : fmt.formatNat n
            = fmt.natAux n (n / 10) [fmt.digit (n % 10)] := by
          simp only [fmt.formatNat]
          rw [fmt.natAux]
          simp [h0]
        rw [hlhs, hrhs, ih (n / 10) hdiv f _ (by omega), ih (n / 10) hdiv n _ (by omega)]
        simp

theorem fmt.formatNat_eq (n : Nat) :
    fmt.formatNat n =
      if n / 10 = 0 then [fmt.digit (n % 10)]
      else fmt.formatNat (n / 10) ++ [fmt.digit (n % 10)] := by
  by_cases h0 : n / 10 = 0
  · simp [fmt.formatNat, fmt.natAux, h0]
  · have h := fmt.natAux_eq (n / 10) n [fmt.digit (n % 10)] (by omega)
    simp only [h0, if_false]
    rw [← h]
    simp [fmt.formatNat, fmt.natAux, h0]

theorem fmt.digit_toNat (d : Nat) (h : d < 10) : (fmt.digit d).toNat = 48 + d := by
  interval_cases d <;> rfl

theorem fmt.digit_isDigit (d : Nat) (h : d < 10) : strconv.isDigit (fmt.digit d) = true := by
  interval_cases d <;> rfl

theorem strconv.parseDigits_append (s : Str) (c : Char) : ∀ acc : Nat,
    strconv.parseDigits acc (s ++ [c]) =
      (strconv.parseDigits acc s).bind (fun m =>
        if strconv.isDigit c then some (m * 10 + (c.toNat - 48)) else none) := by
  induction s with
  | nil => intro acc; simp [strconv.parseDigits]
  | cons a as ih =>
    intro acc
    by_cases ha : strconv.isDigit a = true
    · simp [strconv.parseDigits, ha, ih]
    · simp [strconv.parseDigits, ha]

theorem strconv.parseDigits_formatNat (n : Nat) :
    strconv.parseDigits 0 (fmt.formatNat n) = some n := by
  induction n using Nat.strong_induction_on with
  | _ n ih =>
    rw [fmt.formatNat_eq]
    have hmod : n % 10 < 10 := Nat.mod_lt _ (by decide)
    by_cases h0 : n / 10 = 0
    · simp [h0, strconv.parseDigits, fmt.digit_isDigit _ hmod, fmt.digit_toNat _ hmod]
      omega
    · simp only [h0, if_false]
      rw [strconv.parseDigits_append, ih (n / 10) (by omega)]
      simp [fmt.digit_isDigit _ hmod, fmt.digit_toNat _ hmod]
      omega

theorem fmt.formatNat_digits (n : Nat) : ∀ c ∈ fmt.formatNat n, strconv.isDigit c = true := by
  induction n using Nat.strong_induction_on with
  | _ n ih =>
    rw [fmt.formatNat_eq]
    have hmod : n % 10 < 10 := Nat.mod_lt _ (by decide)
    by_cases h0 : n / 10 = 0
    · simp [h0, fmt.digit_isDigit _ hmod]
    · simp only [h0, if_false]
      intro c hc
      rcases List.mem_append.1 hc with h | h
      · exact ih (n / 10) (by omega) c h
      · simp at h; subst h; exact fmt.digit_isDigit _ hmod

theorem fmt.formatNat_ne_nil (n : Nat) : fmt.formatNat n ≠ [] := by
  rw [fmt.formatNat_eq]
  split <;> simp

/-! ## `parseTypedValue` on formatted values -/

theorem strings.TrimSpace_eq_self (s : Str) (h : ∀ c ∈ s, unicode.IsSpace c = false) :
    strings.TrimSpace s = s := by
  have h1 : s.dropWhile unicode.IsSpace = s := by
    cases s with
    | nil => rfl
    | cons a as => simp [List.dropWhile, h a (by simp)]
  have h2 : s.reverse.dropWhile unicode.IsSpace = s.reverse := by
    cases hs : s.reverse with
    | nil => rfl
    | cons a as =>
      have : a ∈ s := by
        have : a ∈ s.reverse := by rw [hs]; simp
        simpa using this
      simp [List.dropWhile, h a this]
  simp [strings.TrimSpace, h1, h2]

theorem strconv.isDigit_not_space (c : Char) (h : strconv.isDigit c = true) :
    unicode.IsSpace c = false := by
  simp only [strconv.isDigit, Bool.and_eq_true, decide_eq_true_eq] at h
  simp only [unicode.IsSpace]
  have h1 := h.1
  have h2 := h.2
  simp only [Bool.or_eq_false_iff, Bool.and_eq_false_iff, decide_eq_false_iff_not, beq_eq_false_iff_ne]
  refine ⟨⟨⟨⟨⟨⟨⟨⟨⟨⟨?_, ?_⟩, ?_⟩, ?_⟩, ?_⟩, ?_⟩, ?_⟩, ?_⟩, ?_⟩, ?_⟩, ?_⟩ <;> omega

theorem fmt.formatInt_chars (i : Int) :
    ∀ c ∈ fmt.formatInt i, strconv.isDigit c = true ∨ c = '-' := by
  intro c hc
  unfold fmt.formatInt at hc
  split at hc
  · rcases List.mem_cons.1 hc with h | h
    · exact Or.inr h
    · exact Or.inl (fmt.formatNat_digits _ c h)
  · exact Or.inl (fmt.formatNat_digits _ c hc)

theorem fmt.formatInt_TrimSpace (i : Int) :
    strings.TrimSpace (fmt.formatInt i) = fmt.formatInt i := by
  apply strings.TrimSpace_eq_self
  intro c hc
  rcases fmt.formatInt_chars i c hc with h | h
  · exact strconv.isDigit_not_space c h
  · subst h; rfl

theorem strconv.ParseUint_formatNat (n : Nat) :
    strconv.ParseUint (fmt.formatNat n) = some n := by
  simp [strconv.ParseUint, fmt.formatNat_ne_nil, strconv.parseDigits_formatNat]

theorem strconv.ParseInt_formatNat (n : Nat) (h : n < 2 ^ 63) :
    strconv.ParseInt (fmt.formatNat n) = some (n : Int) := by
  cases hs : fmt.formatNat n with
  | nil => exact absurd hs (fmt.formatNat_ne_nil n)
  | cons c cs =>
    have hc : strconv.isDigit c = true := fmt.formatNat_digits n c (by rw [hs]; simp)
    have hp : c ≠ '+' := by rintro rfl; exact absurd hc (by decide)
    have hm : c ≠ '-' := by rintro rfl; exact absurd hc (by decide)
    have hu := strconv.ParseUint_formatNat n
    rw [hs] at hu
    have hge : ¬ 2 ^ 63 ≤ n := by omega
    simp [strconv.ParseInt, hp, hm, hu]
    omega

theorem strconv.ParseInt_formatInt (i : Int) (hlo : -2 ^ 63 ≤ i) (hhi : i < 2 ^ 63) :
    strconv.ParseInt (fmt.formatInt i) = some i := by
  by_cases hneg : i < 0
  · obtain ⟨n, rfl⟩ : ∃ n : Nat, i = -(n : Int) := ⟨i.natAbs, by omega⟩
    have hn : n ≤ 2 ^ 63 := by omega
    have hf : fmt.formatInt (-(n : Int)) = '-' :: fmt.formatNat n := by
      simp only [fmt.formatInt, hneg, if_true, Int.natAbs_neg, Int.natAbs_ofNat]
    rw [hf]
    simp only [strconv.ParseInt]
    simp only [or_true, if_true, strconv.ParseUint_formatNat]
    simp
    omega
  · obtain ⟨n, rfl⟩ : ∃ n : Nat, i = (n : Int) := ⟨i.natAbs, by omega⟩
    have hn : n < 2 ^ 63 := by omega
    have hf : fmt.formatInt (n : Int) = fmt.formatNat n := by
      simp only [fmt.formatInt, hneg, if_false, Int.natAbs_ofNat]
    rw [hf, strconv.ParseInt_formatNat _ hn]

theorem strconv.ParseBool_formatInt (i : Int) (hlo : -2 ^ 63 ≤ i) (hhi : i < 2 ^ 63)
    (h0 : i ≠ 0) (h1 : i ≠ 1) : strconv.ParseBool (fmt.formatInt i) = none := by
  have hp := strconv.ParseInt_formatInt i hlo hhi
  have key : ∀ lit : Str, (strconv.ParseInt lit = none ∨ strconv.ParseInt lit = some 0 ∨
      strconv.ParseInt lit = some 1) → fmt.formatInt i ≠ lit := by
    intro lit hl heq
    rw [heq] at hp
    rcases hl with h | h | h <;> rw [h] at hp <;> simp at hp
    · exact h0 hp.symm
    · exact h1 hp.symm
  unfold strconv.ParseBool
  rw [if_neg, if_neg]
  · simp only [List.map, List.mem_cons, List.mem_singleton, not_or, List.not_mem_nil, or_false]
    refine ⟨?_, ?_, ?_, ?_, ?_, ?_⟩ <;> apply key <;> decide
  · simp only [List.map, List.mem_cons, List.mem_singleton, not_or, List.not_mem_nil, or_false]
    refine ⟨?_, ?_, ?_, ?_, ?_, ?_⟩ <;> apply key <;> decide

/-! ## The flattener and the loader -/

mutual
theorem flattenYAMLKeys.walk_eq : ∀ (d : Node) (path : Str),
    flattenYAMLKeys.walk d path = (leafEntries d).map (fun e => path ++ routeText e.1)
  | .map m, path => by
    rw [flattenYAMLKeys.walk, leafEntries]; exact flattenYAMLKeys.walkMap_eq m path
  | .seq l, path => by
    rw [flattenYAMLKeys.walk, leafEntries]; exact flattenYAMLKeys.walkSeq_eq l 0 path
  | .null, path => by simp [flattenYAMLKeys.walk, leafEntries, routeText, slashJoin]
  | .bool _, path => by simp [flattenYAMLKeys.walk, leafEntries, routeText, slashJoin]
  | .int _, path => by simp [flattenYAMLKeys.walk, leafEntries, routeText, slashJoin]
  | .float _, path => by simp [flattenYAMLKeys.walk, leafEntries, routeText, slashJoin]
  | .str _, path => by simp [flattenYAMLKeys.walk, leafEntries, routeText, slashJoin]
theorem flattenYAMLKeys.walkMap_eq : ∀ (m : List (Str × Node)) (path : Str),
    flattenYAMLKeys.walkMap m path = (leafEntriesMap m).map (fun e => path ++ routeText e.1)
  | [], path => by simp [flattenYAMLKeys.walkMap, leafEntriesMap]
  | (k, v) :: rest, path => by
    rw [flattenYAMLKeys.walkMap, leafEntriesMap, flattenYAMLKeys.walk_eq v,
      flattenYAMLKeys.walkMap_eq rest]
    simp [routeText, slashJoin, Step.text, Function.comp_def]
theorem flattenYAMLKeys.walkSeq_eq : ∀ (l : List Node) (i : Nat) (path : Str),
    flattenYAMLKeys.walkSeq l i path = (leafEntriesSeq l i).map (fun e => path ++ routeText e.1)
  | [], i, path => by simp [flattenYAMLKeys.walkSeq, leafEntriesSeq]
  | v :: rest, i, path => by
    rw [flattenYAMLKeys.walkSeq, leafEntriesSeq, flattenYAMLKeys.walk_eq v,
      flattenYAMLKeys.walkSeq_eq rest]
    simp [routeText, slashJoin, Step.text, Function.comp_def]
end

/-! ## The leaf entries are the leaves -/

theorem Reaches_leaf_nil {v w : Node} {r : List Step} (h : Reaches v r w)
    (hv : v.isLeaf = true) : r = [] ∧ w = v := by
  cases h with
  | here => exact ⟨rfl, rfl⟩
  | key _ _ => simp [Node.isLeaf] at hv
  | index _ _ => simp [Node.isLeaf] at hv

mutual
theorem leafEntries_reaches : ∀ (d : Node) (e : List Step × Node),
    e ∈ leafEntries d → Reaches d e.1 e.2 ∧ e.2.isLeaf = true
  | .map m, e, h => by
    rw [leafEntries] at h
    obtain ⟨k, c, r, hkc, he, hr⟩ := leafEntriesMap_reaches m e h
    rw [he]
    exact ⟨Reaches.key hkc hr.1, hr.2⟩
  | .seq l, e, h => by
    rw [leafEntries] at h
    obtain ⟨j, c, r, hj, he, hr⟩ := leafEntriesSeq_reaches l 0 e h
    rw [he]
    simp only [Nat.zero_add]
    exact ⟨Reaches.index hj hr.1, hr.2⟩
  | .null, e, h => by
    simp only [leafEntries, List.mem_singleton] at h; subst h; exact ⟨Reaches.here _, rfl⟩
  | .bool _, e, h => by
    simp only [leafEntries, List.mem_singleton] at h; subst h; exact ⟨Reaches.here _, rfl⟩
  | .int _, e, h => by
    simp only [leafEntries, List.mem_singleton] at h; subst h; exact ⟨Reaches.here _, rfl⟩
  | .float _, e, h => by
    simp only [leafEntries, List.mem_singleton] at h; subst h; exact ⟨Reaches.here _, rfl⟩
  | .str _, e, h => by
    simp only [leafEntries, List.mem_singleton] at h; subst h; exact ⟨Reaches.here _, rfl⟩
theorem leafEntriesMap_reaches : ∀ (m : List (Str × Node)) (e : List Step × Node),
    e ∈ leafEntriesMap m → ∃ k c r, (k, c) ∈ m ∧ e = (Step.key k :: r, e.2) ∧
      (Reaches c r e.2 ∧ e.2.isLeaf = true)
  | [], e, h => by simp [leafEntriesMap] at h
  | (k, v) :: rest, e, h => by
    rw [leafEntriesMap, List.mem_append] at h
    rcases h with h | h
    · obtain ⟨e', he', rfl⟩ := List.mem_map.1 h
      exact ⟨k, v, e'.1, by simp, rfl, leafEntries_reaches v e' he'⟩
    · obtain ⟨k', c, r, hkc, he, hr⟩ := leafEntriesMap_reaches rest e h
      exact ⟨k', c, r, by simp [hkc], he, hr⟩
theorem leafEntriesSeq_reaches : ∀ (l : List Node) (i : Nat) (e : List Step × Node),
    e ∈ leafEntriesSeq l i → ∃ j c r, l[j]? = some c ∧ e = (Step.index (i + j) :: r, e.2) ∧
      (Reaches c r e.2 ∧ e.2.isLeaf = true)
  | [], _, e, h => by simp [leafEntriesSeq] at h
  | v :: rest, i, e, h => by
    rw [leafEntriesSeq, List.mem_append] at h
    rcases h with h | h
    · obtain ⟨e', he', rfl⟩ := List.mem_map.1 h
      exact ⟨0, v, e'.1, by simp, rfl, leafEntries_reaches v e' he'⟩
    · obtain ⟨j, c, r, hj, he, hr⟩ := leafEntriesSeq_reaches rest (i + 1) e h
      refine ⟨j + 1, c, r, by simpa using hj, ?_, hr⟩
      rw [he]
      congr 3
      omega
end

theorem leafEntriesMap_mem_of (k : Str) (c : Node) (e : List Step × Node) :
    ∀ (m : List (Str × Node)), (k, c) ∈ m → e ∈ leafEntries c →
    (Step.key k :: e.1, e.2) ∈ leafEntriesMap m
  | [], h, _ => by simp at h
  | (k', v) :: rest, h, he => by
    rw [leafEntriesMap, List.mem_append]
    rcases List.mem_cons.1 h with heq | h
    · left
      simp only [Prod.mk.injEq] at heq
      obtain ⟨rfl, rfl⟩ := heq
      exact List.mem_map.2 ⟨e, he, rfl⟩
    · right
      exact leafEntriesMap_mem_of k c e rest h he

theorem leafEntriesSeq_mem_of (c : Node) (e : List Step × Node) :
    ∀ (l : List Node) (i j : Nat), l[j]? = some c → e ∈ leafEntries c →
    (Step.index (i + j) :: e.1, e.2) ∈ leafEntriesSeq l i
  | [], _, _, h, _ => by simp at h
  | v :: rest, i, j, h, he => by
    rw [leafEntriesSeq, List.mem_append]
    cases j with
    | zero =>
      left
      simp only [List.getElem?_cons_zero, Option.some.injEq] at h
      subst h
      exact List.mem_map.2 ⟨e, he, rfl⟩
    | succ j =>
      right
      have := leafEntriesSeq_mem_of c e rest (i + 1) j (by simpa using h) he
      rw [show i + 1 + j = i + (j + 1) by omega] at this
      exact this

theorem leafEntries_of_leaf (v : Node) (hv : v.isLeaf = true) : leafEntries v = [([], v)] := by
  cases v <;> simp [Node.isLeaf] at hv <;> simp [leafEntries]

theorem leafEntries_of_reaches {d v : Node} {r : List Step} (h : Reaches d r v)
    (hv : v.isLeaf = true) : (r, v) ∈ leafEntries d := by
  induction h with
  | here n => rw [leafEntries_of_leaf n hv]; simp
  | key hkc _ ih =>
    rw [leafEntries]
    exact leafEntriesMap_mem_of _ _ (_, _) _ hkc (ih hv)
  | index hj _ ih =>
    rw [leafEntries]
    have := leafEntriesSeq_mem_of _ (_, _) _ 0 _ hj (ih hv)
    simpa using this

theorem leafEntries_iff (d : Node) (r : List Step) (v : Node) :
    (r, v) ∈ leafEntries d ↔ Reaches d r v ∧ v.isLeaf = true :=
  ⟨fun h => leafEntries_reaches d (r, v) h, fun h => leafEntries_of_reaches h.1 h.2⟩

theorem leafEntriesMap_route_mem : ∀ (m : List (Str × Node)) (e : List Step × Node),
    e ∈ leafEntriesMap m → ∃ k r, k ∈ m.map Prod.fst ∧ e.1 = Step.key k :: r
  | [], e, h => by simp [leafEntriesMap] at h
  | (k, v) :: rest, e, h => by
    rw [leafEntriesMap, List.mem_append] at h
    rcases h with h | h
    · obtain ⟨e', _, rfl⟩ := List.mem_map.1 h
      exact ⟨k, e'.1, by simp, rfl⟩
    · obtain ⟨k', r, hk', hr⟩ := leafEntriesMap_route_mem rest e h
      exact ⟨k', r, by simp [hk'], hr⟩

theorem leafEntriesSeq_route_ge : ∀ (l : List Node) (i : Nat) (e : List Step × Node),
    e ∈ leafEntriesSeq l i → ∃ j r, i ≤ j ∧ e.1 = Step.index j :: r
  | [], _, e, h => by simp [leafEntriesSeq] at h
  | v :: rest, i, e, h => by
    rw [leafEntriesSeq, List.mem_append] at h
    rcases h with h | h
    · obtain ⟨e', _, rfl⟩ := List.mem_map.1 h
      exact ⟨i, e'.1, le_refl _, rfl⟩
    · obtain ⟨j, r, hj, hr⟩ := leafEntriesSeq_route_ge rest (i + 1) e h
      exact ⟨j, r, by omega, hr⟩

mutual
theorem leafEntries_nodup : ∀ (d : Node), DistinctKeys d →
    ((leafEntries d).map Prod.fst).Nodup
  | .map m, h => by
    rw [DistinctKeys] at h
    rw [leafEntries]
    exact leafEntriesMap_nodup m h.1 h.2
  | .seq l, h => by
    rw [DistinctKeys] at h
    rw [leafEntries]
    exact leafEntriesSeq_nodup l 0 h
  | .null, _ => by simp [leafEntries]
  | .bool _, _ => by simp [leafEntries]
  | .int _, _ => by simp [leafEntries]
  | .float _, _ => by simp [leafEntries]
  | .str _, _ => by simp [leafEntries]
theorem leafEntriesMap_nodup : ∀ (m : List (Str × Node)), (m.map Prod.fst).Nodup →
    DistinctKeysEntries m → ((leafEntriesMap m).map Prod.fst).Nodup
  | [], _, _ => by simp [leafEntriesMap]
  | (k, v) :: rest, hnd, h => by
    rw [DistinctKeysEntries] at h
    rw [List.map_cons, List.nodup_cons] at hnd
    rw [leafEntriesMap, List.map_append, List.nodup_append]
    refine ⟨?_, leafEntriesMap_nodup rest hnd.2 h.2, ?_⟩
    · rw [List.map_map]
      have ih := leafEntries_nodup v h.1
      have : (List.map (Prod.fst ∘ fun e : List Step × Node => (Step.key k :: e.1, e.2))
          (leafEntries v)) = ((leafEntries v).map Prod.fst).map (fun r => Step.key k :: r) := by
        rw [List.map_map]; rfl
      rw [this]
      exact ih.map (fun a b hab => by simpa using hab)
    · intro r hr1 hr2
      obtain ⟨e1, he1, rfl⟩ := List.mem_map.1 hr1
      obtain ⟨e1', _, rfl⟩ := List.mem_map.1 he1
      obtain ⟨e2, he2, heq⟩ := List.mem_map.1 hr2
      obtain ⟨k', r', hk', hr'⟩ := leafEntriesMap_route_mem rest e2 he2
      rw [hr'] at heq
      simp only [List.cons.injEq, Step.key.injEq] at heq
      exact hnd.1 (heq.1 ▸ hk')
theorem leafEntriesSeq_nodup : ∀ (l : List Node) (i : Nat), DistinctKeysList l →
    ((leafEntriesSeq l i).map Prod.fst).Nodup
  | [], _, _ => by simp [leafEntriesSeq]
  | v :: rest, i, h => by
    rw [DistinctKeysList] at h
    rw [leafEntriesSeq, List.map_append, List.nodup_append]
    refine ⟨?_, leafEntriesSeq_nodup rest (i + 1) h.2, ?_⟩
    · rw [List.map_map]
      have ih := leafEntries_nodup v h.1
      have : (List.map (Prod.fst ∘ fun e : List Step × Node => (Step.index i :: e.1, e.2))
          (leafEntries v)) = ((leafEntries v).map Prod.fst).map (fun r => Step.index i :: r) := by
        rw [List.map_map]; rfl
      rw [this]
      exact ih.map (fun a b hab => by simpa using hab)
    · intro r hr1 hr2
      obtain ⟨e1, he1, rfl⟩ := List.mem_map.1 hr1
      obtain ⟨e1', _, rfl⟩ := List.mem_map.1 he1
      obtain ⟨e2, he2, heq⟩ := List.mem_map.1 hr2
      obtain ⟨j, r', hj, hr'⟩ := leafEntriesSeq_route_ge rest (i + 1) e2 he2
      rw [hr'] at heq
      simp only [List.cons.injEq, Step.index.injEq] at heq
      omega
end

theorem loadLeaf_eq (L : GoLib) (fl : LoadFlags) (client : PutClient) (val : Node)
    (path : Str) (log : LoadLog) :
    (loadLeaf L fl client val path log).1 = none ∧
    (loadLeaf L fl client val path log).2.puts = log.puts ++ [putInputOf L fl val path] := by
  unfold loadLeaf
  simp only
  split <;> exact ⟨rfl, rfl⟩

mutual
theorem loadConfig_eq (L : GoLib) (fl : LoadFlags) (client : PutClient) :
    ∀ (d : Node) (path : Str) (log : LoadLog),
    (loadConfig L fl client d path log).1 = none ∧
    (loadConfig L fl client d path log).2.puts =
      log.puts ++ (leafEntries d).map (fun e => putInputOf L fl e.2 (loadPath path e.1))
  | .map m, path, log => by
    rw [loadConfig, leafEntries]; exact loadConfigMap_eq L fl client m path log
  | .seq l, path, log => by
    rw [loadConfig, leafEntries]; exact loadConfigSeq_eq L fl client l 0 path log
  | .null, path, log => by
    rw [loadConfig, leafEntries]; simpa [loadPath] using loadLeaf_eq L fl client .null path log
  | .bool b, path, log => by
    rw [loadConfig, leafEntries]; simpa [loadPath] using loadLeaf_eq L fl client (.bool b) path log
  | .int i, path, log => by
    rw [loadConfig, leafEntries]; simpa [loadPath] using loadLeaf_eq L fl client (.int i) path log
  | .float f, path, log => by
    rw [loadConfig, leafEntries]; simpa [loadPath] using loadLeaf_eq L fl client (.float f) path log
  | .str s, path, log => by
    rw [loadConfig, leafEntries]; simpa [loadPath] using loadLeaf_eq L fl client (.str s) path log
theorem loadConfigMap_eq (L : GoLib) (fl : LoadFlags) (client : PutClient) :
    ∀ (m : List (Str × Node)) (path : Str) (log : LoadLog),
    (loadConfigMap L fl client m path log).1 = none ∧
    (loadConfigMap L fl client m path log).2.puts =
      log.puts ++ (leafEntriesMap m).map (fun e => putInputOf L fl e.2 (loadPath path e.1))
  | [], path, log => by simp [loadConfigMap, leafEntriesMap]
  | (k, v) :: rest, path, log => by
    have h1 := loadConfig_eq L fl client v
      (strings.TrimSuffix path "/".toList ++ "/".toList ++ k) log
    rw [loadConfigMap, leafEntriesMap]
    cases hr : loadConfig L fl client v
      (strings.TrimSuffix path "/".toList ++ "/".toList ++ k) log with
    | mk e log' =>
      rw [hr] at h1
      simp only at h1
      obtain ⟨he, hp⟩ := h1
      subst he
      have h2 := loadConfigMap_eq L fl client rest path log'
      simp only
      refine ⟨h2.1, ?_⟩
      rw [h2.2, hp]
      simp [loadPath, Function.comp_def]
theorem loadConfigSeq_eq (L : GoLib) (fl : LoadFlags) (client : PutClient) :
    ∀ (l : List Node) (i : Nat) (path : Str) (log : LoadLog),
    (loadConfigSeq L fl client l i path log).1 = none ∧
    (loadConfigSeq L fl client l i path log).2.puts =
      log.puts ++ (leafEntriesSeq l i).map (fun e => putInputOf L fl e.2 (loadPath path e.1))
  | [], i, path, log => by simp [loadConfigSeq, leafEntriesSeq]
  | v :: rest, i, path, log => by
    have h1 := loadConfig_eq L fl client v (path ++ "/".toList ++ fmt.formatNat i) log
    rw [loadConfigSeq, leafEntriesSeq]
    cases hr : loadConfig L fl client v (path ++ "/".toList ++ fmt.formatNat i) log with
    | mk e log' =>
      rw [hr] at h1
      simp only at h1
      obtain ⟨he, hp⟩ := h1
      subst he
      have h2 := loadConfigSeq_eq L fl client rest (i + 1) path log'
      simp only
      refine ⟨h2.1, ?_⟩
      rw [h2.2, hp]
      simp [loadPath, Function.comp_def]
end

/-! ## The sensitive-key classifier -/

theorem strings.Contains_iff (sub : Str) : ∀ s : Str,
    strings.Contains s sub = true ↔ sub <:+: s
  | [] => by
    cases sub <;> simp [strings.Contains]
  | a :: as => by
    rw [strings.Contains, Bool.or_eq_true, strings.Contains_iff sub as,
      List.isPrefixOf_iff_prefix, List.infix_cons_iff]

theorem isSensitiveKey_iff (L : GoLib) (key : Str) :
    isSensitiveKey L key = true ↔
      ∃ w ∈ ["password", "secret", "token", "key", "apikey", "auth", "private"].map String.toList,
        w <:+: L.ToLower key := by
  simp only [isSensitiveKey, List.any_eq_true, strings.Contains_iff]

/-! ## Paths and segments -/

theorem strings.Split_ne_nil (sep : Char) : ∀ s : Str, strings.Split sep s ≠ []
  | [] => by simp [strings.Split]
  | a :: as => by
    rw [strings.Split]
    split
    · simp
    · split <;> simp

theorem slashJoin_Split : ∀ r : Str, slashJoin (strings.Split '/' r) = '/' :: r
  | [] => by simp [strings.Split, slashJoin]
  | a :: as => by
    have ih := slashJoin_Split as
    rw [strings.Split]
    by_cases ha : a = '/'
    · simp [ha, slashJoin, ih]
    · simp only [ha, if_false]
      cases hs : strings.Split '/' as with
      | nil => exact absurd hs (strings.Split_ne_nil _ _)
      | cons hd tl =>
        rw [hs] at ih
        simp only [slashJoin, List.cons.injEq, true_and] at ih
        simp [slashJoin, ih]

theorem strings.trimLeft_of_head (c : Char) (s : Str) (h : s.head? ≠ some c) :
    strings.trimLeft c s = s := by
  cases s with
  | nil => rfl
  | cons a as =>
    have : a ≠ c := by intro e; apply h; simp [e]
    simp [strings.trimLeft, this]

theorem strings.Trim_eq_self (c : Char) (s : Str) (hhd : s.head? ≠ some c)
    (hlast : s.getLast? ≠ some c) : strings.Trim s c = s := by
  unfold strings.Trim
  rw [strings.trimLeft_of_head c s hhd, strings.trimLeft_of_head c s.reverse (by simpa using hlast)]
  simp

theorem strings.Trim_cons_self (c : Char) (s : Str) :
    strings.Trim (c :: s) c = strings.Trim s c := by
  simp [strings.Trim, strings.trimLeft]

theorem strings.TrimSuffix_cases (pre : Str) :
    (pre = strings.TrimSuffix pre "/".toList ++ ['/']) ∨
    (strings.TrimSuffix pre "/".toList = pre ∧ pre.getLast? ≠ some '/') := by
  unfold strings.TrimSuffix
  by_cases h : ("/".toList).isSuffixOf pre = true
  · left
    rw [if_pos h]
    rw [List.isSuffixOf_iff_suffix] at h
    obtain ⟨t, ht⟩ := h
    subst ht
    simp
  · right
    rw [if_neg h]
    refine ⟨rfl, ?_⟩
    intro hl
    apply h
    rw [List.isSuffixOf_iff_suffix]
    obtain ⟨t, ht⟩ : ∃ t, pre = t ++ ['/'] := by
      rcases List.eq_nil_or_concat pre with hnil | ⟨t, b, hb⟩
      · subst hnil; simp at hl
      · subst hb
        simp at hl
        exact ⟨t, by rw [hl]; simp⟩
    exact ⟨t, ht.symm⟩

theorem strings.TrimPrefix_append (pre s : Str) : strings.TrimPrefix (pre ++ s) pre = s := by
  have : pre.isPrefixOf (pre ++ s) = true := by
    rw [List.isPrefixOf_iff_prefix]; exact List.prefix_append _ _
  simp [strings.TrimPrefix, this]

theorem toSegments_of_rest (pre r : Str) (hhd : r.head? ≠ some '/')
    (hlast : r.getLast? ≠ some '/') :
    toSegments (strings.TrimSuffix pre "/".toList ++ '/' :: r) pre = strings.Split '/' r := by
  unfold toSegments
  rcases strings.TrimSuffix_cases pre with h | ⟨h, _⟩
  · have e : strings.TrimSuffix pre "/".toList ++ '/' :: r = pre ++ r := by
      conv_rhs => rw [h]
      simp
    rw [e, strings.TrimPrefix_append, strings.Trim_eq_self _ _ hhd hlast]
  · rw [h, strings.TrimPrefix_append, strings.Trim_cons_self, strings.Trim_eq_self _ _ hhd hlast]

theorem leafEntries_chainDoc (leaf : Node) (hleaf : leafEntries leaf = [([], leaf)]) :
    ∀ segs : List Str, leafEntries (chainDoc segs leaf) = [(segs.map Step.key, leaf)]
  | [] => by simpa [chainDoc] using hleaf
  | k :: rest => by
    simp [chainDoc, leafEntries, leafEntriesMap, leafEntries_chainDoc leaf hleaf rest]

theorem strings.TrimSuffix_eq_self (s : Str) (h : s.getLast? ≠ some '/') :
    strings.TrimSuffix s "/".toList = s := by
  rcases strings.TrimSuffix_cases s with h1 | ⟨h1, _⟩
  · exfalso; apply h; rw [h1]; simp
  · exact h1

theorem loadPath_keys_eq : ∀ (segs : List Str) (path : Str), path.getLast? ≠ some '/' →
    (∀ s ∈ segs, s ≠ [] ∧ s.getLast? ≠ some '/') →
    loadPath path (segs.map Step.key) = path ++ slashJoin segs
  | [], path, _, _ => by simp [loadPath, slashJoin]
  | k :: rest, path, hp, hs => by
    have hk := hs k (by simp)
    have hlast : (path ++ "/".toList ++ k).getLast? ≠ some '/' := by
      rw [List.getLast?_append_of_ne_nil _ hk.1]; exact hk.2
    simp only [List.map, loadPath, strings.TrimSuffix_eq_self path hp]
    rw [loadPath_keys_eq rest _ hlast (fun s h => hs s (by simp [h]))]
    simp [slashJoin]

theorem strings.Split_no_sep (sep : Char) : ∀ (r : Str), ∀ s ∈ strings.Split sep r, sep ∉ s
  | [] => by simp [strings.Split]
  | a :: as => by
    have ih := strings.Split_no_sep sep as
    rw [strings.Split]
    by_cases ha : a = sep
    · simp only [ha, if_true]
      intro s hs
      rcases List.mem_cons.1 hs with h | h
      · subst h; simp
      · exact ih s h
    · simp only [ha, if_false]
      cases hsp : strings.Split sep as with
      | nil => exact absurd hsp (strings.Split_ne_nil _ _)
      | cons hd tl =>
        rw [hsp] at ih
        intro s hs
        rcases List.mem_cons.1 hs with h | h
        · subst h
          have := ih hd (by simp)
          simp only [List.mem_cons, not_or]
          exact ⟨fun e => ha e.symm, this⟩
        · exact ih s (by simp [h])

theorem getLast?_ne_of_not_mem (c : Char) (s : Str) (h : c ∉ s) : s.getLast? ≠ some c := by
  intro hl
  exact h (List.mem_of_getLast?_eq_some hl)

theorem flattenYAMLKeys_chainDoc (segs : List Str) (pre : Str) :
    flattenYAMLKeys (chainDoc segs Node.null) pre = [joinPath segs pre] := by
  simp [flattenYAMLKeys, flattenYAMLKeys.walk_eq, leafEntries_chainDoc Node.null rfl segs,
    routeText, joinPath, Function.comp_def, Step.text]

theorem loadPath_chain (segs : List Str) (pre : Str) (hne : segs ≠ [])
    (hs : ∀ s ∈ segs, s ≠ [] ∧ '/' ∉ s) :
    loadPath pre (segs.map Step.key) = joinPath segs pre := by
  cases segs with
  | nil => exact absurd rfl hne
  | cons k rest =>
    have hk := hs k (by simp)
    have hlast : (strings.TrimSuffix pre "/".toList ++ "/".toList ++ k).getLast? ≠ some '/' := by
      rw [List.getLast?_append_of_ne_nil _ hk.1]
      exact getLast?_ne_of_not_mem _ _ hk.2
    simp only [List.map, loadPath]
    rw [loadPath_keys_eq rest _ hlast]
    · simp [joinPath, slashJoin]
    · intro s h
      have := hs s (by simp [h])
      exact ⟨this.1, getLast?_ne_of_not_mem _ _ this.2⟩

/-! ## Numeric keys -/

theorem strconv.parseDigits_eq : ∀ (s : Str) (acc : Nat),
    strconv.parseDigits acc s =
      if s.all strconv.isDigit then some (s.foldl (fun a c => a * 10 + (c.toNat - 48)) acc)
      else none
  | [], acc => by simp [strconv.parseDigits]
  | c :: cs, acc => by
    by_cases hc : strconv.isDigit c = true
    · simp [strconv.parseDigits, hc, strconv.parseDigits_eq cs]
    · simp [strconv.parseDigits, hc]

theorem strconv.ParseUint_eq (s : Str) :
    strconv.ParseUint s = if isDecimal s then some (decimalValue s) else none := by
  unfold strconv.ParseUint isDecimal decimalValue
  cases s with
  | nil => simp
  | cons c cs => simp [strconv.parseDigits_eq]

theorem strconv.ParseInt_of_not_signed (k : Str) (h : isSignedDecimal k = false) :
    strconv.ParseInt k = none := by
  cases k with
  | nil => rfl
  | cons c cs =>
    simp only [isSignedDecimal] at h
    simp only [strconv.ParseInt, strconv.ParseUint_eq]
    split at h <;> simp [*]

theorem isDecimal_head (c : Char) (cs : Str) (h : isDecimal (c :: cs) = true) :
    c ≠ '+' ∧ c ≠ '-' := by
  have hc : strconv.isDigit c = true := by
    simp [isDecimal] at h; exact h.1
  constructor <;> rintro rfl <;> exact absurd hc (by decide)

theorem strconv.ParseInt_of_decimal (k : Str) (h : isDecimal k = true) :
    strconv.ParseInt k =
      if decimalValue k < 2 ^ 63 then some (decimalValue k : Int) else none := by
  cases k with
  | nil => simp [isDecimal] at h
  | cons c cs =>
    obtain ⟨hp, hm⟩ := isDecimal_head c cs h
    simp only [strconv.ParseInt, hp, hm, or_self, if_false, strconv.ParseUint_eq, h, if_true]
    generalize decimalValue (c :: cs) = dv
    by_cases hlt : dv < 9223372036854775808
    · have h2 : ¬ 9223372036854775808 ≤ dv := by omega
      simp [hlt, h2]
    · have h2 : 9223372036854775808 ≤ dv := by omega
      simp [hlt, h2]

theorem isNumericMap_false_of_key (m : List (Str × Node)) (kv : Str × Node) (hkv : kv ∈ m)
    (h : strconv.Atoi kv.1 = none) : isNumericMap m = false := by
  unfold isNumericMap
  split
  · rfl
  · rw [Bool.eq_false_iff]
    intro hall
    have := (List.all_eq_true.1 hall) kv hkv
    simp [h] at this

theorem isNumericMap_true_of_keys (m : List (Str × Node)) (hne : m ≠ [])
    (h : ∀ kv ∈ m, (strconv.Atoi kv.1).isSome = true) : isNumericMap m = true := by
  unfold isNumericMap
  have : m.length ≠ 0 := by
    intro h0; exact hne (List.length_eq_zero.1 h0)
  rw [if_neg this, List.all_eq_true]
  exact h

/-! ## Inversion of the conversion loops -/

theorem convertEntries_some : ∀ (m : List (Str × Node)),
    (∀ kv ∈ m, (convertMapsToSlices kv.2).isSome = true) →
    ∃ m', convertEntries m = some m' ∧
      List.Forall₂ (fun kv kv' => kv'.1 = kv.1 ∧ convertMapsToSlices kv.2 = some kv'.2) m m'
  | [], _ => ⟨[], by simp [convertEntries]⟩
  | (k, v) :: rest, h => by
    obtain ⟨rest', hr, hf⟩ := convertEntries_some rest (fun kv hkv => h kv (by simp [hkv]))
    have hv := h (k, v) (by simp)
    obtain ⟨v', hv'⟩ := Option.isSome_iff_exists.1 hv
    refine ⟨(k, v') :: rest', ?_, ?_⟩
    · simp only at hv'
      simp [convertEntries, hv', hr]
    · exact List.Forall₂.cons ⟨rfl, hv'⟩ hf

theorem convertTemp_some : ∀ (m : List (Str × Node)),
    (∀ kv ∈ m, (convertMapsToSlices kv.2).isSome = true) →
    ∃ temp, convertTemp m = some temp ∧
      List.Forall₂ (fun kv jv => jv.1 = (strconv.Atoi kv.1).getD 0 ∧
        convertMapsToSlices kv.2 = some jv.2) m temp
  | [], _ => ⟨[], by simp [convertTemp]⟩
  | (k, v) :: rest, h => by
    obtain ⟨rest', hr, hf⟩ := convertTemp_some rest (fun kv hkv => h kv (by simp [hkv]))
    have hv := h (k, v) (by simp)
    obtain ⟨v', hv'⟩ := Option.isSome_iff_exists.1 hv
    refine ⟨((strconv.Atoi k).getD 0, v') :: rest', ?_, ?_⟩
    · simp only at hv'
      simp [convertTemp, hv', hr]
    · exact List.Forall₂.cons ⟨rfl, hv'⟩ hf

theorem convertEntries_inv : ∀ (m m' : List (Str × Node)), convertEntries m = some m' →
    List.Forall₂ (fun kv kv' => kv'.1 = kv.1 ∧ convertMapsToSlices kv.2 = some kv'.2) m m'
  | [], m', h => by
    simp [convertEntries] at h; subst h; exact List.Forall₂.nil
  | (k, v) :: rest, m', h => by
    rw [convertEntries] at h
    cases hv : convertMapsToSlices v with
    | none => simp [hv] at h
    | some v' =>
      cases hr : convertEntries rest with
      | none => simp [hv, hr] at h
      | some rest' =>
        simp [hv, hr] at h
        subst h
        exact List.Forall₂.cons ⟨rfl, hv⟩ (convertEntries_inv rest rest' hr)

theorem convertTemp_inv : ∀ (m : List (Str × Node)) (temp : List (Int × Node)),
    convertTemp m = some temp →
    List.Forall₂ (fun kv jv => jv.1 = (strconv.Atoi kv.1).getD 0 ∧
      convertMapsToSlices kv.2 = some jv.2) m temp
  | [], temp, h => by
    simp [convertTemp] at h; subst h; exact List.Forall₂.nil
  | (k, v) :: rest, temp, h => by
    rw [convertTemp] at h
    cases hv : convertMapsToSlices v with
    | none => simp [hv] at h
    | some v' =>
      cases hr : convertTemp rest with
      | none => simp [hv, hr] at h
      | some rest' =>
        simp [hv, hr] at h
        subst h
        exact List.Forall₂.cons ⟨rfl, hv⟩ (convertTemp_inv rest rest' hr)

theorem maxIndex_le_iff : ∀ (m : List (Str × Node)) (init B : Int),
    maxIndex m init ≤ B ↔ init ≤ B ∧ ∀ kv ∈ m, (strconv.Atoi kv.1).getD 0 ≤ B
  | [], init, B => by simp [maxIndex]
  | (k, v) :: rest, init, B => by
    rw [maxIndex]
    simp only [maxIndex_le_iff rest, List.mem_cons, forall_eq_or_imp]
    by_cases h : (strconv.Atoi k).getD 0 > init
    · simp only [h, if_true]
      constructor
      · rintro ⟨h1, h2⟩; exact ⟨by omega, h1, h2⟩
      · rintro ⟨_, h1, h2⟩; exact ⟨h1, h2⟩
    · simp only [h, if_false]
      constructor
      · rintro ⟨h1, h2⟩; exact ⟨h1, by omega, h2⟩
      · rintro ⟨h0, _, h2⟩; exact ⟨h0, h2⟩

theorem maxIndex_ge_init (m : List (Str × Node)) (init : Int) : init ≤ maxIndex m init :=
  ((maxIndex_le_iff m init (maxIndex m init)).1 (le_refl _)).1

theorem wrapInt64_of_range (x : Int) (hlo : -2 ^ 63 ≤ x) (hhi : x < 2 ^ 63) :
    wrapInt64 x = x := by
  unfold wrapInt64
  omega

theorem Forall₂_keys_eq : ∀ (m m' : List (Str × Node)),
    List.Forall₂ (fun kv kv' => kv'.1 = kv.1 ∧ convertMapsToSlices kv.2 = some kv'.2) m m' →
    m'.map Prod.fst = m.map Prod.fst
  | _, _, List.Forall₂.nil => rfl
  | _, _, List.Forall₂.cons h t => by
    simp [h.1, Forall₂_keys_eq _ _ t]

theorem convertMapsToSlices_map_not_numeric (m : List (Str × Node))
    (hnum : isNumericMap m = false) :
    convertMapsToSlices (Node.map m) = (convertEntries m).map Node.map := by
  rw [convertMapsToSlices, hnum]
  cases convertEntries m <;> rfl

theorem convertMapsToSlices_map_numeric (m : List (Str × Node)) (temp : List (Int × Node))
    (hnum : isNumericMap m = true) (htemp : convertTemp m = some temp)
    (hmax : maxIndex m (-1) + 1 < 2 ^ 63) :
    convertMapsToSlices (Node.map m)
      = some (Node.seq (makeSlice temp (maxIndex m (-1) + 1).toNat)) := by
  have hge := maxIndex_ge_init m (-1)
  have hw : wrapInt64 (maxIndex m (-1) + 1) = maxIndex m (-1) + 1 :=
    wrapInt64_of_range _ (by omega) hmax
  rw [convertMapsToSlices, hnum]
  simp only [if_true, htemp, hw]
  rw [if_neg (by omega)]

/-! ## Maps as association lists -/

theorem mapGet_mapSet_self : ∀ (m : List (Str × Node)) (k : Str) (v : Node),
    mapGet (mapSet m k v) k = some v
  | [], k, v => by simp [mapSet, mapGet]
  | (k', v') :: rest, k, v => by
    rw [mapSet]
    by_cases h : k = k'
    · simp [h, mapGet]
    · by_cases hl : strings.Less k k' = true
      · simp [h, hl, mapGet]
      · simp [h, hl, mapGet, mapGet_mapSet_self rest k v]

theorem mapGet_mapSet_ne : ∀ (m : List (Str × Node)) (k k1 : Str) (v : Node), k1 ≠ k →
    mapGet (mapSet m k v) k1 = mapGet m k1
  | [], k, k1, v, hne => by simp [mapSet, mapGet, hne]
  | (k', v') :: rest, k, k1, v, hne => by
    rw [mapSet]
    by_cases h : k = k'
    · subst h; simp [mapGet, hne]
    · by_cases hl : strings.Less k k' = true
      · simp [h, hl, mapGet, hne]
      · simp only [h, hl, if_false, mapGet, Bool.false_eq_true]
        rw [mapGet_mapSet_ne rest k k1 v hne]

/-! ## `insertIntoTree` and `descend` -/

theorem descend_cons (m : List (Str × Node)) (k : Str) (rest : List Str) :
    descend (Node.map m) (k :: rest) = (mapGet m k).bind (fun c => descend c rest) := by
  rw [descend]
  cases mapGet m k <;> rfl

theorem descend_nil_map (p : List Str) (hp : p ≠ []) : descend (Node.map []) p = none := by
  cases p with
  | nil => exact absurd rfl hp
  | cons k rest => simp [descend_cons, mapGet]

/-- What `insertIntoTree` does on a path of at least two segments. -/
theorem insertIntoTree_cons₂ (t : List (Str × Node)) (k k2 : Str) (more : List Str) (w : Node) :
    insertIntoTree t (k :: k2 :: more) w =
      match mapGet t k with
      | none => (insertIntoTree [] (k2 :: more) w).map (fun c => mapSet t k (Node.map c))
      | some (Node.map child) =>
        (insertIntoTree child (k2 :: more) w).map (fun c => mapSet t k (Node.map c))
      | some _ => none := by
  rw [insertIntoTree]

/-- The child mapping `insertIntoTree` descends into, when it does not panic. -/
theorem insertIntoTree_cons₂_inv (t t' : List (Str × Node)) (k k2 : Str) (more : List Str)
    (w : Node) (h : insertIntoTree t (k :: k2 :: more) w = some t') :
    ∃ c c', (mapGet t k = none ∧ c = [] ∨ mapGet t k = some (Node.map c)) ∧
      insertIntoTree c (k2 :: more) w = some c' ∧ t' = mapSet t k (Node.map c') := by
  rw [insertIntoTree_cons₂] at h
  cases hg : mapGet t k with
  | none =>
    rw [hg] at h
    simp only [Option.map_eq_some'] at h
    obtain ⟨c', hc', rfl⟩ := h
    exact ⟨[], c', Or.inl ⟨rfl, rfl⟩, hc', rfl⟩
  | some x =>
    rw [hg] at h
    cases x with
    | map child =>
      simp only [Option.map_eq_some'] at h
      obtain ⟨c', hc', rfl⟩ := h
      exact ⟨child, c', Or.inr rfl, hc', rfl⟩
    | _ => simp at h

theorem insertIntoTree_descend_self : ∀ (q : List Str) (t t' : List (Str × Node)) (w : Node),
    q ≠ [] → insertIntoTree t q w = some t' → descend (Node.map t') q = some w
  | [], _, _, _, hq, _ => absurd rfl hq
  | [k], t, t', w, _, h => by
    simp only [insertIntoTree, Option.some.injEq] at h
    subst h
    simp [descend_cons, mapGet_mapSet_self, descend]
  | k :: k2 :: more, t, t', w, _, h => by
    obtain ⟨c, c', _, hc', rfl⟩ := insertIntoTree_cons₂_inv t t' k k2 more w h
    rw [descend_cons, mapGet_mapSet_self]
    exact insertIntoTree_descend_self (k2 :: more) c c' w (by simp) hc'

theorem insertIntoTree_descend_other : ∀ (q : List Str) (t t' : List (Str × Node)) (w : Node)
    (p : List Str), Separate q p → insertIntoTree t q w = some t' →
    descend (Node.map t') p = descend (Node.map t) p
  | [], _, _, _, p, hs, _ => absurd (List.nil_prefix) hs.1
  | _ :: _, _, _, _, [], hs, _ => absurd (List.nil_prefix) hs.2
  | [k], t, t', w, k1 :: ps, hs, h => by
    simp only [insertIntoTree, Option.some.injEq] at h
    subst h
    have hne : k1 ≠ k := by
      rintro rfl
      exact hs.1 (by simp)
    rw [descend_cons, descend_cons, mapGet_mapSet_ne _ _ _ _ hne]
  | k :: k2 :: more, t, t', w, k1 :: ps, hs, h => by
    obtain ⟨c, c', hc, hc', rfl⟩ := insertIntoTree_cons₂_inv t t' k k2 more w h
    rw [descend_cons, descend_cons]
    by_cases hne : k1 = k
    · subst hne
      have hs' : Separate (k2 :: more) ps := by
        constructor
        · intro hp; exact hs.1 ((List.cons_prefix_cons).2 ⟨rfl, hp⟩)
        · intro hp; exact hs.2 ((List.cons_prefix_cons).2 ⟨rfl, hp⟩)
      have ih := insertIntoTree_descend_other (k2 :: more) c c' w ps hs' hc'
      rw [mapGet_mapSet_self]
      simp only [Option.some_bind]
      rw [ih]
      rcases hc with ⟨hg, rfl⟩ | hg
      · rw [hg]
        have hps : ps ≠ [] := by
          rintro rfl
          exact hs.2 (by simp)
        simp [descend_nil_map ps hps]
      · rw [hg]; rfl
    · rw [mapGet_mapSet_ne _ _ _ _ hne]

theorem insertIntoTree_descend_proper : ∀ (q : List Str) (t t' : List (Str × Node)) (w : Node)
    (p : List Str), p <+: q → p ≠ q → insertIntoTree t q w = some t' →
    ∃ c, descend (Node.map t') p = some (Node.map c)
  | _, _, t', _, [], _, _, _ => ⟨t', rfl⟩
  | [], _, _, _, _ :: _, hp, _, _ => by simp at hp
  | [k], t, t', w, k1 :: ps, hp, hne, h => by
    exfalso
    rw [List.cons_prefix_cons] at hp
    obtain ⟨rfl, hps⟩ := hp
    have : ps = [] := List.prefix_nil.1 hps
    subst this
    exact hne rfl
  | k :: k2 :: more, t, t', w, k1 :: ps, hp, hne, h => by
    obtain ⟨c, c', _, hc', rfl⟩ := insertIntoTree_cons₂_inv t t' k k2 more w h
    rw [List.cons_prefix_cons] at hp
    obtain ⟨rfl, hps⟩ := hp
    rw [descend_cons, mapGet_mapSet_self]
    exact insertIntoTree_descend_proper (k2 :: more) c c' w ps hps
      (fun e => hne (by rw [e])) hc'

theorem insertIntoTree_succeeds : ∀ (q : List Str) (t : List (Str × Node)) (w : Node),
    (∀ p, p <+: q → p ≠ q → ∀ x, descend (Node.map t) p = some x → ∃ c, x = Node.map c) →
    ∃ t', insertIntoTree t q w = some t'
  | [], t, _, _ => ⟨t, rfl⟩
  | [k], t, w, _ => ⟨_, rfl⟩
  | k :: k2 :: more, t, w, hq => by
    rw [insertIntoTree_cons₂]
    cases hg : mapGet t k with
    | none =>
      obtain ⟨c', hc'⟩ := insertIntoTree_succeeds (k2 :: more) [] w (by
        intro p _ _ x hx
        cases p with
        | nil => simp [descend] at hx; exact ⟨[], hx.symm⟩
        | cons a as => simp [descend_nil_map] at hx)
      exact ⟨mapSet t k (Node.map c'), by simp [hc']⟩
    | some x =>
      have hx : ∃ c, x = Node.map c :=
        hq [k] (by simp) (by simp) x (by simp [descend_cons, hg, descend])
      obtain ⟨c, rfl⟩ := hx
      obtain ⟨c', hc'⟩ := insertIntoTree_succeeds (k2 :: more) c w (by
        intro p hp hne y hy
        apply hq (k :: p) ((List.cons_prefix_cons).2 ⟨rfl, hp⟩) (by simpa using hne) y
        simpa [descend_cons, hg] using hy)
      exact ⟨mapSet t k (Node.map c'), by simp [hc']⟩

theorem descend_append : ∀ (p r : List Str) (n : Node),
    descend n (p ++ r) = (descend n p).bind (fun x => descend x r)
  | [], r, n => by simp [descend]
  | k :: ps, r, n => by
    cases n with
    | map m =>
      simp only [List.cons_append, descend_cons]
      cases mapGet m k with
      | none => rfl
      | some c => simp [descend_append ps r c]
    | _ => simp [descend]

theorem descend_of_not_map (x : Node) (hx : ∀ c, x ≠ Node.map c) (r : List Str) (hr : r ≠ []) :
    descend x r = none := by
  cases r with
  | nil => exact absurd rfl hr
  | cons k rest =>
    cases x with
    | map m => exact absurd rfl (hx m)
    | _ => simp [descend]

theorem parseTypedValue_not_map (L : GoLib) (s : Str) : ∀ c, parseTypedValue L s ≠ Node.map c := by
  intro c
  unfold parseTypedValue
  simp only
  split
  · simp
  · split
    · simp
    · split <;> simp

theorem Separate.symm {a b : List Str} (h : Separate a b) : Separate b a := ⟨h.2, h.1⟩

theorem toSegments_ne_nil (k pfx : Str) : toSegments k pfx ≠ [] :=
  strings.Split_ne_nil _ _

theorem insertAll_reach (L : GoLib) (flat : List (Str × Str)) (pfx : Str) :
    ∀ (keys : List Str) (t : List (Str × Node)) (S : List (List Str)),
    (∀ p x, descend (Node.map t) p = some x → (∀ c, x ≠ Node.map c) → p ∈ S) →
    keys.Pairwise (fun a b => Separate (toSegments a pfx) (toSegments b pfx)) →
    (∀ k ∈ keys, ∀ s ∈ S, Separate (toSegments k pfx) s) →
    ∃ t', insertAll L flat pfx t keys = some t' ∧
      (∀ p x, descend (Node.map t) p = some x →
        (∀ k ∈ keys, Separate (toSegments k pfx) p) → descend (Node.map t') p = some x) ∧
      (∀ k ∈ keys, descend (Node.map t') (toSegments k pfx)
        = some (parseTypedValue L (flatGet flat k)))
  | [], t, _, _, _, _ => ⟨t, rfl, fun _ _ h _ => h, by simp⟩
  | k :: rest, t, S, hA, hP, hS => by
    have hq := toSegments_ne_nil k pfx
    have hw := parseTypedValue_not_map L (flatGet flat k)
    rw [List.pairwise_cons] at hP
    obtain ⟨hk, hP'⟩ := hP
    obtain ⟨t1, ht1⟩ := insertIntoTree_succeeds (toSegments k pfx) t
      (parseTypedValue L (flatGet flat k)) (by
        intro p hp _ x hx
        by_contra hc
        have hnm : ∀ c, x ≠ Node.map c := fun c e => hc ⟨c, e⟩
        exact (hS k (by simp) p (hA p x hx hnm)).2 hp)
    have hself := insertIntoTree_descend_self _ t t1 _ hq ht1
    have hA1 : ∀ p x, descend (Node.map t1) p = some x → (∀ c, x ≠ Node.map c) →
        p ∈ toSegments k pfx :: S := by
      intro p x hx hnm
      by_cases hqp : toSegments k pfx <+: p
      · obtain ⟨r, rfl⟩ := hqp
        rw [descend_append, hself] at hx
        simp only [Option.some_bind] at hx
        by_cases hr : r = []
        · subst hr; simp
        · rw [descend_of_not_map _ hw r hr] at hx
          simp at hx
      · by_cases hpq : p <+: toSegments k pfx
        · have hne : p ≠ toSegments k pfx := by
            rintro rfl
            exact hqp (List.prefix_refl _)
          obtain ⟨c, hc⟩ := insertIntoTree_descend_proper _ t t1 _ p hpq hne ht1
          rw [hc] at hx
          simp only [Option.some.injEq] at hx
          exact absurd hx.symm (hnm c)
        · rw [insertIntoTree_descend_other _ t t1 _ p ⟨hqp, hpq⟩ ht1] at hx
          exact List.mem_cons_of_mem _ (hA p x hx hnm)
    have hS1 : ∀ k' ∈ rest, ∀ s ∈ toSegments k pfx :: S, Separate (toSegments k' pfx) s := by
      intro k' hk' s hs
      rcases List.mem_cons.1 hs with rfl | hs
      · exact (hk k' hk').symm
      · exact hS k' (by simp [hk']) s hs
    obtain ⟨t', ht', h2, h3⟩ := insertAll_reach L flat pfx rest t1 _ hA1 hP' hS1
    refine ⟨t', ?_, ?_, ?_⟩
    · simp [insertAll, ht1, ht']
    · intro p x hx hsep
      apply h2 p x
      · rw [insertIntoTree_descend_other _ t t1 _ p (hsep k (by simp)) ht1]
        exact hx
      · intro k' hk'
        exact hsep k' (by simp [hk'])
    · intro k' hk'
      rcases List.mem_cons.1 hk' with rfl | hk'
      · exact h2 _ _ hself (fun k'' hk'' => (hk k'' hk'').symm)
      · exact h3 k' hk'

/-! ## The stable sort is a permutation -/

theorem sort.insert_perm (less : Str → Str → Bool) (a : Str) :
    ∀ l : List Str, List.Perm (sort.insert less a l) (a :: l)
  | [] => by simp [sort.insert]
  | b :: bs => by
    rw [sort.insert]
    split
    · exact ((sort.insert_perm less a bs).cons b).trans (List.Perm.swap a b bs)
    · exact List.Perm.refl _

theorem sort.SliceStable_perm (less : Str → Str → Bool) :
    ∀ l : List Str, List.Perm (sort.SliceStable less l) l
  | [] => by simp [sort.SliceStable]
  | a :: as => by
    rw [sort.SliceStable]
    exact (sort.insert_perm less a _).trans ((sort.SliceStable_perm less as).cons a)

theorem flatGet_of_mem : ∀ (flat : List (Str × Str)), (flat.map Prod.fst).Nodup →
    ∀ kv ∈ flat, flatGet flat kv.1 = kv.2
  | [], _, kv, h => by simp at h
  | (k, v) :: rest, hnd, kv, h => by
    rw [List.map_cons, List.nodup_cons] at hnd
    rcases List.mem_cons.1 h with rfl | hmem
    · simp [flatGet]
    · have hne : kv.1 ≠ k := by
        intro e
        apply hnd.1
        rw [← e]
        exact List.mem_map.2 ⟨kv, hmem, rfl⟩
      simp [flatGet, hne, flatGet_of_mem rest hnd.2 kv hmem]

theorem Separate.ne {a b : List Str} (h : Separate a b) : a ≠ b := by
  rintro rfl
  exact h.1 (List.prefix_refl _)

/-! ## The string order -/

theorem Char.toNat_inj' {a b : Char} (h : a.toNat = b.toNat) : a = b := by
  cases a with
  | mk av ha =>
    cases b with
    | mk bv hb =>
      cases av with
      | mk af =>
        cases bv with
        | mk bf =>
          have : af = bf := BitVec.eq_of_toNat_eq h
          subst this
          rfl

theorem strings.Less_asymm : ∀ (a b : Str), strings.Less a b = true → strings.Less b a = false
  | [], [], h => by simp [strings.Less] at h
  | [], _ :: _, _ => by simp [strings.Less]
  | _ :: _, [], h => by simp [strings.Less] at h
  | a :: as, b :: bs, h => by
    rw [strings.Less] at h ⊢
    by_cases h1 : a.toNat < b.toNat
    · have h2 : ¬ b.toNat < a.toNat := by omega
      have h3 : ¬ b.toNat = a.toNat := by omega
      simp [h2, h3]
    · by_cases h2 : a.toNat = b.toNat
      · rw [if_neg h1, if_pos h2] at h
        have h3 : ¬ b.toNat < a.toNat := by omega
        simp [h3, h2, strings.Less_asymm as bs h]
      · simp [h1, h2] at h

theorem strings.Less_total : ∀ (a b : Str), a ≠ b →
    strings.Less a b = true ∨ strings.Less b a = true
  | [], [], h => absurd rfl h
  | [], _ :: _, _ => by simp [strings.Less]
  | _ :: _, [], _ => by simp [strings.Less]
  | a :: as, b :: bs, h => by
    rw [strings.Less, strings.Less]
    by_cases h1 : a.toNat < b.toNat
    · simp [h1]
    · by_cases h2 : b.toNat < a.toNat
      · simp [h2]
      · have h3 : a.toNat = b.toNat := by omega
        have hab : a = b := Char.toNat_inj' h3
        subst hab
        have hne : as ≠ bs := fun e => h (by rw [e])
        simpa using strings.Less_total as bs hne

theorem strings.Less_trans : ∀ (a b c : Str), strings.Less a b = true → strings.Less b c = true →
    strings.Less a c = true
  | [], [], _, h, _ => by simp [strings.Less] at h
  | [], _ :: _, [], _, h => by simp [strings.Less] at h
  | [], _ :: _, _ :: _, _, _ => by simp [strings.Less]
  | _ :: _, [], _, h, _ => by simp [strings.Less] at h
  | _ :: _, _ :: _, [], _, h => by simp [strings.Less] at h
  | a :: as, b :: bs, c :: cs, h1, h2 => by
    rw [strings.Less] at h1 h2 ⊢
    by_cases hab : a.toNat < b.toNat
    · by_cases hbc : b.toNat < c.toNat
      · have : a.toNat < c.toNat := by omega
        simp [this]
      · by_cases hbc' : b.toNat = c.toNat
        · have : a.toNat < c.toNat := by omega
          simp [this]
        · simp [hbc, hbc'] at h2
    · by_cases hab' : a.toNat = b.toNat
      · rw [if_neg hab, if_pos hab'] at h1
        by_cases hbc : b.toNat < c.toNat
        · have : a.toNat < c.toNat := by omega
          simp [this]
        · by_cases hbc' : b.toNat = c.toNat
          · rw [if_neg hbc, if_pos hbc'] at h2
            have e1 : ¬ a.toNat < c.toNat := by omega
            have e2 : a.toNat = c.toNat := by omega
            simp [e1, e2, strings.Less_trans as bs cs h1 h2]
          · simp [hbc, hbc'] at h2
      · simp [hab, hab'] at h1

theorem strings.Less_irrefl (a : Str) : strings.Less a a = false := by
  cases h : strings.Less a a with
  | false => rfl
  | true => have := strings.Less_asymm a a h; rw [h] at this; exact absurd this (by simp)

/-! ## Assignments to a map commute -/

theorem mapSet_mapSet_self : ∀ (m : List (Str × Node)) (k : Str) (v v' : Node),
    mapSet (mapSet m k v) k v' = mapSet m k v'
  | [], k, v, v' => by simp [mapSet]
  | (h, x) :: rest, k, v, v' => by
    rw [mapSet, mapSet]
    by_cases hk : k = h
    · simp [hk, mapSet]
    · by_cases hl : strings.Less k h = true
      · simp [hk, hl, mapSet]
      · simp [hk, hl, mapSet, mapSet_mapSet_self rest k v v']

theorem mapSet_comm : ∀ (m : List (Str × Node)) (k k' : Str) (v v' : Node), k ≠ k' →
    mapSet (mapSet m k v) k' v' = mapSet (mapSet m k' v') k v
  | [], k, k', v, v', hne => by
    have hne' : k' ≠ k := fun e => hne e.symm
    rcases strings.Less_total k k' hne with h | h
    · have h' := strings.Less_asymm k k' h
      simp [mapSet, hne, hne', h, h']
    · have h' := strings.Less_asymm k' k h
      simp [mapSet, hne, hne', h, h']
  | (h, x) :: rest, k, k', v, v', hne => by
    have hne' : k' ≠ k := fun e => hne e.symm
    by_cases hk : k = h
    · subst hk
      by_cases hl' : strings.Less k' k = true
      · have := strings.Less_asymm k' k hl'
        simp [mapSet, hne, hne', hl', this]
      · simp [mapSet, hne, hne', hl']
    · by_cases hk' : k' = h
      · subst hk'
        by_cases hl : strings.Less k k' = true
        · have := strings.Less_asymm k k' hl
          simp [mapSet, hne, hne', hl, this]
        · simp [mapSet, hne, hne', hl]
      · by_cases hl : strings.Less k h = true
        · by_cases hl' : strings.Less k' h = true
          · rcases strings.Less_total k k' hne with hkk | hkk
            · have := strings.Less_asymm k k' hkk
              simp [mapSet, hne, hne', hk, hk', hl, hl', hkk, this]
            · have := strings.Less_asymm k' k hkk
              simp [mapSet, hne, hne', hk, hk', hl, hl', hkk, this]
          · have hkk : strings.Less k' k = false := by
              cases hc : strings.Less k' k with
              | false => rfl
              | true => exact absurd (strings.Less_trans k' k h hc hl) hl'
            simp [mapSet, hne, hne', hk, hk', hl, hl', hkk]
        · by_cases hl' : strings.Less k' h = true
          · have hkk : strings.Less k k' = false := by
              cases hc : strings.Less k k' with
              | false => rfl
              | true => exact absurd (strings.Less_trans k k' h hc hl') hl
            simp [mapSet, hne, hne', hk, hk', hl, hl', hkk]
          · simp [mapSet, hne, hne', hk, hk', hl, hl', mapSet_comm rest k k' v v' hne]

/-! ## Insertions at separate paths commute -/

theorem insertIntoTree_cons₂_eq (t : List (Str × Node)) (k k2 : Str) (more : List Str)
    (w : Node) :
    insertIntoTree t (k :: k2 :: more) w =
      (childOf t k).bind (fun c =>
        (insertIntoTree c (k2 :: more) w).map (fun c' => mapSet t k (Node.map c'))) := by
  rw [insertIntoTree_cons₂, childOf]
  cases mapGet t k with
  | none => rfl
  | some x => cases x <;> rfl

theorem childOf_mapSet_ne (t : List (Str × Node)) (k k' : Str) (v : Node) (h : k' ≠ k) :
    childOf (mapSet t k v) k' = childOf t k' := by
  simp [childOf, mapGet_mapSet_ne _ _ _ _ h]

theorem childOf_mapSet_self (t : List (Str × Node)) (k : Str) (c : List (Str × Node)) :
    childOf (mapSet t k (Node.map c)) k = some c := by
  simp [childOf, mapGet_mapSet_self]

theorem insertIntoTree_single (t : List (Str × Node)) (k : Str) (v : Node) :
    insertIntoTree t [k] v = some (mapSet t k v) := rfl

theorem insertIntoTree_comm : ∀ (p q : List Str) (t : List (Str × Node)) (v w : Node),
    Separate p q →
    (insertIntoTree t p v).bind (fun t1 => insertIntoTree t1 q w) =
      (insertIntoTree t q w).bind (fun t1 => insertIntoTree t1 p v)
  | [], _, _, _, _, hs => absurd List.nil_prefix hs.1
  | _ :: _, [], _, _, _, hs => absurd List.nil_prefix hs.2
  | [k], [k'], t, v, w, hs => by
    have hne : k ≠ k' := by rintro rfl; exact hs.1 (List.prefix_refl _)
    simp [insertIntoTree, mapSet_comm t k k' v w hne]
  | [k], k' :: k2 :: more, t, v, w, hs => by
    have hne : k' ≠ k := by rintro rfl; exact hs.1 (by simp)
    rw [insertIntoTree_single, Option.some_bind, insertIntoTree_cons₂_eq,
      insertIntoTree_cons₂_eq, childOf_mapSet_ne _ _ _ _ hne]
    cases childOf t k' with
    | none => rfl
    | some c =>
      simp only [Option.some_bind]
      cases insertIntoTree c (k2 :: more) w with
      | none => rfl
      | some c' =>
        simp [insertIntoTree_single, mapSet_comm t k k' v (Node.map c') (fun e => hne e.symm)]
  | k :: k2 :: more, [k'], t, v, w, hs => by
    have hne : k ≠ k' := by rintro rfl; exact hs.2 (by simp)
    rw [insertIntoTree_single, Option.some_bind, insertIntoTree_cons₂_eq,
      insertIntoTree_cons₂_eq, childOf_mapSet_ne _ _ _ _ hne]
    cases childOf t k with
    | none => rfl
    | some c =>
      simp only [Option.some_bind]
      cases insertIntoTree c (k2 :: more) v with
      | none => rfl
      | some c' =>
        simp [insertIntoTree_single, mapSet_comm t k k' (Node.map c') w hne]
  | k :: k2 :: more, k' :: k2' :: more', t, v, w, hs => by
    by_cases hk : k = k'
    · subst hk
      have hs' : Separate (k2 :: more) (k2' :: more') := by
        constructor
        · intro hp; exact hs.1 ((List.cons_prefix_cons).2 ⟨rfl, hp⟩)
        · intro hp; exact hs.2 ((List.cons_prefix_cons).2 ⟨rfl, hp⟩)
      have ih := fun c => insertIntoTree_comm (k2 :: more) (k2' :: more') c v w hs'
      rw [insertIntoTree_cons₂_eq t k k2 more v, insertIntoTree_cons₂_eq t k k2' more' w]
      cases hc : childOf t k with
      | none => rfl
      | some c =>
        simp only [Option.some_bind]
        have h1 : ∀ (p' : List Str) (x y : Node) (q1 q2 : Str) (qs : List Str),
            ((insertIntoTree c p' x).map (fun c' => mapSet t k (Node.map c'))).bind
                (fun t1 => insertIntoTree t1 (k :: q1 :: qs) y)
              = ((insertIntoTree c p' x).bind (fun c1 => insertIntoTree c1 (q1 :: qs) y)).map
                  (fun c2 => mapSet t k (Node.map c2)) := by
          intro p' x y q1 q2 qs
          cases insertIntoTree c p' x with
          | none => rfl
          | some c1 =>
            simp only [Option.map_some', Option.some_bind]
            rw [insertIntoTree_cons₂_eq, childOf_mapSet_self]
            simp only [Option.some_bind]
            cases insertIntoTree c1 (q1 :: qs) y with
            | none => rfl
            | some c2 => simp [mapSet_mapSet_self]
        rw [h1 (k2 :: more) v w k2' k2' more', h1 (k2' :: more') w v k2 k2 more, ih c]
    · have hk' : k' ≠ k := fun e => hk e.symm
      rw [insertIntoTree_cons₂_eq t k k2 more v, insertIntoTree_cons₂_eq t k' k2' more' w]
      cases hc : childOf t k with
      | none =>
        simp only [Option.none_bind]
        cases hc' : childOf t k' with
        | none => rfl
        | some c' =>
          simp only [Option.some_bind]
          cases insertIntoTree c' (k2' :: more') w with
          | none => rfl
          | some c2 =>
            simp only [Option.map_some', Option.some_bind]
            rw [insertIntoTree_cons₂_eq, childOf_mapSet_ne _ _ _ _ hk, hc]
            rfl
      | some c =>
        simp only [Option.some_bind]
        cases hi : insertIntoTree c (k2 :: more) v with
        | none =>
          simp only [Option.map_none', Option.none_bind]
          cases hc' : childOf t k' with
          | none => rfl
          | some c' =>
            simp only [Option.some_bind]
            cases insertIntoTree c' (k2' :: more') w with
            | none => rfl
            | some c2 =>
              simp only [Option.map_some', Option.some_bind]
              rw [insertIntoTree_cons₂_eq, childOf_mapSet_ne _ _ _ _ hk, hc]
              simp [hi]
        | some c1 =>
          simp only [Option.map_some', Option.some_bind]
          rw [insertIntoTree_cons₂_eq, childOf_mapSet_ne _ _ _ _ hk']
          cases hc' : childOf t k' with
          | none => rfl
          | some c' =>
            simp only [Option.some_bind]
            cases hi' : insertIntoTree c' (k2' :: more') w with
            | none => rfl
            | some c2 =>
              simp only [Option.map_some', Option.some_bind]
              rw [insertIntoTree_cons₂_eq, childOf_mapSet_ne _ _ _ _ hk, hc]
              simp [hi, mapSet_comm t k k' (Node.map c1) (Node.map c2) hk]

/-! ## The order of insertion does not matter -/

theorem insertAll_cons (L : GoLib) (flat : List (Str × Str)) (pfx : Str)
    (t : List (Str × Node)) (k : Str) (rest : List Str) :
    insertAll L flat pfx t (k :: rest) =
      (insertIntoTree t (toSegments k pfx) (parseTypedValue L (flatGet flat k))).bind
        (fun t1 => insertAll L flat pfx t1 rest) := by
  rw [insertAll]
  cases insertIntoTree t (toSegments k pfx) (parseTypedValue L (flatGet flat k)) <;> rfl

theorem insertAll_perm (L : GoLib) (flat : List (Str × Str)) (pfx : Str)
    {keys keys' : List Str} (hp : List.Perm keys keys') :
    keys.Pairwise (fun a b => Separate (toSegments a pfx) (toSegments b pfx)) →
    ∀ t, insertAll L flat pfx t keys = insertAll L flat pfx t keys' := by
  induction hp with
  | nil => intro _ _; rfl
  | cons x _ ih =>
    intro hpw t
    rw [List.pairwise_cons] at hpw
    rw [insertAll_cons, insertAll_cons]
    cases insertIntoTree t (toSegments x pfx) (parseTypedValue L (flatGet flat x)) with
    | none => rfl
    | some t1 => exact ih hpw.2 t1
  | swap x y l =>
    intro hpw t
    have hxy : Separate (toSegments y pfx) (toSegments x pfx) := by
      rw [List.pairwise_cons] at hpw
      exact hpw.1 x (by simp)
    have hc := insertIntoTree_comm (toSegments y pfx) (toSegments x pfx) t
      (parseTypedValue L (flatGet flat y)) (parseTypedValue L (flatGet flat x)) hxy
    rw [insertAll_cons, insertAll_cons]
    simp only [insertAll_cons]
    rw [← Option.bind_assoc, ← Option.bind_assoc, hc]
  | trans h1 _ ih1 ih2 =>
    intro hpw t
    rw [ih1 hpw t]
    exact ih2 ((h1.pairwise_iff (fun h => h.symm)).1 hpw) t

theorem leafEntriesMap_route : ∀ (m : List (Str × Node)) (e : List Step × Node),
    e ∈ leafEntriesMap m → ∃ kv r, e.1 = Step.key kv :: r
  | [], e, h => by simp [leafEntriesMap] at h
  | (k, v) :: rest, e, h => by
    rw [leafEntriesMap, List.mem_append] at h
    rcases h with h | h
    · obtain ⟨e', _, rfl⟩ := List.mem_map.1 h
      exact ⟨k, e'.1, rfl⟩
    · exact leafEntriesMap_route rest e h

theorem leafEntriesSeq_route : ∀ (l : List Node) (i : Nat) (e : List Step × Node),
    e ∈ leafEntriesSeq l i → ∃ j r, e.1 = Step.index j :: r
  | [], _, e, h => by simp [leafEntriesSeq] at h
  | v :: rest, i, e, h => by
    rw [leafEntriesSeq, List.mem_append] at h
    rcases h with h | h
    · obtain ⟨e', _, rfl⟩ := List.mem_map.1 h
      exact ⟨i, e'.1, rfl⟩
    · exact leafEntriesSeq_route rest (i + 1) e h

/-! ## Inserting the leaves of a document in traversal order -/

theorem insertPairs_append : ∀ (A B : List (List Str × Node)) (t : List (Str × Node)),
    insertPairs t (A ++ B) = (insertPairs t A).bind (fun t1 => insertPairs t1 B)
  | [], B, t => by simp [insertPairs]
  | (p, v) :: A, B, t => by
    simp only [List.cons_append, insertPairs]
    cases insertIntoTree t p v with
    | none => rfl
    | some t1 => simp [insertPairs_append A B t1]

theorem childOf_of_fresh (t : List (Str × Node)) (k : Str) (h : mapGet t k = none) :
    childOf t k = some [] := by
  simp [childOf, h]

/-- Inserting below the key `k`: the insertions happen in the child mapping. -/
theorem insertPairs_below : ∀ (ps : List (List Str × Node)) (t c0 : List (Str × Node))
    (k : Str), ps ≠ [] → (∀ pv ∈ ps, pv.1 ≠ []) → childOf t k = some c0 →
    insertPairs t (ps.map (fun pv => (k :: pv.1, pv.2)))
      = (insertPairs c0 ps).map (fun c' => mapSet t k (Node.map c'))
  | [], _, _, _, h, _, _ => absurd rfl h
  | (p, v) :: rest, t, c0, k, _, hne, hc => by
    have hp : p ≠ [] := hne (p, v) (by simp)
    obtain ⟨k2, more, rfl⟩ : ∃ k2 more, p = k2 :: more := by
      cases p with
      | nil => exact absurd rfl hp
      | cons a as => exact ⟨a, as, rfl⟩
    simp only [List.map_cons, insertPairs]
    rw [insertIntoTree_cons₂_eq, hc]
    simp only [Option.some_bind]
    cases hi : insertIntoTree c0 (k2 :: more) v with
    | none => rfl
    | some c1 =>
      simp only [Option.map_some', Option.some_bind]
      cases rest with
      | nil => simp [insertPairs]
      | cons pv2 rest2 =>
        rw [insertPairs_below (pv2 :: rest2) (mapSet t k (Node.map c1)) c1 k (by simp)
          (fun pv h => hne pv (by simp [h])) (childOf_mapSet_self t k c1)]
        cases insertPairs c1 (pv2 :: rest2) with
        | none => rfl
        | some c2 => simp [mapSet_mapSet_self]

mutual
theorem leafEntries_ne_nil (L : GoLib) : ∀ (v : Node), RoundTrips L v → leafEntries v ≠ []
  | .map m, h => by
    rw [RoundTrips] at h
    rw [leafEntries]
    exact leafEntriesMap_ne_nil L m h.1 h.2.2.2
  | .seq l, h => by
    rw [RoundTrips] at h
    rw [leafEntries]
    exact leafEntriesSeq_ne_nil L l 0 h.1 h.2.2
  | .null, _ => by simp [leafEntries]
  | .bool _, _ => by simp [leafEntries]
  | .int _, _ => by simp [leafEntries]
  | .float _, _ => by simp [leafEntries]
  | .str _, _ => by simp [leafEntries]
theorem leafEntriesMap_ne_nil (L : GoLib) : ∀ (m : List (Str × Node)), m ≠ [] →
    RoundTripsEntries L m → leafEntriesMap m ≠ []
  | [], h, _ => absurd rfl h
  | (k, v) :: rest, _, h => by
    rw [RoundTripsEntries] at h
    rw [leafEntriesMap]
    have := leafEntries_ne_nil L v h.2.2.1
    simp [this]
theorem leafEntriesSeq_ne_nil (L : GoLib) : ∀ (l : List Node) (i : Nat), l ≠ [] →
    RoundTripsList L l → leafEntriesSeq l i ≠ []
  | [], _, h, _ => absurd rfl h
  | v :: rest, i, _, h => by
    rw [RoundTripsList] at h
    rw [leafEntriesSeq]
    have := leafEntries_ne_nil L v h.1
    simp [this]
end

theorem fmt.formatNat_injective {i j : Nat} (h : fmt.formatNat i = fmt.formatNat j) : i = j := by
  have hi := strconv.parseDigits_formatNat i
  rw [h, strconv.parseDigits_formatNat j] at hi
  exact (Option.some.inj hi).symm

/-- The segments and the value of a leaf entry. -/
theorem insertPairs_single (t : List (Str × Node)) (k : Str) (v : Node) :
    insertPairs t [([k], v)] = some (mapSet t k v) := by
  simp [insertPairs, insertIntoTree_single]

mutual
theorem insertPairs_leaves (L : GoLib) : ∀ (v : Node) (t : List (Str × Node)) (k : Str),
    RoundTrips L v → mapGet t k = none →
    insertPairs t ((leafEntries v).map (fun e => (k :: e.1.map Step.text, e.2)))
      = some (mapSet t k (rawOf v))
  | .map m, t, k, h, hk => by
    have hne := leafEntries_ne_nil L (.map m) h
    rw [RoundTrips] at h
    rw [leafEntries] at hne ⊢
    have hb := insertPairs_below ((leafEntriesMap m).map (fun e => (e.1.map Step.text, e.2)))
      t [] k (by simpa using hne) (by
        intro pv hpv
        obtain ⟨e, he, rfl⟩ := List.mem_map.1 hpv
        obtain ⟨e', r, hr⟩ := leafEntriesMap_route m e he
        simp [hr]) (childOf_of_fresh t k hk)
    rw [List.map_map] at hb
    rw [show ((fun pv : List Str × Node => (k :: pv.1, pv.2)) ∘
        fun e : List Step × Node => (e.1.map Step.text, e.2))
        = fun e => (k :: e.1.map Step.text, e.2) from rfl] at hb
    rw [hb, insertPairs_leavesMap L m [] h.2.2.1 h.2.2.2 (by intro kv _; rfl)]
    rfl
  | .seq l, t, k, h, hk => by
    have hne := leafEntries_ne_nil L (.seq l) h
    rw [RoundTrips] at h
    rw [leafEntries] at hne ⊢
    have hb := insertPairs_below ((leafEntriesSeq l 0).map (fun e => (e.1.map Step.text, e.2)))
      t [] k (by simpa using hne) (by
        intro pv hpv
        obtain ⟨e, he, rfl⟩ := List.mem_map.1 hpv
        obtain ⟨e', r, hr⟩ := leafEntriesSeq_route l 0 e he
        simp [hr]) (childOf_of_fresh t k hk)
    rw [List.map_map] at hb
    rw [show ((fun pv : List Str × Node => (k :: pv.1, pv.2)) ∘
        fun e : List Step × Node => (e.1.map Step.text, e.2))
        = fun e => (k :: e.1.map Step.text, e.2) from rfl] at hb
    rw [hb, insertPairs_leavesSeq L l 0 [] h.2.2 (by intro j _; rfl)]
    rfl
  | .null, t, k, _, _ => by simp [leafEntries, rawOf, insertPairs_single]
  | .bool _, t, k, _, _ => by simp [leafEntries, rawOf, insertPairs_single]
  | .int _, t, k, _, _ => by simp [leafEntries, rawOf, insertPairs_single]
  | .float _, t, k, _, _ => by simp [leafEntries, rawOf, insertPairs_single]
  | .str _, t, k, _, _ => by simp [leafEntries, rawOf, insertPairs_single]
theorem insertPairs_leavesMap (L : GoLib) : ∀ (m : List (Str × Node)) (acc : List (Str × Node)),
    (m.map Prod.fst).Nodup → RoundTripsEntries L m → (∀ kv ∈ m, mapGet acc kv.1 = none) →
    insertPairs acc ((leafEntriesMap m).map (fun e => (e.1.map Step.text, e.2)))
      = some (rawEntries m acc)
  | [], acc, _, _, _ => by simp [leafEntriesMap, insertPairs, rawEntries]
  | (k, v) :: rest, acc, hnd, h, hfresh => by
    rw [RoundTripsEntries] at h
    rw [List.map_cons, List.nodup_cons] at hnd
    rw [leafEntriesMap, List.map_append, insertPairs_append, List.map_map]
    rw [show ((fun e : List Step × Node => (e.1.map Step.text, e.2)) ∘
        fun e : List Step × Node => (Step.key k :: e.1, e.2))
        = fun e => (k :: e.1.map Step.text, e.2) from rfl]
    rw [insertPairs_leaves L v acc k h.2.2.1 (hfresh (k, v) (by simp))]
    simp only [Option.some_bind]
    rw [insertPairs_leavesMap L rest _ hnd.2 h.2.2.2 (by
      intro kv hkv
      have hne : kv.1 ≠ k := by
        intro e
        apply hnd.1
        rw [← e]
        exact List.mem_map.2 ⟨kv, hkv, rfl⟩
      rw [mapGet_mapSet_ne _ _ _ _ hne]
      exact hfresh kv (by simp [hkv]))]
    rw [rawEntries]
theorem insertPairs_leavesSeq (L : GoLib) : ∀ (l : List Node) (i : Nat)
    (acc : List (Str × Node)),
    RoundTripsList L l → (∀ j, i ≤ j → mapGet acc (fmt.formatNat j) = none) →
    insertPairs acc ((leafEntriesSeq l i).map (fun e => (e.1.map Step.text, e.2)))
      = some (rawItems l i acc)
  | [], i, acc, _, _ => by simp [leafEntriesSeq, insertPairs, rawItems]
  | v :: rest, i, acc, h, hfresh => by
    rw [RoundTripsList] at h
    rw [leafEntriesSeq, List.map_append, insertPairs_append, List.map_map]
    rw [show ((fun e : List Step × Node => (e.1.map Step.text, e.2)) ∘
        fun e : List Step × Node => (Step.index i :: e.1, e.2))
        = fun e => (fmt.formatNat i :: e.1.map Step.text, e.2) from rfl]
    rw [insertPairs_leaves L v acc (fmt.formatNat i) h.1 (hfresh i (le_refl _))]
    simp only [Option.some_bind]
    rw [insertPairs_leavesSeq L rest (i + 1) _ h.2 (by
      intro j hj
      have hne : fmt.formatNat j ≠ fmt.formatNat i := by
        intro e
        have := fmt.formatNat_injective e
        omega
      rw [mapGet_mapSet_ne _ _ _ _ hne]
      exact hfresh j (by omega))]
    rw [rawItems]
end

/-! ## Converting the tree built from a document -/

theorem mapGet_mem : ∀ (m : List (Str × Node)) (k : Str) (x : Node),
    mapGet m k = some x → (k, x) ∈ m
  | [], _, _, h => by simp [mapGet] at h
  | (k', v) :: rest, k, x, h => by
    rw [mapGet] at h
    by_cases hk : k = k'
    · simp only [hk, if_true, Option.some.injEq] at h
      simp [hk, h]
    · simp only [hk, if_false] at h
      exact List.mem_cons_of_mem _ (mapGet_mem rest k x h)

theorem mapGet_none_iff : ∀ (m : List (Str × Node)) (k : Str),
    mapGet m k = none ↔ k ∉ m.map Prod.fst
  | [], k => by simp [mapGet]
  | (k', v) :: rest, k => by
    rw [mapGet]
    by_cases hk : k = k'
    · simp [hk]
    · simp [hk, mapGet_none_iff rest k]

theorem mapSet_perm : ∀ (m : List (Str × Node)) (k : Str) (v : Node), mapGet m k = none →
    List.Perm (mapSet m k v) ((k, v) :: m)
  | [], k, v, _ => by simp [mapSet]
  | (k', v') :: rest, k, v, h => by
    rw [mapGet] at h
    by_cases hk : k = k'
    · simp [hk] at h
    · simp only [hk, if_false] at h
      rw [mapSet]
      by_cases hl : strings.Less k k' = true
      · simp [hk, hl]
      · simp only [hk, hl, if_false, Bool.false_eq_true]
        exact ((mapSet_perm rest k v h).cons (k', v')).trans (List.Perm.swap _ _ _)

theorem rawEntries_mapGet_of_acc (k : Str) : ∀ (m acc : List (Str × Node)),
    (mapGet acc k).isSome = true → (mapGet (rawEntries m acc) k).isSome = true
  | [], acc, h => by simpa [rawEntries] using h
  | (k', v) :: rest, acc, h => by
    rw [rawEntries]
    apply rawEntries_mapGet_of_acc k rest
    by_cases hk : k = k'
    · simp [hk, mapGet_mapSet_self]
    · rw [mapGet_mapSet_ne _ _ _ _ hk]; exact h

theorem rawEntries_mapGet_of_mem (k : Str) : ∀ (m acc : List (Str × Node)),
    k ∈ m.map Prod.fst → (mapGet (rawEntries m acc) k).isSome = true
  | [], _, h => by simp at h
  | (k', v) :: rest, acc, h => by
    rw [rawEntries]
    by_cases hk : k = k'
    · apply rawEntries_mapGet_of_acc k rest
      simp [hk, mapGet_mapSet_self]
    · apply rawEntries_mapGet_of_mem k rest
      simpa [hk] using h

theorem isNumericMap_false_inv (m : List (Str × Node)) (hne : m ≠ [])
    (h : isNumericMap m = false) : ∃ kv ∈ m, strconv.Atoi kv.1 = none := by
  unfold isNumericMap at h
  have hl : m.length ≠ 0 := fun e => hne (List.length_eq_zero.1 e)
  rw [if_neg hl] at h
  rw [List.all_eq_false] at h
  obtain ⟨kv, hkv, hp⟩ := h
  refine ⟨kv, hkv, ?_⟩
  cases ha : strconv.Atoi kv.1 with
  | none => rfl
  | some _ => simp [ha] at hp

theorem isNumericMap_rawEntries (m : List (Str × Node)) (hne : m ≠ [])
    (h : isNumericMap m = false) : isNumericMap (rawEntries m []) = false := by
  obtain ⟨kv, hkv, ha⟩ := isNumericMap_false_inv m hne h
  have hs := rawEntries_mapGet_of_mem kv.1 m [] (List.mem_map.2 ⟨kv, hkv, rfl⟩)
  obtain ⟨x, hx⟩ := Option.isSome_iff_exists.1 hs
  exact isNumericMap_false_of_key _ (kv.1, x) (mapGet_mem _ _ _ hx) ha

theorem convertEntries_cons (k : Str) (v v' : Node) (rest rest' : List (Str × Node))
    (hv : convertMapsToSlices v = some v') (hr : convertEntries rest = some rest') :
    convertEntries ((k, v) :: rest) = some ((k, v') :: rest') := by
  rw [convertEntries, hv, hr]

theorem convertEntries_mapSet : ∀ (acc acc' : List (Str × Node)) (k : Str) (x x' : Node),
    convertEntries acc = some acc' → convertMapsToSlices x = some x' →
    convertEntries (mapSet acc k x) = some (mapSet acc' k x')
  | [], acc', k, x, x', h, hx => by
    simp only [convertEntries, Option.some.injEq] at h
    subst h
    simp only [mapSet]
    exact convertEntries_cons k x x' [] [] hx (by simp [convertEntries])
  | (h0, y) :: rest, acc', k, x, x', h, hx => by
    have hinv := convertEntries_inv _ _ h
    cases hinv with
    | cons hy hrest =>
      rename_i kv' rest'
      obtain ⟨hk', hy'⟩ := hy
      have hr : convertEntries rest = some rest' := by
        rw [convertEntries] at h
        cases hc : convertEntries rest with
        | none => simp [hy', hc] at h
        | some r =>
          simp only [hy', hc, Option.some.injEq, List.cons.injEq] at h
          rw [h.2]
      obtain ⟨k0, y'⟩ := kv'
      simp only at hk' hy'
      subst hk'
      simp only [mapSet]
      by_cases hk : k = k0
      · simp only [hk, if_true]
        exact convertEntries_cons k0 x x' rest rest' hx hr
      · by_cases hl : strings.Less k k0 = true
        · simp only [hk, hl, if_false, if_true]
          exact convertEntries_cons k x x' _ _ hx (convertEntries_cons k0 y y' rest rest' hy' hr)
        · simp only [hk, hl, if_false, Bool.false_eq_true]
          exact convertEntries_cons k0 y y' _ _ hy' (convertEntries_mapSet rest rest' k x x' hr hx)

/-! ## Converting the mapping built from a sequence -/

theorem rawItems_perm : ∀ (l : List Node) (i : Nat) (acc : List (Str × Node)),
    (∀ j, i ≤ j → mapGet acc (fmt.formatNat j) = none) →
    List.Perm (rawItems l i acc) (itemEntries l i ++ acc)
  | [], _, acc, _ => by simp [rawItems, itemEntries]
  | v :: rest, i, acc, hfresh => by
    rw [rawItems, itemEntries]
    have h1 := rawItems_perm rest (i + 1) (mapSet acc (fmt.formatNat i) (rawOf v)) (by
      intro j hj
      have hne : fmt.formatNat j ≠ fmt.formatNat i := by
        intro e
        have := fmt.formatNat_injective e
        omega
      rw [mapGet_mapSet_ne _ _ _ _ hne]
      exact hfresh j (by omega))
    have h2 := mapSet_perm acc (fmt.formatNat i) (rawOf v) (hfresh i (le_refl _))
    exact (h1.trans (List.Perm.append_left _ h2)).trans List.perm_middle

theorem itemEntries_mem : ∀ (l : List Node) (i : Nat) (kv : Str × Node),
    kv ∈ itemEntries l i ↔ ∃ j v, l[j]? = some v ∧ kv = (fmt.formatNat (i + j), rawOf v)
  | [], i, kv => by simp [itemEntries]
  | v :: rest, i, kv => by
    rw [itemEntries, List.mem_cons, itemEntries_mem rest (i + 1) kv]
    constructor
    · rintro (h | ⟨j, w, hj, h⟩)
      · exact ⟨0, v, by simp, by simpa using h⟩
      · exact ⟨j + 1, w, by simpa using hj, by rw [h]; congr 2; omega⟩
    · rintro ⟨j, w, hj, h⟩
      cases j with
      | zero =>
        left
        simp only [List.getElem?_cons_zero, Option.some.injEq] at hj
        subst hj
        simpa using h
      | succ j =>
        right
        exact ⟨j, w, by simpa using hj, by rw [h]; congr 2; omega⟩

theorem tempGet_foldl_of_not_mem (i : Int) : ∀ (temp : List (Int × Node)) (acc : Node),
    (∀ jv ∈ temp, jv.1 ≠ i) →
    temp.foldl (fun acc jv => if jv.1 = i then jv.2 else acc) acc = acc
  | [], _, _ => rfl
  | jv :: rest, acc, h => by
    have hj : jv.1 ≠ i := h jv (by simp)
    simp only [List.foldl_cons, hj, if_false]
    exact tempGet_foldl_of_not_mem i rest acc (fun jv' h' => h jv' (by simp [h']))

theorem tempGet_foldl_of_mem (i : Int) (x : Node) : ∀ (temp : List (Int × Node)) (acc : Node),
    (∃ jv ∈ temp, jv.1 = i) → (∀ jv ∈ temp, jv.1 = i → jv.2 = x) →
    temp.foldl (fun acc jv => if jv.1 = i then jv.2 else acc) acc = x
  | [], _, h, _ => by simp at h
  | jv :: rest, acc, _, hall => by
    simp only [List.foldl_cons]
    by_cases hr : ∃ jv' ∈ rest, jv'.1 = i
    · exact tempGet_foldl_of_mem i x rest _ hr (fun jv' h' => hall jv' (by simp [h']))
    · have hnot : ∀ jv' ∈ rest, jv'.1 ≠ i := fun jv' h' e => hr ⟨jv', h', e⟩
      rw [tempGet_foldl_of_not_mem i rest _ hnot]
      have hj : jv.1 = i := by
        rename_i hex
        obtain ⟨jv', hmem, he⟩ := hex
        rcases List.mem_cons.1 hmem with rfl | hmem
        · exact he
        · exact absurd he (hnot jv' hmem)
      simp only [hj, if_true]
      exact hall jv (by simp) hj

theorem tempGet_of_mem (temp : List (Int × Node)) (i : Int) (x : Node)
    (h1 : ∃ jv ∈ temp, jv.1 = i) (h2 : ∀ jv ∈ temp, jv.1 = i → jv.2 = x) :
    tempGet temp i = x :=
  tempGet_foldl_of_mem i x temp _ h1 h2

theorem Forall₂_mem_left {α β : Type} {R : α → β → Prop} : ∀ {l : List α} {l' : List β},
    List.Forall₂ R l l' → ∀ a ∈ l, ∃ b ∈ l', R a b
  | _, _, List.Forall₂.nil, a, h => by simp at h
  | _, _, List.Forall₂.cons hr ht, a, h => by
    rcases List.mem_cons.1 h with rfl | h
    · exact ⟨_, by simp, hr⟩
    · obtain ⟨b, hb, hab⟩ := Forall₂_mem_left ht a h
      exact ⟨b, by simp [hb], hab⟩

theorem Forall₂_mem_right {α β : Type} {R : α → β → Prop} : ∀ {l : List α} {l' : List β},
    List.Forall₂ R l l' → ∀ b ∈ l', ∃ a ∈ l, R a b
  | _, _, List.Forall₂.nil, b, h => by simp at h
  | _, _, List.Forall₂.cons hr ht, b, h => by
    rcases List.mem_cons.1 h with rfl | h
    · exact ⟨_, by simp, hr⟩
    · obtain ⟨a, ha, hab⟩ := Forall₂_mem_right ht b h
      exact ⟨a, by simp [ha], hab⟩

theorem strconv.Atoi_formatNat (j : Nat) (h : j < 2 ^ 63) :
    strconv.Atoi (fmt.formatNat j) = some (j : Int) :=
  strconv.ParseInt_formatNat j h

theorem canonList_eq_map : ∀ l : List Node, canonList l = l.map canon
  | [] => rfl
  | v :: rest => by simp [canonList, canonList_eq_map rest]

theorem convertMapsToSlices_rawItems (l : List Node) (hne : l ≠ []) (hlen : l.length < 2 ^ 63)
    (hl : ∀ v ∈ l, convertMapsToSlices (rawOf v) = some (canon v)) :
    convertMapsToSlices (Node.map (rawItems l 0 [])) = some (Node.seq (canonList l)) := by
  have hperm : List.Perm (rawItems l 0 []) (itemEntries l 0) := by
    simpa using rawItems_perm l 0 [] (fun _ _ => rfl)
  have hmem : ∀ kv, kv ∈ rawItems l 0 [] ↔
      ∃ j v, l[j]? = some v ∧ kv = (fmt.formatNat j, rawOf v) := by
    intro kv
    rw [hperm.mem_iff, itemEntries_mem]
    simp
  have hidx : ∀ kv ∈ rawItems l 0 [], ∀ j v, l[j]? = some v →
      kv = (fmt.formatNat j, rawOf v) →
      strconv.Atoi kv.1 = some (j : Int) ∧ j < l.length ∧ v ∈ l := by
    intro kv _ j v hj hkv
    have hjl : j < l.length := (List.getElem?_eq_some_iff.1 hj).1
    refine ⟨?_, hjl, List.getElem?_mem hj⟩
    rw [hkv]
    exact strconv.Atoi_formatNat j (by omega)
  obtain ⟨v0, rest0, hl0⟩ : ∃ v0 rest0, l = v0 :: rest0 := by
    cases l with
    | nil => exact absurd rfl hne
    | cons a as => exact ⟨a, as, rfl⟩
  have hM : rawItems l 0 [] ≠ [] := by
    intro e
    have : (fmt.formatNat 0, rawOf v0) ∈ rawItems l 0 [] :=
      (hmem _).2 ⟨0, v0, by simp [hl0], rfl⟩
    rw [e] at this
    simp at this
  have hnum : isNumericMap (rawItems l 0 []) = true := by
    apply isNumericMap_true_of_keys _ hM
    intro kv hkv
    obtain ⟨j, v, hj, hkv'⟩ := (hmem kv).1 hkv
    rw [(hidx kv hkv j v hj hkv').1]
    rfl
  have hch : ∀ kv ∈ rawItems l 0 [], (convertMapsToSlices kv.2).isSome = true := by
    intro kv hkv
    obtain ⟨j, v, hj, hkv'⟩ := (hmem kv).1 hkv
    rw [hkv']
    simp [hl v (List.getElem?_mem hj)]
  obtain ⟨temp, htemp, hf⟩ := convertTemp_some _ hch
  have hmax : maxIndex (rawItems l 0 []) (-1) = (l.length : Int) - 1 := by
    apply le_antisymm
    · rw [maxIndex_le_iff]
      refine ⟨by omega, ?_⟩
      intro kv hkv
      obtain ⟨j, v, hj, hkv'⟩ := (hmem kv).1 hkv
      obtain ⟨ha, hjl, _⟩ := hidx kv hkv j v hj hkv'
      rw [ha]
      simp only [Option.getD_some]
      omega
    · have hall := ((maxIndex_le_iff (rawItems l 0 []) (-1)
        (maxIndex (rawItems l 0 []) (-1))).1 (le_refl _)).2
      have hb : l.length - 1 < l.length := by
        have : 0 < l.length := List.length_pos.2 hne
        omega
      have hlast : l[l.length - 1]? = some l[l.length - 1] := List.getElem?_eq_getElem hb
      have hin : (fmt.formatNat (l.length - 1), rawOf l[l.length - 1]) ∈ rawItems l 0 [] :=
        (hmem _).2 ⟨_, _, hlast, rfl⟩
      have := hall _ hin
      rw [(hidx _ hin _ _ hlast rfl).1] at this
      simp only [Option.getD_some] at this
      have hpos : 0 < l.length := List.length_pos.2 hne
      omega
  rw [convertMapsToSlices_map_numeric _ temp hnum htemp (by rw [hmax]; omega), hmax]
  have hn : ((l.length : Int) - 1 + 1).toNat = l.length := by omega
  rw [hn, canonList_eq_map]
  congr 2
  apply List.ext_getElem
  · simp [makeSlice]
  · intro i h1 h2
    simp only [makeSlice, List.getElem_map, List.getElem_range]
    have hil : i < l.length := by simpa using h2
    have hget : l[i]? = some l[i] := List.getElem?_eq_getElem hil
    apply tempGet_of_mem
    · have hin : (fmt.formatNat i, rawOf l[i]) ∈ rawItems l 0 [] :=
        (hmem _).2 ⟨i, l[i], hget, rfl⟩
      obtain ⟨jv, hjv, hj1, _⟩ := Forall₂_mem_left hf _ hin
      refine ⟨jv, hjv, ?_⟩
      rw [hj1, (hidx _ hin i l[i] hget rfl).1]
      rfl
    · intro jv hjv hji
      obtain ⟨kv, hkv, hk1, hk2⟩ := Forall₂_mem_right hf jv hjv
      obtain ⟨j, v, hj, hkv'⟩ := (hmem kv).1 hkv
      rw [(hidx kv hkv j v hj hkv').1] at hk1
      simp only [Option.getD_some] at hk1
      have hji' : j = i := by
        have : (j : Int) = (i : Int) := by rw [← hk1, hji]; rfl
        exact_mod_cast this
      subst hji'
      rw [hget] at hj
      simp only [Option.some.injEq] at hj
      subst hj
      rw [hkv', hl _ (List.getElem_mem _)] at hk2
      exact (Option.some.inj hk2).symm

/-! ## The sequence built from a numeric mapping -/

theorem strconv.ParseInt_range (s : Str) (j : Int) (h : strconv.ParseInt s = some j) :
    -2 ^ 63 ≤ j ∧ j < 2 ^ 63 := by
  cases s with
  | nil => simp [strconv.ParseInt] at h
  | cons c cs =>
    simp only [strconv.ParseInt] at h
    cases hu : strconv.ParseUint (if c = '+' ∨ c = '-' then cs else c :: cs) with
    | none => simp [hu] at h
    | some un =>
      simp only [hu] at h
      by_cases hneg : c = '-'
      · simp [hneg] at h
        obtain ⟨h1, h2⟩ := h
        subst h2
        constructor <;> omega
      · simp [hneg] at h
        obtain ⟨h1, h2⟩ := h
        subst h2
        constructor <;> omega

theorem maxIndex_attained : ∀ (m : List (Str × Node)) (init : Int),
    maxIndex m init = init ∨ ∃ kv ∈ m, (strconv.Atoi kv.1).getD 0 = maxIndex m init
  | [], init => Or.inl rfl
  | (k, v) :: rest, init => by
    rw [maxIndex]
    by_cases h : (strconv.Atoi k).getD 0 > init
    · simp only [h, if_true]
      rcases maxIndex_attained rest ((strconv.Atoi k).getD 0) with h1 | ⟨kv, hkv, h1⟩
      · right
        exact ⟨(k, v), by simp, h1.symm⟩
      · right
        exact ⟨kv, by simp [hkv], h1⟩
    · simp only [h, if_false]
      rcases maxIndex_attained rest init with h1 | ⟨kv, hkv, h1⟩
      · exact Or.inl h1
      · right
        exact ⟨kv, by simp [hkv], h1⟩

theorem convertMapsToSlices_seq_inv (m : List (Str × Node)) (l : List Node)
    (h : convertMapsToSlices (Node.map m) = some (Node.seq l)) :
    isNumericMap m = true ∧ ∃ temp, convertTemp m = some temp ∧
      0 ≤ wrapInt64 (maxIndex m (-1) + 1) ∧
      l = makeSlice temp (wrapInt64 (maxIndex m (-1) + 1)).toNat := by
  rw [convertMapsToSlices] at h
  by_cases hnum : isNumericMap m = true
  · refine ⟨hnum, ?_⟩
    simp only [hnum, if_true] at h
    cases ht : convertTemp m with
    | none => simp [ht] at h
    | some temp =>
      simp only [ht] at h
      by_cases hlen : wrapInt64 (maxIndex m (-1) + 1) < 0
      · simp [hlen] at h
      · simp only [hlen, if_false, Option.some.injEq, Node.seq.injEq] at h
        exact ⟨temp, rfl, by omega, h.symm⟩
  · simp only [hnum, if_false, Bool.false_eq_true] at h
    cases hce : convertEntries m <;> simp [hce] at h

theorem isNumericMap_true_inv (m : List (Str × Node)) (h : isNumericMap m = true) :
    ∀ kv ∈ m, ∃ j, strconv.Atoi kv.1 = some j := by
  unfold isNumericMap at h
  split at h
  · simp at h
  · intro kv hkv
    have := (List.all_eq_true.1 h) kv hkv
    exact Option.isSome_iff_exists.1 this

/-- For a mapping that `convertMapsToSlices` turns into a sequence and that has
a non-negative key: the sequence has length (largest parsed key) + 1, element
`i` is null when no key parses to `i`, and is the converted value of the key
when exactly one key parses to `i`. -/
theorem convertMapsToSlices_seq_spec (m : List (Str × Node)) (l : List Node)
    (h : convertMapsToSlices (Node.map m) = some (Node.seq l))
    (hkey : ∃ kv ∈ m, ∃ j : Int, strconv.Atoi kv.1 = some j ∧ 0 ≤ j) :
    (∃ kv ∈ m, ∃ j : Int, strconv.Atoi kv.1 = some j ∧ (l.length : Int) = j + 1 ∧
        ∀ kv' ∈ m, ∀ j' : Int, strconv.Atoi kv'.1 = some j' → j' ≤ j) ∧
    ∀ (i : Nat) (hi : i < l.length),
      ((∀ kv ∈ m, strconv.Atoi kv.1 ≠ some (Int.ofNat i)) → l[i] = Node.null) ∧
      (∀ kv ∈ m, strconv.Atoi kv.1 = some (Int.ofNat i) →
        (∀ kv' ∈ m, strconv.Atoi kv'.1 = some (Int.ofNat i) → kv' = kv) →
        convertMapsToSlices kv.2 = some l[i]) := by
  obtain ⟨hnum, temp, htemp, hlen, hl⟩ := convertMapsToSlices_seq_inv m l h
  have hparse := isNumericMap_true_inv m hnum
  have hf := convertTemp_inv m temp htemp
  have hall := ((maxIndex_le_iff m (-1) (maxIndex m (-1))).1 (le_refl _)).2
  obtain ⟨kv0, hkv0, j0, hj0, hj0pos⟩ := hkey
  have hM0 : 0 ≤ maxIndex m (-1) := by
    have := hall kv0 hkv0
    rw [hj0] at this
    simp only [Option.getD_some] at this
    omega
  obtain ⟨kvM, hkvM, hM⟩ : ∃ kv ∈ m, (strconv.Atoi kv.1).getD 0 = maxIndex m (-1) := by
    rcases maxIndex_attained m (-1) with h1 | h1
    · omega
    · exact h1
  obtain ⟨jM, hjM⟩ := hparse kvM hkvM
  have hjM' : jM = maxIndex m (-1) := by rw [← hM, hjM]; rfl
  have hrange := strconv.ParseInt_range kvM.1 jM hjM
  have hwrap : wrapInt64 (maxIndex m (-1) + 1) = maxIndex m (-1) + 1 := by
    unfold wrapInt64 at hlen ⊢
    omega
  have hlenl : (l.length : Int) = maxIndex m (-1) + 1 := by
    rw [hl, hwrap]
    simp only [makeSlice, List.length_map, List.length_range]
    omega
  refine ⟨⟨kvM, hkvM, jM, hjM, by rw [hlenl, hjM'], ?_⟩, ?_⟩
  · intro kv' hkv' j' hj'
    have := hall kv' hkv'
    rw [hj'] at this
    simp only [Option.getD_some] at this
    omega
  · intro i hi
    have hget : l[i] = tempGet temp (Int.ofNat i) := by
      subst hl
      simp [makeSlice]
    constructor
    · intro hno
      rw [hget]
      apply tempGet_foldl_of_not_mem
      intro jv hjv hji
      obtain ⟨kv, hkv, hk1, _⟩ := Forall₂_mem_right hf jv hjv
      obtain ⟨j, hj⟩ := hparse kv hkv
      apply hno kv hkv
      rw [hj] at hk1 ⊢
      simp only [Option.getD_some] at hk1
      rw [← hk1, hji]
    · intro kv hkv hk huniq
      obtain ⟨jv, hjv, hj1, hj2⟩ := Forall₂_mem_left hf kv hkv
      rw [hget, hj2]
      congr 1
      symm
      apply tempGet_of_mem
      · refine ⟨jv, hjv, ?_⟩
        rw [hj1, hk]
        rfl
      · intro jv' hjv' hji'
        obtain ⟨kv', hkv', hk1', hk2'⟩ := Forall₂_mem_right hf jv' hjv'
        obtain ⟨j', hj'⟩ := hparse kv' hkv'
        have hk' : strconv.Atoi kv'.1 = some (Int.ofNat i) := by
          rw [hj'] at hk1' ⊢
          simp only [Option.getD_some] at hk1'
          rw [← hk1', hji']
        have := huniq kv' hkv' hk'
        subst this
        rw [hj2] at hk2'
        exact (Option.some.inj hk2').symm

mutual
theorem convertMapsToSlices_rawOf (L : GoLib) : ∀ (v : Node), RoundTrips L v →
    convertMapsToSlices (rawOf v) = some (canon v)
  | .map m, h => by
    rw [RoundTrips] at h
    rw [rawOf, canon, convertMapsToSlices_map_not_numeric _ (isNumericMap_rawEntries m h.1 h.2.1),
      convertMapsToSlices_rawEntries L m [] [] h.2.2.2 (by simp [convertEntries])]
    rfl
  | .seq l, h => by
    rw [RoundTrips] at h
    rw [rawOf, canon]
    exact convertMapsToSlices_rawItems l h.1 h.2.1 (convertMapsToSlices_rawList L l h.2.2)
  | .null, _ => by simp [rawOf, canon, convertMapsToSlices]
  | .bool _, _ => by simp [rawOf, canon, convertMapsToSlices]
  | .int _, _ => by simp [rawOf, canon, convertMapsToSlices]
  | .float _, _ => by simp [rawOf, canon, convertMapsToSlices]
  | .str _, _ => by simp [rawOf, canon, convertMapsToSlices]
theorem convertMapsToSlices_rawEntries (L : GoLib) : ∀ (m acc acc' : List (Str × Node)),
    RoundTripsEntries L m → convertEntries acc = some acc' →
    convertEntries (rawEntries m acc) = some (canonEntries m acc')
  | [], acc, acc', _, hacc => by simpa [rawEntries, canonEntries] using hacc
  | (k, v) :: rest, acc, acc', h, hacc => by
    rw [RoundTripsEntries] at h
    rw [rawEntries, canonEntries]
    exact convertMapsToSlices_rawEntries L rest _ _ h.2.2.2
      (convertEntries_mapSet acc acc' k _ _ hacc (convertMapsToSlices_rawOf L v h.2.2.1))
theorem convertMapsToSlices_rawList (L : GoLib) : ∀ (l : List Node), RoundTripsList L l →
    ∀ v ∈ l, convertMapsToSlices (rawOf v) = some (canon v)
  | [], _, v, hv => by simp at hv
  | a :: rest, h, v, hv => by
    rw [RoundTripsList] at h
    rcases List.mem_cons.1 hv with rfl | hv
    · exact convertMapsToSlices_rawOf L _ h.1
    · exact convertMapsToSlices_rawList L rest h.2 v hv
end

/-! ## The representative of a document is the same document -/

mutual
theorem SameDoc_canon (L : GoLib) : ∀ (v : Node), RoundTrips L v → SameDoc (canon v) v
  | .map m, h => by
    rw [RoundTrips] at h
    rw [canon]
    obtain ⟨m₁, hp, hs⟩ := SameEntries_canon L m [] h.2.2.1 h.2.2.2 (by intro kv _; rfl)
    rw [List.append_nil] at hp
    exact SameDoc.map hp hs
  | .seq l, h => by
    rw [RoundTrips] at h
    rw [canon]
    exact SameDoc.seq (SameList_canon L l h.2.2)
  | .null, _ => SameDoc.null
  | .bool b, _ => SameDoc.bool b
  | .int i, _ => SameDoc.int i
  | .float f, _ => SameDoc.float f
  | .str s, _ => SameDoc.str s
theorem SameEntries_canon (L : GoLib) : ∀ (m acc : List (Str × Node)),
    (m.map Prod.fst).Nodup → RoundTripsEntries L m → (∀ kv ∈ m, mapGet acc kv.1 = none) →
    ∃ m₁, List.Perm (canonEntries m acc) (m₁ ++ acc) ∧ SameEntries m₁ m
  | [], acc, _, _, _ => ⟨[], by simp [canonEntries], SameEntries.nil⟩
  | (k, v) :: rest, acc, hnd, h, hfresh => by
    rw [RoundTripsEntries] at h
    rw [List.map_cons, List.nodup_cons] at hnd
    obtain ⟨m₁, hp, hs⟩ := SameEntries_canon L rest (mapSet acc k (canon v)) hnd.2 h.2.2.2 (by
      intro kv hkv
      have hne : kv.1 ≠ k := by
        intro e
        apply hnd.1
        rw [← e]
        exact List.mem_map.2 ⟨kv, hkv, rfl⟩
      rw [mapGet_mapSet_ne _ _ _ _ hne]
      exact hfresh kv (by simp [hkv]))
    refine ⟨(k, canon v) :: m₁, ?_, SameEntries.cons (SameDoc_canon L v h.2.2.1) hs⟩
    rw [canonEntries]
    have h2 := mapSet_perm acc k (canon v) (hfresh (k, v) (by simp))
    exact (hp.trans (List.Perm.append_left _ h2)).trans List.perm_middle
theorem SameList_canon (L : GoLib) : ∀ (l : List Node), RoundTripsList L l →
    SameList (canonList l) l
  | [], _ => SameList.nil
  | v :: rest, h => by
    rw [RoundTripsList] at h
    rw [canonList]
    exact SameList.cons (SameDoc_canon L v h.1) (SameList_canon L rest h.2)
end

/-! ## The leaves of a document that round-trips -/

theorem fmt.formatNat_no_slash (i : Nat) : '/' ∉ fmt.formatNat i := by
  intro h
  exact absurd (fmt.formatNat_digits i '/' h) (by decide)

mutual
theorem leafEntries_good (L : GoLib) : ∀ (v : Node), RoundTrips L v →
    ∀ e ∈ leafEntries v,
      (∀ s ∈ e.1, s.text ≠ [] ∧ '/' ∉ s.text) ∧ parseTypedValue L (fmt.Sprint L e.2) = e.2
  | .map m, h, e, he => by
    rw [RoundTrips] at h
    rw [leafEntries] at he
    exact leafEntriesMap_good L m h.2.2.2 e he
  | .seq l, h, e, he => by
    rw [RoundTrips] at h
    rw [leafEntries] at he
    exact leafEntriesSeq_good L l 0 h.2.2 e he
  | .null, h, e, he => by
    rw [RoundTrips] at h
    simp only [leafEntries, List.mem_singleton] at he
    subst he
    exact ⟨by simp, h⟩
  | .bool _, h, e, he => by
    rw [RoundTrips] at h
    simp only [leafEntries, List.mem_singleton] at he
    subst he
    exact ⟨by simp, h⟩
  | .int _, h, e, he => by
    rw [RoundTrips] at h
    simp only [leafEntries, List.mem_singleton] at he
    subst he
    exact ⟨by simp, h⟩
  | .float _, h, e, he => by
    rw [RoundTrips] at h
    simp only [leafEntries, List.mem_singleton] at he
    subst he
    exact ⟨by simp, h⟩
  | .str _, h, e, he => by
    rw [RoundTrips] at h
    simp only [leafEntries, List.mem_singleton] at he
    subst he
    exact ⟨by simp, h⟩
theorem leafEntriesMap_good (L : GoLib) : ∀ (m : List (Str × Node)), RoundTripsEntries L m →
    ∀ e ∈ leafEntriesMap m,
      (∀ s ∈ e.1, s.text ≠ [] ∧ '/' ∉ s.text) ∧ parseTypedValue L (fmt.Sprint L e.2) = e.2
  | [], _, e, he => by simp [leafEntriesMap] at he
  | (k, v) :: rest, h, e, he => by
    rw [RoundTripsEntries] at h
    rw [leafEntriesMap, List.mem_append] at he
    rcases he with he | he
    · obtain ⟨e', he', rfl⟩ := List.mem_map.1 he
      obtain ⟨h1, h2⟩ := leafEntries_good L v h.2.2.1 e' he'
      refine ⟨?_, h2⟩
      intro s hs
      rcases List.mem_cons.1 hs with rfl | hs
      · exact ⟨h.1, h.2.1⟩
      · exact h1 s hs
    · exact leafEntriesMap_good L rest h.2.2.2 e he
theorem leafEntriesSeq_good (L : GoLib) : ∀ (l : List Node) (i : Nat), RoundTripsList L l →
    ∀ e ∈ leafEntriesSeq l i,
      (∀ s ∈ e.1, s.text ≠ [] ∧ '/' ∉ s.text) ∧ parseTypedValue L (fmt.Sprint L e.2) = e.2
  | [], _, _, e, he => by simp [leafEntriesSeq] at he
  | v :: rest, i, h, e, he => by
    rw [RoundTripsList] at h
    rw [leafEntriesSeq, List.mem_append] at he
    rcases he with he | he
    · obtain ⟨e', he', rfl⟩ := List.mem_map.1 he
      obtain ⟨h1, h2⟩ := leafEntries_good L v h.1 e' he'
      refine ⟨?_, h2⟩
      intro s hs
      rcases List.mem_cons.1 hs with rfl | hs
      · exact ⟨fmt.formatNat_ne_nil i, fmt.formatNat_no_slash i⟩
      · exact h1 s hs
    · exact leafEntriesSeq_good L rest (i + 1) h.2 e he
end

theorem Separate_cons {k : Str} {a b : List Str} (h : Separate a b) :
    Separate (k :: a) (k :: b) := by
  constructor
  · intro hp; exact h.1 ((List.cons_prefix_cons).1 hp).2
  · intro hp; exact h.2 ((List.cons_prefix_cons).1 hp).2

theorem Separate_of_head_ne {k k' : Str} (a b : List Str) (h : k ≠ k') :
    Separate (k :: a) (k' :: b) := by
  constructor
  · intro hp; exact h ((List.cons_prefix_cons).1 hp).1
  · intro hp; exact h ((List.cons_prefix_cons).1 hp).1.symm

mutual
theorem leafEntries_separate (L : GoLib) : ∀ (v : Node), RoundTrips L v →
    ((leafEntries v).map (fun e => e.1.map Step.text)).Pairwise Separate
  | .map m, h => by
    rw [RoundTrips] at h
    rw [leafEntries]
    exact leafEntriesMap_separate L m h.2.2.1 h.2.2.2
  | .seq l, h => by
    rw [RoundTrips] at h
    rw [leafEntries]
    exact leafEntriesSeq_separate L l 0 h.2.2
  | .null, _ => by simp [leafEntries]
  | .bool _, _ => by simp [leafEntries]
  | .int _, _ => by simp [leafEntries]
  | .float _, _ => by simp [leafEntries]
  | .str _, _ => by simp [leafEntries]
theorem leafEntriesMap_separate (L : GoLib) : ∀ (m : List (Str × Node)),
    (m.map Prod.fst).Nodup → RoundTripsEntries L m →
    ((leafEntriesMap m).map (fun e => e.1.map Step.text)).Pairwise Separate
  | [], _, _ => by simp [leafEntriesMap]
  | (k, v) :: rest, hnd, h => by
    rw [RoundTripsEntries] at h
    rw [List.map_cons, List.nodup_cons] at hnd
    rw [leafEntriesMap, List.map_append, List.pairwise_append]
    refine ⟨?_, leafEntriesMap_separate L rest hnd.2 h.2.2.2, ?_⟩
    · have ih := leafEntries_separate L v h.2.2.1
      rw [List.map_map]
      rw [List.pairwise_map] at ih ⊢
      exact ih.imp (fun hab => Separate_cons hab)
    · intro a ha b hb
      obtain ⟨ea, hea, rfl⟩ := List.mem_map.1 ha
      obtain ⟨ea', _, rfl⟩ := List.mem_map.1 hea
      obtain ⟨eb, heb, rfl⟩ := List.mem_map.1 hb
      obtain ⟨k', r, hk', hr⟩ := leafEntriesMap_route_mem rest eb heb
      rw [hr]
      have hne : k ≠ k' := by
        rintro rfl
        exact hnd.1 hk'
      exact Separate_of_head_ne _ _ hne
theorem leafEntriesSeq_separate (L : GoLib) : ∀ (l : List Node) (i : Nat),
    RoundTripsList L l →
    ((leafEntriesSeq l i).map (fun e => e.1.map Step.text)).Pairwise Separate
  | [], _, _ => by simp [leafEntriesSeq]
  | v :: rest, i, h => by
    rw [RoundTripsList] at h
    rw [leafEntriesSeq, List.map_append, List.pairwise_append]
    refine ⟨?_, leafEntriesSeq_separate L rest (i + 1) h.2, ?_⟩
    · have ih := leafEntries_separate L v h.1
      rw [List.map_map]
      rw [List.pairwise_map] at ih ⊢
      exact ih.imp (fun hab => Separate_cons hab)
    · intro a ha b hb
      obtain ⟨ea, hea, rfl⟩ := List.mem_map.1 ha
      obtain ⟨ea', _, rfl⟩ := List.mem_map.1 hea
      obtain ⟨eb, heb, rfl⟩ := List.mem_map.1 hb
      obtain ⟨j, r, hj, hr⟩ := leafEntriesSeq_route_ge rest (i + 1) eb heb
      rw [hr]
      have hne : fmt.formatNat i ≠ fmt.formatNat j := by
        intro e
        have := fmt.formatNat_injective e
        omega
      exact Separate_of_head_ne _ _ hne
end

/-! ## Paths written by the loader and their segments -/

theorem loadPath_steps_last : ∀ (r : List Step) (path : Str), path.getLast? ≠ some '/' →
    (∀ s ∈ r, s.text ≠ [] ∧ s.text.getLast? ≠ some '/') → loadPath path r = path ++ routeText r
  | [], path, _, _ => by simp [loadPath, routeText, slashJoin]
  | .key k :: r, path, hp, hs => by
    have hk := hs (.key k) (by simp)
    simp only [Step.text] at hk
    have hlast : (path ++ "/".toList ++ k).getLast? ≠ some '/' := by
      rw [List.getLast?_append_of_ne_nil _ hk.1]
      exact hk.2
    rw [loadPath, strings.TrimSuffix_eq_self path hp,
      loadPath_steps_last r _ hlast (fun s h => hs s (by simp [h]))]
    simp [routeText, slashJoin, Step.text]
  | .index i :: r, path, hp, hs => by
    have hk := hs (.index i) (by simp)
    simp only [Step.text] at hk
    have hlast : (path ++ "/".toList ++ fmt.formatNat i).getLast? ≠ some '/' := by
      rw [List.getLast?_append_of_ne_nil _ hk.1]
      exact hk.2
    rw [loadPath, loadPath_steps_last r _ hlast (fun s h => hs s (by simp [h]))]
    simp [routeText, slashJoin, Step.text]

theorem loadPath_root_last (pfx k : Str) (r : List Step)
    (hs : ∀ s ∈ Step.key k :: r, s.text ≠ [] ∧ s.text.getLast? ≠ some '/') :
    loadPath pfx (Step.key k :: r) = routePath pfx (Step.key k :: r) := by
  have hk := hs (.key k) (by simp)
  simp only [Step.text] at hk
  have hlast : (strings.TrimSuffix pfx "/".toList ++ "/".toList ++ k).getLast? ≠ some '/' := by
    rw [List.getLast?_append_of_ne_nil _ hk.1]
    exact hk.2
  rw [loadPath, loadPath_steps_last r _ hlast (fun s h => hs s (by simp [h]))]
  simp [routePath, routeText, slashJoin, Step.text]

theorem loadPath_root (pfx k : Str) (r : List Step)
    (hs : ∀ s ∈ Step.key k :: r, s.text ≠ [] ∧ '/' ∉ s.text) :
    loadPath pfx (Step.key k :: r) = joinPath ((Step.key k :: r).map Step.text) pfx := by
  rw [loadPath_root_last pfx k r
    (fun s h => ⟨(hs s h).1, getLast?_ne_of_not_mem _ _ (hs s h).2⟩)]
  rfl

theorem strings.Split_of_no_sep (sep : Char) : ∀ s : Str, sep ∉ s → strings.Split sep s = [s]
  | [], _ => rfl
  | a :: as, h => by
    have ha : a ≠ sep := fun e => h (by simp [e])
    have hs : sep ∉ as := fun e => h (by simp [e])
    rw [strings.Split, if_neg ha, strings.Split_of_no_sep sep as hs]

theorem strings.Split_append_sep (sep : Char) (u : Str) : ∀ s : Str, sep ∉ s →
    strings.Split sep (s ++ sep :: u) = s :: strings.Split sep u
  | [], _ => by simp [strings.Split]
  | a :: as, h => by
    have ha : a ≠ sep := fun e => h (by simp [e])
    have hs : sep ∉ as := fun e => h (by simp [e])
    rw [List.cons_append, strings.Split, if_neg ha, strings.Split_append_sep sep u as hs]

theorem strings.Split_slashJoin : ∀ (rest : List Str) (s : Str), '/' ∉ s →
    (∀ x ∈ rest, '/' ∉ x) → strings.Split '/' (s ++ slashJoin rest) = s :: rest
  | [], s, hs, _ => by simp [slashJoin, strings.Split_of_no_sep '/' s hs]
  | s2 :: rest2, s, hs, h => by
    rw [slashJoin, strings.Split_append_sep '/' _ s hs,
      strings.Split_slashJoin rest2 s2 (h s2 (by simp)) (fun x hx => h x (by simp [hx]))]

theorem getLast?_append_slashJoin : ∀ (rest : List Str) (s : Str), s ≠ [] → '/' ∉ s →
    (∀ x ∈ rest, x ≠ [] ∧ '/' ∉ x) → (s ++ slashJoin rest).getLast? ≠ some '/'
  | [], s, _, hs, _ => by
    simp only [slashJoin, List.append_nil]
    exact getLast?_ne_of_not_mem _ _ hs
  | s2 :: rest2, s, _, _, h => by
    have h2 := h s2 (by simp)
    have ih := getLast?_append_slashJoin rest2 s2 h2.1 h2.2 (fun x hx => h x (by simp [hx]))
    have hne : s2 ++ slashJoin rest2 ≠ [] := by simp [h2.1]
    rw [slashJoin, List.getLast?_append_of_ne_nil _ (by simp),
      show ('/' :: (s2 ++ slashJoin rest2)) = ['/'] ++ (s2 ++ slashJoin rest2) from rfl,
      List.getLast?_append_of_ne_nil _ hne]
    exact ih

theorem toSegments_joinPath (segs : List Str) (pfx : Str) (hne : segs ≠ [])
    (h : ∀ s ∈ segs, s ≠ [] ∧ '/' ∉ s) : toSegments (joinPath segs pfx) pfx = segs := by
  cases segs with
  | nil => exact absurd rfl hne
  | cons s rest =>
    have hs := h s (by simp)
    have hrest : ∀ x ∈ rest, x ≠ [] ∧ '/' ∉ x := fun x hx => h x (by simp [hx])
    rw [joinPath, slashJoin, toSegments_of_rest pfx (s ++ slashJoin rest)]
    · exact strings.Split_slashJoin rest s hs.2 (fun x hx => (hrest x hx).2)
    · cases s with
      | nil => exact absurd rfl hs.1
      | cons a as =>
        have : a ≠ '/' := fun e => hs.2 (by simp [e])
        simp [this]
    · exact getLast?_append_slashJoin rest s hs.1 hs.2 hrest

/-! ## Where the loader and the flattener agree -/

mutual
theorem leafEntries_plain : ∀ (d : Node), PlainKeys d → ∀ e ∈ leafEntries d,
    ∀ s ∈ e.1, s.text ≠ [] ∧ s.text.getLast? ≠ some '/'
  | .map m, h, e, he => by
    rw [PlainKeys] at h
    rw [leafEntries] at he
    exact leafEntriesMap_plain m h e he
  | .seq l, h, e, he => by
    rw [PlainKeys] at h
    rw [leafEntries] at he
    exact leafEntriesSeq_plain l 0 h e he
  | .null, _, e, he => by simp only [leafEntries, List.mem_singleton] at he; subst he; simp
  | .bool _, _, e, he => by simp only [leafEntries, List.mem_singleton] at he; subst he; simp
  | .int _, _, e, he => by simp only [leafEntries, List.mem_singleton] at he; subst he; simp
  | .float _, _, e, he => by simp only [leafEntries, List.mem_singleton] at he; subst he; simp
  | .str _, _, e, he => by simp only [leafEntries, List.mem_singleton] at he; subst he; simp
theorem leafEntriesMap_plain : ∀ (m : List (Str × Node)), PlainKeysEntries m →
    ∀ e ∈ leafEntriesMap m, ∀ s ∈ e.1, s.text ≠ [] ∧ s.text.getLast? ≠ some '/'
  | [], _, e, he => by simp [leafEntriesMap] at he
  | (k, v) :: rest, h, e, he => by
    rw [PlainKeysEntries] at h
    rw [leafEntriesMap, List.mem_append] at he
    rcases he with he | he
    · obtain ⟨e', he', rfl⟩ := List.mem_map.1 he
      intro s hs
      rcases List.mem_cons.1 hs with rfl | hs
      · exact ⟨h.1, h.2.1⟩
      · exact leafEntries_plain v h.2.2.1 e' he' s hs
    · exact leafEntriesMap_plain rest h.2.2.2 e he
theorem leafEntriesSeq_plain : ∀ (l : List Node) (i : Nat), PlainKeysList l →
    ∀ e ∈ leafEntriesSeq l i, ∀ s ∈ e.1, s.text ≠ [] ∧ s.text.getLast? ≠ some '/'
  | [], _, _, e, he => by simp [leafEntriesSeq] at he
  | v :: rest, i, h, e, he => by
    rw [PlainKeysList] at h
    rw [leafEntriesSeq, List.mem_append] at he
    rcases he with he | he
    · obtain ⟨e', he', rfl⟩ := List.mem_map.1 he
      intro s hs
      rcases List.mem_cons.1 hs with rfl | hs
      · exact ⟨fmt.formatNat_ne_nil i,
          getLast?_ne_of_not_mem _ _ (fmt.formatNat_no_slash i)⟩
      · exact leafEntries_plain v h.1 e' he' s hs
    · exact leafEntriesSeq_plain rest (i + 1) h.2 e he
end

/-- For a document that is a mapping in which every key is non-empty and does
not end in `/`, the paths `loadConfig` writes are the paths `flattenYAMLKeys`
returns, in the same traversal order. -/
theorem loadConfig_flattenYAMLKeys_agree (L : GoLib) (fl : LoadFlags) (client : PutClient)
    (m : List (Str × Node)) (pfx : Str) (h : PlainKeys (Node.map m)) :
    (loadConfig L fl client (Node.map m) pfx LoadLog.empty).2.puts.map PutParameterInput.Name
      = flattenYAMLKeys (Node.map m) pfx := by
  rw [(loadConfig_eq L fl client (Node.map m) pfx LoadLog.empty).2]
  simp only [LoadLog.empty, List.nil_append, List.map_map, flattenYAMLKeys,
    flattenYAMLKeys.walk_eq]
  apply List.map_congr_left
  intro e he
  have hplain := leafEntries_plain (Node.map m) h e he
  rw [leafEntries] at he
  obtain ⟨k, r, hr⟩ := leafEntriesMap_route m e he
  simp only [Function.comp, putInputOf]
  rw [hr] at hplain ⊢
  rw [loadPath_root_last pfx k r hplain]
  rfl

/-! ## The round trip -/

theorem insertAll_eq_insertPairs (L : GoLib) (flat : List (Str × Str)) (pfx : Str) :
    ∀ (keys : List Str) (t : List (Str × Node)),
    insertAll L flat pfx t keys =
      insertPairs t (keys.map (fun k => (toSegments k pfx, parseTypedValue L (flatGet flat k))))
  | [], t => rfl
  | k :: rest, t => by
    rw [insertAll_cons, List.map_cons, insertPairs]
    cases insertIntoTree t (toSegments k pfx) (parseTypedValue L (flatGet flat k)) with
    | none => rfl
    | some t1 => simp [insertAll_eq_insertPairs L flat pfx rest t1]

theorem storeOf_loadConfig (L : GoLib) (fl : LoadFlags) (client : PutClient)
    (m : List (Str × Node)) (pfx : Str) (h : RoundTrips L (Node.map m)) :
    storeOf (loadConfig L fl client (Node.map m) pfx LoadLog.empty).2 =
      (leafEntriesMap m).map
        (fun e => (joinPath (e.1.map Step.text) pfx, fmt.Sprint L e.2)) := by
  rw [storeOf, (loadConfig_eq L fl client (Node.map m) pfx LoadLog.empty).2, leafEntries]
  simp only [LoadLog.empty, List.nil_append, List.map_map]
  apply List.map_congr_left
  intro e he
  have hgood := (leafEntries_good L (Node.map m) h e (by rw [leafEntries]; exact he)).1
  obtain ⟨k, r, hr⟩ := leafEntriesMap_route m e he
  simp only [Function.comp, putInputOf]
  rw [hr] at hgood ⊢
  rw [loadPath_root pfx k r hgood]

theorem flatGet_perm {flat flat' : List (Str × Str)} (hp : List.Perm flat flat')
    (hnd : (flat.map Prod.fst).Nodup) (kv : Str × Str) (hkv : kv ∈ flat) :
    flatGet flat' kv.1 = kv.2 :=
  flatGet_of_mem flat' ((hp.map Prod.fst).nodup_iff.1 hnd) kv (hp.mem_iff.1 hkv)

theorem flattenToNestedMap_loadConfig (L : GoLib) (fl : LoadFlags) (client : PutClient)
    (m : List (Str × Node)) (pfx : Str) (h : RoundTrips L (Node.map m))
    (flat : List (Str × Str))
    (hflat : List.Perm flat
      (storeOf (loadConfig L fl client (Node.map m) pfx LoadLog.empty).2)) :
    flattenToNestedMap L false flat pfx = some (canonEntries m []) := by
  have hE : leafEntries (Node.map m) = leafEntriesMap m := by rw [leafEntries]
  have hgood := leafEntries_good L (Node.map m) h
  rw [hE] at hgood
  have hsegs : ∀ e ∈ leafEntriesMap m,
      toSegments (joinPath (e.1.map Step.text) pfx) pfx = e.1.map Step.text := by
    intro e he
    obtain ⟨k, r, hr⟩ := leafEntriesMap_route m e he
    apply toSegments_joinPath
    · simp [hr]
    · intro s hs
      obtain ⟨st, hst, rfl⟩ := List.mem_map.1 hs
      exact (hgood e he).1 st hst
  have hsep := leafEntries_separate L (Node.map m) h
  rw [hE, List.pairwise_map] at hsep
  rw [storeOf_loadConfig L fl client m pfx h] at hflat
  generalize hstore : (leafEntriesMap m).map
    (fun e => (joinPath (e.1.map Step.text) pfx, fmt.Sprint L e.2)) = store at hflat
  have hkeys : store.map Prod.fst
      = (leafEntriesMap m).map (fun e => joinPath (e.1.map Step.text) pfx) := by
    rw [← hstore, List.map_map]; rfl
  have hpw : (store.map Prod.fst).Pairwise
      (fun a b => Separate (toSegments a pfx) (toSegments b pfx)) := by
    rw [hkeys, List.pairwise_map]
    apply hsep.imp_of_mem
    intro a b ha hb hab
    rw [hsegs a ha, hsegs b hb]
    exact hab
  have hnd : (store.map Prod.fst).Nodup := hpw.imp (fun hab e => hab.ne (by rw [e]))
  have hperm : List.Perm (sort.SliceStable keyLess (flat.map Prod.fst)) (store.map Prod.fst) :=
    (sort.SliceStable_perm keyLess (flat.map Prod.fst)).trans (hflat.map Prod.fst)
  have hins : insertAll L flat pfx [] (sort.SliceStable keyLess (flat.map Prod.fst))
      = some (rawEntries m []) := by
    rw [← insertAll_perm L flat pfx hperm.symm hpw [], insertAll_eq_insertPairs, hkeys,
      List.map_map]
    rw [← insertPairs_leavesMap L m [] (by rw [RoundTrips] at h; exact h.2.2.1)
      (by rw [RoundTrips] at h; exact h.2.2.2) (by intro kv _; rfl)]
    congr 1
    apply List.map_congr_left
    intro e he
    have hmem : (joinPath (e.1.map Step.text) pfx, fmt.Sprint L e.2) ∈ store := by
      rw [← hstore]
      exact List.mem_map.2 ⟨e, he, rfl⟩
    have hget := flatGet_perm hflat.symm hnd _ hmem
    simp only at hget
    simp only [Function.comp, hsegs e he, hget, (hgood e he).2]
  have hconv := convertMapsToSlices_rawOf L (Node.map m) h
  rw [rawOf, canon] at hconv
  simp only [flattenToNestedMap, hins, hconv]
  rfl

/-! ## The sibling order -/

theorem keyLess_iff (a b : Str) : keyLess a b = true ↔ SiblingBefore a b := by
  unfold keyLess SiblingBefore segmentCount
  by_cases h : (strings.Split '/' a).length = (strings.Split '/' b).length
  · simp [h]
  · simp [h]

theorem keyLess_of_no_slash (a b : Str) (ha : '/' ∉ a) (hb : '/' ∉ b) :
    keyLess a b = strings.Less a b := by
  unfold keyLess
  rw [strings.Split_of_no_sep '/' a ha, strings.Split_of_no_sep '/' b hb]
  simp

theorem keyLess_trans (a b c : Str) (h1 : keyLess a b = true) (h2 : keyLess b c = true) :
    keyLess a c = true := by
  rw [keyLess_iff] at h1 h2 ⊢
  unfold SiblingBefore at h1 h2 ⊢
  rcases h1 with h1 | ⟨e1, l1⟩ <;> rcases h2 with h2 | ⟨e2, l2⟩
  · exact Or.inl (by omega)
  · exact Or.inl (by omega)
  · exact Or.inl (by omega)
  · exact Or.inr ⟨by omega, strings.Less_trans a b c l1 l2⟩

theorem keyLess_total (a b : Str) (h : a ≠ b) : keyLess a b = true ∨ keyLess b a = true := by
  rw [keyLess_iff, keyLess_iff]
  unfold SiblingBefore
  rcases Nat.lt_trichotomy (segmentCount a) (segmentCount b) with hlt | heq | hgt
  · exact Or.inl (Or.inl hlt)
  · rcases strings.Less_total a b h with l | l
    · exact Or.inl (Or.inr ⟨heq, l⟩)
    · exact Or.inr (Or.inr ⟨heq.symm, l⟩)
  · exact Or.inr (Or.inl hgt)

theorem keyLess_asymm (a b : Str) (h : keyLess a b = true) : keyLess b a = false := by
  rw [Bool.eq_false_iff]
  intro h2
  rw [keyLess_iff] at h h2
  unfold SiblingBefore at h h2
  rcases h with h | ⟨e1, l1⟩ <;> rcases h2 with h2 | ⟨e2, l2⟩
  · omega
  · omega
  · omega
  · have := strings.Less_asymm a b l1
    rw [l2] at this
    exact absurd this (by simp)

theorem sort.insert_mem (less : Str → Str → Bool) (a x : Str) (l : List Str)
    (h : x ∈ sort.insert less a l) : x = a ∨ x ∈ l := by
  have := (sort.insert_perm less a l).mem_iff.1 h
  simpa using this

theorem sort.insert_sorted (a : Str) : ∀ (l : List Str),
    l.Pairwise (fun x y => keyLess x y = true) → a ∉ l →
    (sort.insert keyLess a l).Pairwise (fun x y => keyLess x y = true)
  | [], _, _ => by simp [sort.insert]
  | b :: bs, hs, ha => by
    rw [sort.insert]
    have hab : a ≠ b := fun e => ha (by simp [e])
    have hbs : a ∉ bs := fun e => ha (by simp [e])
    rw [List.pairwise_cons] at hs
    by_cases hlt : keyLess b a = true
    · rw [if_pos hlt, List.pairwise_cons]
      refine ⟨?_, sort.insert_sorted a bs hs.2 hbs⟩
      intro x hx
      rcases sort.insert_mem keyLess a x bs hx with e | hm
      · rw [e]; exact hlt
      · exact hs.1 x hm
    · rw [if_neg hlt, List.pairwise_cons]
      have hl : keyLess a b = true := by
        rcases keyLess_total a b hab with h | h
        · exact h
        · exact absurd h hlt
      refine ⟨?_, List.pairwise_cons.2 hs⟩
      intro x hx
      rcases List.mem_cons.1 hx with e | hm
      · rw [e]; exact hl
      · exact keyLess_trans a b x hl (hs.1 x hm)

theorem sort.SliceStable_sorted : ∀ (l : List Str), l.Nodup →
    (sort.SliceStable keyLess l).Pairwise (fun x y => keyLess x y = true)
  | [], _ => by simp [sort.SliceStable]
  | a :: as, hn => by
    rw [sort.SliceStable]
    rw [List.nodup_cons] at hn
    refine sort.insert_sorted a _ (sort.SliceStable_sorted as hn.2) ?_
    intro hm
    exact hn.1 ((sort.SliceStable_perm keyLess as).mem_iff.1 hm)

theorem sort.SliceStable_length (less : Str → Str → Bool) (l : List Str) :
    (sort.SliceStable less l).length = l.length :=
  (sort.SliceStable_perm less l).length_eq

/-- Two lists with the same elements that are both strictly ascending are
equal. -/
theorem keyLess_sorted_unique : ∀ (l₁ l₂ : List Str), l₁.Perm l₂ →
    l₁.Pairwise (fun x y => keyLess x y = true) →
    l₂.Pairwise (fun x y => keyLess x y = true) → l₁ = l₂ := by
  intro l₁ l₂ hp h1 h2
  haveI : IsAntisymm Str (fun x y => keyLess x y = true) :=
    ⟨fun a b hab hba => by
      have := keyLess_asymm a b hab
      rw [hba] at this
      exact absurd this (by simp)⟩
  exact List.eq_of_perm_of_sorted hp h1 h2

/-- The sorted keys do not depend on the order in which the map is ranged
over. -/
theorem sort.SliceStable_of_perm (l₁ l₂ : List Str) (hp : l₁.Perm l₂) (hn : l₂.Nodup) :
    sort.SliceStable keyLess l₁ = sort.SliceStable keyLess l₂ :=
  keyLess_sorted_unique _ _
    (((sort.SliceStable_perm keyLess l₁).trans hp).trans (sort.SliceStable_perm keyLess l₂).symm)
    (sort.SliceStable_sorted l₁ (hp.nodup_iff.2 hn)) (sort.SliceStable_sorted l₂ hn)

/-! ## The loops of `printYAMLTree` -/

theorem printYAMLTree.walk_leaf (L : GoLib) (C : ColorLib) (sv : Bool) (item : Node)
    (h : printYAMLTree.isLeaf item = true) (pfx : Str) (last : Bool) (fullPath : Str) :
    printYAMLTree.walk L C sv item pfx last fullPath = [] := by
  cases item with
  | map m => simp [printYAMLTree.isLeaf] at h
  | seq l => simp [printYAMLTree.isLeaf] at h
  | _ => rw [printYAMLTree.walk]

theorem printYAMLTree.assocGet_walkEntries (L : GoLib) (C : ColorLib) (sv : Bool) :
    ∀ (v : List (Str × Node)) (k : Str),
    (assocGet (printYAMLTree.walkEntries L C sv v) k).getD (fun _ _ _ => [])
      = printYAMLTree.walk L C sv ((mapGet v k).getD Node.null)
  | [], k => by
    funext pfx last fullPath
    simp [printYAMLTree.walkEntries, assocGet, mapGet, printYAMLTree.walk]
  | (k', val) :: rest, k => by
    rw [printYAMLTree.walkEntries, assocGet, mapGet]
    by_cases hk : k = k'
    · simp [hk]
    · simp only [hk, if_false]
      exact printYAMLTree.assocGet_walkEntries L C sv rest k

theorem printYAMLTree.walkKeys_eq (L : GoLib) (C : ColorLib) (sv : Bool)
    (v : List (Str × Node)) (walkOf : Str → Str → Bool → Str → List Str)
    (pfx connector fullPath : Str) (n : Nat) : ∀ (ks : List Str) (i : Nat),
    printYAMLTree.walkKeys L C sv v walkOf pfx connector fullPath n i ks
      = (ks.enumFrom i).flatMap (fun ik =>
          printYAMLTree.keyBody L C sv v walkOf pfx connector fullPath n ik.1 ik.2)
  | [], i => by simp [printYAMLTree.walkKeys]
  | k :: rest, i => by
    rw [printYAMLTree.walkKeys, List.enumFrom_cons, List.flatMap_cons,
      printYAMLTree.walkKeys_eq L C sv v walkOf pfx connector fullPath n rest (i + 1)]

theorem printYAMLTree.walkItems_eq (L : GoLib) (C : ColorLib) (sv : Bool)
    (pfx connector fullPath : Str) (n : Nat) : ∀ (l : List Node) (i : Nat),
    printYAMLTree.walkItems L C sv l pfx connector fullPath n i
      = (l.enumFrom i).flatMap (fun ii =>
          printYAMLTree.itemBody L C sv (printYAMLTree.walk L C sv ii.2)
            pfx connector fullPath n ii.1 ii.2)
  | [], i => by simp [printYAMLTree.walkItems]
  | item :: rest, i => by
    rw [printYAMLTree.walkItems, List.enumFrom_cons, List.flatMap_cons,
      printYAMLTree.walkItems_eq L C sv pfx connector fullPath n rest (i + 1)]

/-- The mapping case of `walk`, as the source reads: one pass of the loop body
for each key, in the sorted order, every pass with the connector chosen from
the flag `last` of the mapping itself. -/
theorem printYAMLTree.walk_map (L : GoLib) (C : ColorLib) (sv : Bool)
    (v : List (Str × Node)) (pfx : Str) (last : Bool) (fullPath : Str) :
    printYAMLTree.walk L C sv (Node.map v) pfx last fullPath
      = (sort.SliceStable keyLess (v.map Prod.fst)).enum.flatMap (fun ik =>
          printYAMLTree.keyBody L C sv v
            (fun k => printYAMLTree.walk L C sv ((mapGet v k).getD Node.null))
            pfx (if last then "└── ".toList else "├── ".toList) fullPath
            (sort.SliceStable keyLess (v.map Prod.fst)).length ik.1 ik.2) := by
  rw [printYAMLTree.walk, printYAMLTree.walkKeys_eq]
  have : (fun k => (assocGet (printYAMLTree.walkEntries L C sv v) k).getD (fun _ _ _ => []))
      = (fun k => printYAMLTree.walk L C sv ((mapGet v k).getD Node.null)) := by
    funext k
    exact printYAMLTree.assocGet_walkEntries L C sv v k
  rw [this]
  rfl

/-- The sequence case of `walk`: one pass of the loop body for each element, in
index order, every pass with the connector chosen from the flag `last` of the
sequence itself. -/
theorem printYAMLTree.walk_seq (L : GoLib) (C : ColorLib) (sv : Bool)
    (l : List Node) (pfx : Str) (last : Bool) (fullPath : Str) :
    printYAMLTree.walk L C sv (Node.seq l) pfx last fullPath
      = l.enum.flatMap (fun ii =>
          printYAMLTree.itemBody L C sv (printYAMLTree.walk L C sv ii.2)
            pfx (if last then "└── ".toList else "├── ".toList) fullPath l.length ii.1 ii.2) := by
  rw [printYAMLTree.walk, printYAMLTree.walkItems_eq]
  rfl

/-- The first string a pass of the mapping loop writes is the line of the key:
the indentation, the connector handed to the loop, then the label. -/
theorem printYAMLTree.keyBody_line (L : GoLib) (C : ColorLib) (sv : Bool)
    (v : List (Str × Node)) (walkOf : Str → Str → Bool → Str → List Str)
    (pfx connector fullPath : Str) (n i : Nat) (k : Str) :
    ∃ text below, printYAMLTree.keyBody L C sv v walkOf pfx connector fullPath n i k
      = (pfx ++ connector ++ text) :: below := by
  unfold printYAMLTree.keyBody
  simp only [List.append_assoc]
  split
  · exact ⟨_, _, rfl⟩
  · exact ⟨_, _, rfl⟩

/-- The first string a pass of the sequence loop writes is the line of the
element: the indentation, the connector handed to the loop, then the label. -/
theorem printYAMLTree.itemBody_line (L : GoLib) (C : ColorLib) (sv : Bool)
    (walkItem : Str → Bool → Str → List Str)
    (pfx connector fullPath : Str) (n i : Nat) (item : Node) :
    ∃ text below, printYAMLTree.itemBody L C sv walkItem pfx connector fullPath n i item
      = (pfx ++ connector ++ text) :: below := by
  unfold printYAMLTree.itemBody
  simp only [List.append_assoc]
  split
  · exact ⟨_, _, rfl⟩
  · exact ⟨_, _, rfl⟩

/-! ## The loop of `printTree` -/

theorem printTree.assocGet_walkChildren (C : ColorLib) (values : List (Str × treeParam))
    (sv : Bool) : ∀ (children : List (Str × printTree.node)) (k : Str),
    (assocGet (printTree.walkChildren C values sv children) k).getD (fun _ _ => [])
      = printTree.walkChild C values sv children k
  | [], k => by
    funext pfx last
    simp [printTree.walkChildren, printTree.walkChild, assocGet]
  | (k', c) :: rest, k => by
    have ih := printTree.assocGet_walkChildren C values sv rest k
    funext pfx last
    rw [printTree.walkChildren, assocGet, printTree.walkChild, assocGet]
    by_cases hk : k = k'
    · simp [hk]
    · simp only [hk, if_false]
      rw [ih, printTree.walkChild]

theorem printTree.walkKeys_flatMap (walkOf : Str → Str → Bool → List Str) (newPrefix : Str)
    (n : Nat) : ∀ (ks : List Str) (i : Nat),
    printTree.walkKeys walkOf newPrefix n i ks
      = (ks.enumFrom i).flatMap (fun ik => walkOf ik.2 newPrefix (decide (ik.1 = n - 1)))
  | [], i => by simp [printTree.walkKeys]
  | k :: rest, i => by
    rw [printTree.walkKeys, List.enumFrom_cons, List.flatMap_cons,
      printTree.walkKeys_flatMap walkOf newPrefix n rest (i + 1)]

/-- The closure `walk` of `printTree`, as the source reads: the line of the
node, then one recursive call for each child, in the sorted order of the keys,
the call at the last position with the flag `last` set. -/
theorem printTree.walk_node (C : ColorLib) (values : List (Str × treeParam)) (sv : Bool)
    (name fullPath : Str) (children : List (Str × printTree.node)) (pfx : Str) (last : Bool) :
    printTree.walk C values sv (printTree.node.mk name fullPath children) pfx last
      = (if name ≠ "/".toList then
          [pfx ++ (if last then "└── ".toList else "├── ".toList) ++
            printTree.label C values sv name fullPath ++ "\n".toList]
         else []) ++
        (sort.SliceStable keyLess (children.map Prod.fst)).enum.flatMap (fun ik =>
          printTree.walkChild C values sv children ik.2
            (if name ≠ "/".toList then pfx ++ (if last then "    ".toList else "│   ".toList)
             else pfx)
            (decide (ik.1 = (sort.SliceStable keyLess (children.map Prod.fst)).length - 1))) := by
  rw [printTree.walk, printTree.walkKeys_flatMap]
  simp only [printTree.assocGet_walkChildren]
  rfl

/-! ## The tree `printTree` builds -/

theorem assocSet_keys : ∀ (m : List (Str × printTree.node)) (k : Str) (v : printTree.node)
    (x : Str), x ∈ (assocSet m k v).map Prod.fst ↔ x = k ∨ x ∈ m.map Prod.fst
  | [], k, v, x => by simp [assocSet]
  | (k', v') :: rest, k, v, x => by
    rw [assocSet]
    by_cases h : k = k'
    · subst h; simp
    · rw [if_neg h]
      by_cases hl : strings.Less k k' = true
      · rw [if_pos hl]; simp
      · rw [if_neg hl]
        simp only [List.map_cons, List.mem_cons]
        rw [assocSet_keys rest k v x]
        tauto

theorem assocSet_sorted : ∀ (m : List (Str × printTree.node)) (k : Str) (v : printTree.node),
    (m.map Prod.fst).Pairwise (fun a b => strings.Less a b = true) →
    ((assocSet m k v).map Prod.fst).Pairwise (fun a b => strings.Less a b = true)
  | [], k, v, _ => by simp [assocSet]
  | (k', v') :: rest, k, v, hn => by
    rw [assocSet]
    simp only [List.map_cons, List.pairwise_cons] at hn
    by_cases h : k = k'
    · subst h
      rw [if_pos rfl]
      simpa using hn
    · rw [if_neg h]
      by_cases hl : strings.Less k k' = true
      · rw [if_pos hl]
        simp only [List.map_cons, List.pairwise_cons, List.mem_cons]
        refine ⟨?_, hn.1, hn.2⟩
        intro x hx
        rcases hx with e | hx
        · rw [e]; exact hl
        · exact strings.Less_trans k k' x hl (hn.1 x hx)
      · rw [if_neg hl]
        simp only [List.map_cons, List.pairwise_cons]
        refine ⟨?_, assocSet_sorted rest k v hn.2⟩
        intro x hx
        rw [assocSet_keys] at hx
        rcases hx with e | hx
        · rw [e]
          rcases strings.Less_total k k' h with l | l
          · exact absurd l hl
          · exact l
        · exact hn.1 x hx

theorem strings.Less_sorted_nodup (l : List Str)
    (h : l.Pairwise (fun a b => strings.Less a b = true)) : l.Nodup := by
  refine h.imp ?_
  intro a b hab e
  rw [e, strings.Less_irrefl] at hab
  exact absurd hab (by simp)

theorem printTree.BuiltChildren_iff : ∀ (m : List (Str × printTree.node)),
    printTree.BuiltChildren m ↔
      ∀ kc ∈ m, kc.2.name = kc.1 ∧ '/' ∉ kc.1 ∧ printTree.node.Built kc.2
  | [] => by simp [printTree.BuiltChildren]
  | (k, c) :: rest => by
    rw [printTree.BuiltChildren, printTree.BuiltChildren_iff rest]
    simp only [List.mem_cons, forall_eq_or_imp]
    tauto

theorem assocGet_mem : ∀ (m : List (Str × printTree.node)) (k : Str) (c : printTree.node),
    assocGet m k = some c → (k, c) ∈ m
  | [], _, _, h => by simp [assocGet] at h
  | (k', v) :: rest, k, c, h => by
    rw [assocGet] at h
    by_cases hk : k = k'
    · simp only [hk, if_true, Option.some.injEq] at h
      simp [hk, h]
    · simp only [hk, if_false] at h
      exact List.mem_cons_of_mem _ (assocGet_mem rest k c h)

theorem assocSet_mem : ∀ (m : List (Str × printTree.node)) (k : Str) (v : printTree.node)
    (kc : Str × printTree.node), kc ∈ assocSet m k v → kc = (k, v) ∨ kc ∈ m
  | [], k, v, kc, h => by simpa [assocSet] using h
  | (k', v') :: rest, k, v, kc, h => by
    rw [assocSet] at h
    by_cases hk : k = k'
    · rw [if_pos hk] at h
      rcases List.mem_cons.1 h with e | hm
      · exact Or.inl e
      · exact Or.inr (List.mem_cons_of_mem _ hm)
    · rw [if_neg hk] at h
      by_cases hl : strings.Less k k' = true
      · rw [if_pos hl] at h
        rcases List.mem_cons.1 h with e | hm
        · exact Or.inl e
        · exact Or.inr hm
      · rw [if_neg hl] at h
        rcases List.mem_cons.1 h with e | hm
        · exact Or.inr (by simp [e])
        · rcases assocSet_mem rest k v kc hm with e | hm2
          · exact Or.inl e
          · exact Or.inr (List.mem_cons_of_mem _ hm2)

theorem printTree.addPath_Built : ∀ (parts : List Str) (children : List (Str × printTree.node))
    (currentPath : Str), (∀ p ∈ parts, '/' ∉ p) →
    (children.map Prod.fst).Pairwise (fun a b => strings.Less a b = true) →
    printTree.BuiltChildren children →
    ((printTree.addPath children currentPath parts).map Prod.fst).Pairwise
        (fun a b => strings.Less a b = true) ∧
      printTree.BuiltChildren (printTree.addPath children currentPath parts)
  | [], children, currentPath, _, hs, hb => by
    rw [printTree.addPath]; exact ⟨hs, hb⟩
  | part :: rest, children, currentPath, hp, hs, hb => by
    have hpart : '/' ∉ part := hp part (by simp)
    have hrest : ∀ p ∈ rest, '/' ∉ p := fun p h => hp p (by simp [h])
    rw [printTree.addPath]
    cases hg : assocGet children part with
    | none =>
      simp only
      have ih := printTree.addPath_Built rest [] (currentPath ++ "/".toList ++ part) hrest
        (by simp) (by simp [printTree.BuiltChildren])
      refine ⟨assocSet_sorted _ _ _ hs, ?_⟩
      rw [printTree.BuiltChildren_iff] at hb ⊢
      intro kc hkc
      rcases assocSet_mem _ _ _ _ hkc with e | hm
      · rw [e]
        refine ⟨rfl, hpart, ?_⟩
        rw [printTree.node.Built]
        exact ih
      · exact hb kc hm
    | some c =>
      obtain ⟨name, fullPath, ch⟩ := c
      simp only
      rw [printTree.BuiltChildren_iff] at hb
      have hc := hb _ (assocGet_mem _ _ _ hg)
      simp only [printTree.node.name] at hc
      have hcb := hc.2.2
      rw [printTree.node.Built] at hcb
      have ih := printTree.addPath_Built rest ch (currentPath ++ "/".toList ++ part) hrest
        hcb.1 hcb.2
      refine ⟨assocSet_sorted _ _ _ hs, ?_⟩
      rw [printTree.BuiltChildren_iff]
      intro kc hkc
      rcases assocSet_mem _ _ _ _ hkc with e | hm
      · rw [e]
        refine ⟨hc.1, hpart, ?_⟩
        rw [printTree.node.Built]
        exact ih
      · exact hb kc hm

/-- The tree `printTree` builds has distinct keys at every node, and every
child is stored under its own name, which contains no `/`. -/
theorem printTree.build_Built (paths : List Str) (rootPrefix : Str) :
    printTree.node.Built (printTree.build paths rootPrefix) := by
  unfold printTree.build
  rw [printTree.node.Built]
  suffices h : ∀ (ps : List Str) (children : List (Str × printTree.node)),
      (children.map Prod.fst).Pairwise (fun a b => strings.Less a b = true) →
      printTree.BuiltChildren children →
      ((ps.foldl (fun children path =>
          printTree.addPath children (strings.TrimSuffix rootPrefix "/".toList)
            (strings.Split '/' path)) children).map Prod.fst).Pairwise
          (fun a b => strings.Less a b = true) ∧
        printTree.BuiltChildren (ps.foldl (fun children path =>
          printTree.addPath children (strings.TrimSuffix rootPrefix "/".toList)
            (strings.Split '/' path)) children) from
    h paths [] (by simp) (by simp [printTree.BuiltChildren])
  intro ps
  induction ps with
  | nil => intro children hs hb; exact ⟨hs, hb⟩
  | cons p ps ih =>
    intro children hs hb
    rw [List.foldl_cons]
    have := printTree.addPath_Built (strings.Split '/' p) children
      (strings.TrimSuffix rootPrefix "/".toList) (strings.Split_no_sep '/' p) hs hb
    exact ih _ this.1 this.2

/-! ## Connectors -/

theorem assocGet_of_key : ∀ (m : List (Str × printTree.node)) (k : Str),
    k ∈ m.map Prod.fst → ∃ c, assocGet m k = some c
  | [], _, h => by simp at h
  | (k', v) :: rest, k, h => by
    rw [assocGet]
    by_cases hk : k = k'
    · exact ⟨v, by simp [hk]⟩
    · simp only [hk, if_false]
      refine assocGet_of_key rest k ?_
      simp only [List.map_cons, List.mem_cons] at h
      rcases h with e | h
      · exact absurd e hk
      · exact h

/-- In `printTree` the connector of a line is chosen by the node the line is
for: a child of a built tree handed the flag `last` starts its output with its
own line, carrying the corner connector when `last` is set and the branch
connector otherwise. -/
theorem printTree.walkChild_line (C : ColorLib) (values : List (Str × treeParam)) (sv : Bool)
    (children : List (Str × printTree.node)) (hb : printTree.BuiltChildren children)
    (k : Str) (hk : k ∈ children.map Prod.fst) (pfx : Str) (last : Bool) :
    ∃ text below, printTree.walkChild C values sv children k pfx last
      = (pfx ++ (if last then "└── ".toList else "├── ".toList) ++ text) :: below := by
  obtain ⟨c, hc⟩ := assocGet_of_key children k hk
  rw [printTree.BuiltChildren_iff] at hb
  have h := hb _ (assocGet_mem _ _ _ hc)
  obtain ⟨name, fullPath, ch⟩ := c
  simp only [printTree.node.name] at h
  have hname : name ≠ "/".toList := by
    intro e
    apply h.2.1
    rw [← h.1, e]
    decide
  rw [printTree.walkChild, hc]
  simp only
  rw [printTree.walk_node, if_pos hname]
  simp only [List.append_assoc, List.singleton_append]
  exact ⟨_, _, rfl⟩

/-- The output of `printYAMLTree` on a mapping: the header, then one pass of
the loop body for each key, every pass with the corner connector. -/
theorem printYAMLTree_map (L : GoLib) (C : ColorLib) (sv : Bool) (v : List (Str × Node)) :
    printYAMLTree L C sv (Node.map v)
      = (C.Sprint [color.Attribute.FgHiCyan, color.Attribute.Bold] "root".toList ++ "\n".toList) ::
        (sort.SliceStable keyLess (v.map Prod.fst)).enum.flatMap (fun ik =>
          printYAMLTree.keyBody L C sv v
            (fun k => printYAMLTree.walk L C sv ((mapGet v k).getD Node.null))
            [] "└── ".toList []
            (sort.SliceStable keyLess (v.map Prod.fst)).length ik.1 ik.2) := by
  rw [printYAMLTree, printYAMLTree.walk_map]
  rfl


/-! ## The keys at the root of the tree `flattenToNestedMap` builds -/

theorem mapSet_keys (m : List (Str × Node)) (k : Str) (v : Node) (x : Str) :
    x ∈ (mapSet m k v).map Prod.fst ↔ x = k ∨ x ∈ m.map Prod.fst := by
  by_cases hx : x = k
  · subst hx
    simp only [true_or, iff_true]
    by_contra hc
    have := (mapGet_none_iff _ _).2 hc
    rw [mapGet_mapSet_self] at this
    exact absurd this (by simp)
  · simp only [hx, false_or]
    have h1 := mapGet_none_iff (mapSet m k v) x
    have h2 := mapGet_none_iff m x
    rw [mapGet_mapSet_ne m k x v hx] at h1
    constructor
    · intro h
      by_contra hc
      exact (h1.1 (h2.2 hc)) h
    · intro h
      by_contra hc
      exact (h2.1 (h1.2 hc)) h

theorem insertIntoTree_keys (t t' : List (Str × Node)) (k : Str) (rest : List Str) (w : Node)
    (h : insertIntoTree t (k :: rest) w = some t') (x : Str) :
    x ∈ t'.map Prod.fst ↔ x = k ∨ x ∈ t.map Prod.fst := by
  cases rest with
  | nil =>
    rw [insertIntoTree_single] at h
    cases h
    exact mapSet_keys t k w x
  | cons k2 more =>
    obtain ⟨c, c', _, _, ht⟩ := insertIntoTree_cons₂_inv t t' k k2 more w h
    rw [ht]
    exact mapSet_keys t k (Node.map c') x

theorem insertAll_keys (L : GoLib) (flat : List (Str × Str)) (pfx : Str) :
    ∀ (keys : List Str) (t t' : List (Str × Node)), insertAll L flat pfx t keys = some t' →
    ∀ x, x ∈ t'.map Prod.fst ↔
      x ∈ t.map Prod.fst ∨ ∃ key ∈ keys, (toSegments key pfx).head? = some x
  | [], t, t', h, x => by
    rw [insertAll] at h
    cases h
    simp
  | key :: rest, t, t', h, x => by
    rw [insertAll_cons] at h
    cases h1 : insertIntoTree t (toSegments key pfx) (parseTypedValue L (flatGet flat key)) with
    | none => rw [h1] at h; simp at h
    | some t1 =>
      rw [h1] at h
      simp only [Option.some_bind] at h
      rw [insertAll_keys L flat pfx rest t1 t' h x]
      cases hs : toSegments key pfx with
      | nil => exact absurd hs (toSegments_ne_nil key pfx)
      | cons s more =>
        rw [hs] at h1
        rw [insertIntoTree_keys t t1 s more _ h1 x]
        simp only [List.mem_cons, exists_eq_or_imp, hs, List.head?_cons, Option.some.injEq]
        constructor
        · rintro ((e | h) | h)
          · exact Or.inr (Or.inl e.symm)
          · exact Or.inl h
          · exact Or.inr (Or.inr h)
        · rintro (h | e | h)
          · exact Or.inl (Or.inr h)
          · exact Or.inl (Or.inl e.symm)
          · exact Or.inr h

/-- The keys at the root of the tree are the first segments of the
parameters. -/
theorem flattenToNestedMap_raw_keys (L : GoLib) (flat : List (Str × Str)) (pfx : Str)
    (tree : List (Str × Node)) (h : flattenToNestedMap L true flat pfx = some tree) (x : Str) :
    x ∈ tree.map Prod.fst ↔ ∃ kv ∈ flat, (toSegments kv.1 pfx).head? = some x := by
  unfold flattenToNestedMap at h
  simp only at h
  cases hi : insertAll L flat pfx [] (sort.SliceStable keyLess (flat.map Prod.fst)) with
  | none => rw [hi] at h; simp at h
  | some t =>
    rw [hi] at h
    simp only [if_true, Option.some.injEq] at h
    subst h
    rw [insertAll_keys L flat pfx _ [] t hi x]
    simp only [List.map_nil, List.not_mem_nil, false_or]
    constructor
    · rintro ⟨key, hk, hs⟩
      have := (sort.SliceStable_perm keyLess (flat.map Prod.fst)).mem_iff.1 hk
      obtain ⟨kv, hkv, e⟩ := List.mem_map.1 this
      exact ⟨kv, hkv, by rw [e]; exact hs⟩
    · rintro ⟨kv, hkv, hs⟩
      exact ⟨kv.1, (sort.SliceStable_perm keyLess (flat.map Prod.fst)).mem_iff.2
        (List.mem_map.2 ⟨kv, hkv, rfl⟩), hs⟩

/-- The tree built from the parameters is a mapping of integers at the root
exactly when there is a parameter and the first segment of every parameter is
accepted by `strconv.Atoi`. -/
theorem flattenToNestedMap_raw_numeric (L : GoLib) (flat : List (Str × Str)) (pfx : Str)
    (tree : List (Str × Node)) (h : flattenToNestedMap L true flat pfx = some tree) :
    isNumericMap tree = true ↔
      flat ≠ [] ∧ ∀ kv ∈ flat, ∃ s, (toSegments kv.1 pfx).head? = some s ∧
        (strconv.Atoi s).isSome = true := by
  have hk := flattenToNestedMap_raw_keys L flat pfx tree h
  have hseg : ∀ kv : Str × Str, ∃ s, (toSegments kv.1 pfx).head? = some s := by
    intro kv
    cases hs : toSegments kv.1 pfx with
    | nil => exact absurd hs (toSegments_ne_nil _ _)
    | cons s more => exact ⟨s, rfl⟩
  constructor
  · intro hn
    have hall := isNumericMap_true_inv tree hn
    have hne : tree ≠ [] := by
      intro e
      rw [e] at hn
      simp [isNumericMap] at hn
    refine ⟨?_, ?_⟩
    · intro e
      cases htree : tree with
      | nil => exact hne htree
      | cons kv rest =>
        have := (hk kv.1).1 (by rw [htree]; simp)
        rw [e] at this
        simp at this
    · intro kv hkv
      obtain ⟨s, hs⟩ := hseg kv
      refine ⟨s, hs, ?_⟩
      have hmem := (hk s).2 ⟨kv, hkv, hs⟩
      obtain ⟨e, he, hes⟩ := List.mem_map.1 hmem
      obtain ⟨j, hj⟩ := hall e he
      rw [← hes, hj]
      rfl
  · rintro ⟨hne, hall⟩
    have htne : tree ≠ [] := by
      intro e
      cases hf : flat with
      | nil => exact hne hf
      | cons kv rest =>
        obtain ⟨s, hs⟩ := hseg kv
        have := (hk s).2 ⟨kv, by rw [hf]; simp, hs⟩
        rw [e] at this
        simp at this
    refine isNumericMap_true_of_keys tree htne ?_
    intro e he
    obtain ⟨kv, hkv, hs⟩ := (hk e.1).1 (List.mem_map.2 ⟨e, he, rfl⟩)
    obtain ⟨s, hs2, ha⟩ := hall kv hkv
    rw [hs] at hs2
    cases hs2
    exact ha

/-- When the tree is a mapping of integers at the root, the final type
assertion of `flattenToNestedMap` fails. -/
theorem flattenToNestedMap_numeric_root (L : GoLib) (flat : List (Str × Str)) (pfx : Str)
    (tree : List (Str × Node)) (h : flattenToNestedMap L true flat pfx = some tree)
    (hn : isNumericMap tree = true) : flattenToNestedMap L false flat pfx = none := by
  unfold flattenToNestedMap at h ⊢
  simp only at h ⊢
  cases hi : insertAll L flat pfx [] (sort.SliceStable keyLess (flat.map Prod.fst)) with
  | none => rfl
  | some t =>
    rw [hi] at h
    simp only [if_true, Option.some.injEq] at h
    subst h
    simp only [Bool.false_eq_true, if_false]
    rw [convertMapsToSlices, hn]
    simp only [if_true]
    cases convertTemp t with
    | none => rfl
    | some temp =>
      simp only
      by_cases hlen : wrapInt64 (maxIndex t (-1) + 1) < 0
      · rw [if_pos hlen]
      · rw [if_neg hlen]

/-- When some key at the root of the tree is not an integer, and the values
below the root are converted without a panic, `flattenToNestedMap` returns a
mapping with the keys of the tree. -/
theorem flattenToNestedMap_root_mapping (L : GoLib) (flat : List (Str × Str)) (pfx : Str)
    (tree : List (Str × Node)) (h : flattenToNestedMap L true flat pfx = some tree)
    (hn : isNumericMap tree = false)
    (hc : ∀ kv ∈ tree, (convertMapsToSlices kv.2).isSome = true) :
    ∃ m, flattenToNestedMap L false flat pfx = some m ∧ m.map Prod.fst = tree.map Prod.fst := by
  unfold flattenToNestedMap at h ⊢
  simp only at h ⊢
  cases hi : insertAll L flat pfx [] (sort.SliceStable keyLess (flat.map Prod.fst)) with
  | none => rw [hi] at h; simp at h
  | some t =>
    rw [hi] at h
    simp only [if_true, Option.some.injEq] at h
    subst h
    simp only [Bool.false_eq_true, if_false]
    obtain ⟨m', hm, hf⟩ := convertEntries_some t hc
    rw [convertMapsToSlices_map_not_numeric t hn, hm]
    exact ⟨m', rfl, Forall₂_keys_eq _ _ hf⟩

/-- A mapping of integers is never converted to a mapping. -/
theorem convertMapsToSlices_numeric_seq (m : List (Str × Node)) (hn : isNumericMap m = true)
    (r : Node) (h : convertMapsToSlices (Node.map m) = some r) : ∃ l, r = Node.seq l := by
  rw [convertMapsToSlices, hn] at h
  simp only [if_true] at h
  cases hc : convertTemp m with
  | none => rw [hc] at h; simp at h
  | some temp =>
    rw [hc] at h
    simp only at h
    by_cases hlen : wrapInt64 (maxIndex m (-1) + 1) < 0
    · rw [if_pos hlen] at h; simp at h
    · rw [if_neg hlen] at h
      simp only [Option.some.injEq] at h
      exact ⟨_, h.symm⟩

theorem printTree.Built_children (name fullPath : Str) (children : List (Str × printTree.node))
    (h : printTree.node.Built (printTree.node.mk name fullPath children)) :
    (children.map Prod.fst).Nodup ∧
      ∀ kc ∈ children, kc.2.name = kc.1 ∧ '/' ∉ kc.1 ∧ printTree.node.Built kc.2 := by
  rw [printTree.node.Built] at h
  exact ⟨strings.Less_sorted_nodup _ h.1, (printTree.BuiltChildren_iff children).1 h.2⟩

/-! ## The string order is the byte-wise order -/

theorem bytesLess_asymm : ∀ (a b : List Nat), bytesLess a b = true → bytesLess b a = false
  | [], [], h => by simp [bytesLess] at h
  | [], _ :: _, _ => by simp [bytesLess]
  | _ :: _, [], h => by simp [bytesLess] at h
  | a :: as, b :: bs, h => by
    rw [bytesLess] at h ⊢
    by_cases h1 : a < b
    · have h2 : ¬ b < a := by omega
      have h3 : ¬ b = a := by omega
      rw [if_neg h2, if_neg h3]
    · rw [if_neg h1] at h
      by_cases h2 : a = b
      · rw [if_pos h2] at h
        have h3 : ¬ b < a := by omega
        rw [if_neg h3, if_pos h2.symm]
        exact bytesLess_asymm as bs h
      · rw [if_neg h2] at h
        exact absurd h (by simp)

theorem bytesLess_append_left : ∀ (p a b : List Nat),
    bytesLess (p ++ a) (p ++ b) = bytesLess a b
  | [], _, _ => rfl
  | x :: p, a, b => by
    rw [List.cons_append, List.cons_append, bytesLess, if_neg (Nat.lt_irrefl x), if_pos rfl]
    exact bytesLess_append_left p a b

/-- The encoding of a character with the smaller code point comes first
byte-wise, whatever follows the two encodings. -/
theorem utf8.encodeRune_lt (c d : Char) (h : c.toNat < d.toNat) (A B : List Nat) :
    bytesLess (utf8.encodeRune c ++ A) (utf8.encodeRune d ++ B) = true := by
  unfold utf8.encodeRune
  generalize c.toNat = n at h
  generalize d.toNat = m at h
  simp only
  split_ifs <;>
    simp only [List.cons_append, List.nil_append, bytesLess] <;>
    split_ifs <;> first | rfl | omega

theorem utf8.encodeRune_ne_nil (c : Char) : ∃ x r, utf8.encodeRune c = x :: r := by
  unfold utf8.encodeRune
  simp only
  split_ifs <;> exact ⟨_, _, rfl⟩

/-- The order `strings.Less` on the characters of two strings is the byte-wise
lexicographic order of their UTF-8 encodings. -/
theorem strings.Less_eq_bytesLess : ∀ (a b : Str),
    strings.Less a b = bytesLess (bytesOf a) (bytesOf b)
  | [], [] => rfl
  | [], b :: bs => by
    obtain ⟨x, r, e⟩ := utf8.encodeRune_ne_nil b
    rw [strings.Less, bytesOf, bytesOf, e, List.cons_append, bytesLess]
  | a :: as, [] => by
    obtain ⟨x, r, e⟩ := utf8.encodeRune_ne_nil a
    rw [strings.Less, bytesOf, bytesOf, e, List.cons_append, bytesLess]
  | a :: as, b :: bs => by
    rw [strings.Less, bytesOf, bytesOf]
    by_cases h1 : a.toNat < b.toNat
    · rw [if_pos h1, utf8.encodeRune_lt a b h1]
    · rw [if_neg h1]
      by_cases h2 : a.toNat = b.toNat
      · rw [if_pos h2]
        have e : a = b := Char.toNat_inj' h2
        rw [e, bytesLess_append_left]
        exact strings.Less_eq_bytesLess as bs
      · rw [if_neg h2]
        have h3 : b.toNat < a.toNat := by omega
        exact (bytesLess_asymm _ _ (utf8.encodeRune_lt b a h3 (bytesOf bs) (bytesOf as))).symm

/-! ## The claims -/

/-- C1, as stated, fails on the scenario of the specification itself: the
document `{a: {b: 1, c: [true, "x"]}}` is stored under `/app` as `/app/a/b=1`,
`/app/a/c/0=true`, `/app/a/c/1=x` and rebuilds to `{a: {b: true, c: [true, "x"]}}`,
which is not structurally equal to it: the text `1` decodes as a boolean. -/
theorem flattenToNestedMap_roundtrip_counterexample :
    storeOf (loadConfig GoLib.ascii LoadFlags.default PutClient.ok exampleDoc "/app".toList
        LoadLog.empty).2
      = [("/app/a/b".toList, "1".toList), ("/app/a/c/0".toList, "true".toList),
         ("/app/a/c/1".toList, "x".toList)] ∧
    flattenToNestedMap GoLib.ascii false
        (storeOf (loadConfig GoLib.ascii LoadFlags.default PutClient.ok exampleDoc "/app".toList
          LoadLog.empty).2) "/app".toList
      = some [("a".toList, Node.map [("b".toList, Node.bool true),
                ("c".toList, Node.seq [Node.bool true, Node.str "x".toList])])] ∧
    ¬ SameDoc
        (Node.map [("a".toList, Node.map [("b".toList, Node.bool true),
          ("c".toList, Node.seq [Node.bool true, Node.str "x".toList])])])
        exampleDoc := by
  refine ⟨by decide, by rfl, ?_⟩
  intro h
  cases h with
  | map hp hs =>
    have h1 := List.singleton_perm.1 hp
    subst h1
    cases hs with
    | cons hd _ =>
      cases hd with
      | map hp2 hs2 =>
        cases hs2 with
        | cons hb hrest =>
          rename_i vb mrest
          have hmem : ("b".toList, vb) ∈
              [("b".toList, Node.bool true),
               ("c".toList, Node.seq [Node.bool true, Node.str "x".toList])] :=
            hp2.mem_iff.2 (by simp)
          simp only [List.mem_cons, Prod.mk.injEq, List.mem_singleton, List.not_mem_nil,
            or_false] at hmem
          rcases hmem with ⟨_, rfl⟩ | ⟨hk, _⟩
          · cases hb
          · exact absurd hk (by decide)

/-- What does not survive the round trip, by example, under the prefix `/app`:
a string that reads as a boolean comes back as a boolean; a mapping whose keys
are all integers comes back as a sequence; a key containing `/` comes back as
nested mappings; a null comes back as the string `<nil>`; and a document whose
top-level keys are all integers fails the final type assertion. -/
theorem flattenToNestedMap_roundtrip_limits :
    flattenToNestedMap GoLib.ascii false
        (storedUnderApp (Node.map [("a".toList, Node.str "true".toList)])) "/app".toList
      = some [("a".toList, Node.bool true)] ∧
    flattenToNestedMap GoLib.ascii false
        (storedUnderApp (Node.map [("a".toList, Node.map [("0".toList, Node.str "x".toList)])]))
        "/app".toList
      = some [("a".toList, Node.seq [Node.str "x".toList])] ∧
    flattenToNestedMap GoLib.ascii false
        (storedUnderApp (Node.map [("a/b".toList, Node.str "x".toList)])) "/app".toList
      = some [("a".toList, Node.map [("b".toList, Node.str "x".toList)])] ∧
    flattenToNestedMap GoLib.ascii false
        (storedUnderApp (Node.map [("a".toList, Node.null)])) "/app".toList
      = some [("a".toList, Node.str "<nil>".toList)] ∧
    flattenToNestedMap GoLib.ascii false
        (storedUnderApp (Node.map [("0".toList, Node.str "x".toList)])) "/app".toList
      = none :=
  ⟨by rfl, by rfl, by rfl, by rfl, by rfl⟩

/-- C1, amended: for every prefix and every document that is a mapping in which
every leaf is a scalar that `parseTypedValue` recovers from its `%v` text (every
boolean, every 64-bit integer other than 0 and 1, every string it leaves
alone), every mapping is non-empty with distinct non-empty keys that contain no
`/` and are not all accepted by `strconv.Atoi`, and every sequence is
non-empty, writing each leaf the way `loadConfig` does and rebuilding with
`flattenToNestedMap` under the same prefix with array coercion enabled, from the
stored parameters in any order, completes and yields a document structurally
equal to the original. -/
theorem flattenToNestedMap_roundtrip (L : GoLib) (fl : LoadFlags) (m : List (Str × Node))
    (pfx : Str) (h : RoundTrips L (Node.map m)) (flat : List (Str × Str))
    (hflat : List.Perm flat
      (storeOf (loadConfig L fl PutClient.ok (Node.map m) pfx LoadLog.empty).2)) :
    ∃ tree, flattenToNestedMap L false flat pfx = some tree ∧
      SameDoc (Node.map tree) (Node.map m) := by
  refine ⟨canonEntries m [], flattenToNestedMap_loadConfig L fl PutClient.ok m pfx h flat hflat, ?_⟩
  have := SameDoc_canon L (Node.map m) h
  rw [canon] at this
  exact this

/-- C1, amended, at the document `{a: {b: 2, c: [true, "x"]}}` under `/app`, with
the stored parameters in the order `loadConfig` wrote them. -/
theorem flattenToNestedMap_roundtrip_witness :
    RoundTrips GoLib.ascii (Node.map exampleDoc2) ∧
    ∃ tree, flattenToNestedMap GoLib.ascii false
        (storeOf (loadConfig GoLib.ascii LoadFlags.default PutClient.ok (Node.map exampleDoc2)
          "/app".toList LoadLog.empty).2) "/app".toList = some tree ∧
      SameDoc (Node.map tree) (Node.map exampleDoc2) :=
  have h : RoundTrips GoLib.ascii (Node.map exampleDoc2) := by
    simp only [exampleDoc2, RoundTrips, RoundTripsEntries, RoundTripsList]
    refine ⟨List.cons_ne_nil _ _, by decide, by decide, by decide, by decide,
      ⟨List.cons_ne_nil _ _, by decide, by decide, by decide, by decide, rfl, by decide,
        by decide, ⟨List.cons_ne_nil _ _, by decide, rfl, rfl, trivial⟩, trivial⟩, trivial⟩
  ⟨h, flattenToNestedMap_roundtrip GoLib.ascii LoadFlags.default exampleDoc2 "/app".toList h
    _ (List.Perm.refl _)⟩

/-- C2, as stated, fails: the integer 1 is written as the text `1`, which
`parseTypedValue` decodes as the boolean `true` because `strconv.ParseBool` is
tried first and accepts `1`. -/
theorem parseTypedValue_one_is_true :
    parseTypedValue GoLib.ascii (fmt.Sprint GoLib.ascii (Node.int 1)) = Node.bool true ∧
    Node.bool true ≠ Node.int 1 :=
  ⟨rfl, by simp⟩

/-- C2, amended: for every boolean `b`, and for every signed 64-bit integer `i`
other than 0 and 1, `parseTypedValue` applied to the `%v` text of the value
returns the value with its type. -/
theorem parseTypedValue_Sprint (L : GoLib) :
    (∀ b : Bool, parseTypedValue L (fmt.Sprint L (Node.bool b)) = Node.bool b) ∧
    (∀ i : Int, -2 ^ 63 ≤ i → i < 2 ^ 63 → i ≠ 0 → i ≠ 1 →
      parseTypedValue L (fmt.Sprint L (Node.int i)) = Node.int i) := by
  constructor
  · intro b
    cases b <;> rfl
  · intro i hlo hhi h0 h1
    simp only [parseTypedValue, fmt.Sprint, fmt.formatInt_TrimSpace,
      strconv.ParseBool_formatInt i hlo hhi h0 h1, strconv.ParseInt_formatInt i hlo hhi]

/-- C2, amended, at the integer -42. -/
theorem parseTypedValue_Sprint_witness :
    (-2 ^ 63 ≤ (-42 : Int) ∧ (-42 : Int) < 2 ^ 63 ∧ (-42 : Int) ≠ 0 ∧ (-42 : Int) ≠ 1) ∧
    parseTypedValue GoLib.ascii (fmt.Sprint GoLib.ascii (Node.int (-42))) = Node.int (-42) :=
  ⟨by decide,
   (parseTypedValue_Sprint GoLib.ascii).2 (-42) (by decide) (by decide) (by decide) (by decide)⟩

/-- C3, as stated, fails: the mapping with the single key
`99999999999999999999`, a non-negative base-10 integer with no extra
characters, stays a mapping, because the key does not fit the `int` that
`strconv.Atoi` returns. -/
theorem convertMapsToSlices_large_key_stays_map :
    isDecimal "99999999999999999999".toList = true ∧
    convertMapsToSlices (Node.map [("99999999999999999999".toList, Node.str "a".toList)])
      = some (Node.map [("99999999999999999999".toList, Node.str "a".toList)]) :=
  ⟨by decide, by rfl⟩

/-- C3, amended: let `m` be a mapping node whose values are converted without a
panic.  If `m` is non-empty and every key is a non-empty string of decimal
digits whose value is below `2^63 - 1`, `convertMapsToSlices` replaces `m` by a
sequence.  If `m` is empty, or some key is not an optional sign followed by
decimal digits, or is a string of decimal digits whose value is `2^63` or
more, `m` stays a mapping with the same keys. -/
theorem convertMapsToSlices_map_or_seq (m : List (Str × Node))
    (hch : ∀ kv ∈ m, (convertMapsToSlices kv.2).isSome = true) :
    ((m ≠ [] ∧ ∀ kv ∈ m, isDecimal kv.1 = true ∧ decimalValue kv.1 < 2 ^ 63 - 1) →
      ∃ l, convertMapsToSlices (Node.map m) = some (Node.seq l)) ∧
    ((m = [] ∨ ∃ kv ∈ m, isSignedDecimal kv.1 = false ∨
        (isDecimal kv.1 = true ∧ 2 ^ 63 ≤ decimalValue kv.1)) →
      ∃ m', convertMapsToSlices (Node.map m) = some (Node.map m') ∧
        m'.map Prod.fst = m.map Prod.fst) := by
  constructor
  · rintro ⟨hne, hkeys⟩
    have hatoi : ∀ kv ∈ m, strconv.Atoi kv.1 = some (decimalValue kv.1 : Int) := by
      intro kv hkv
      obtain ⟨hd, hv⟩ := hkeys kv hkv
      have : decimalValue kv.1 < 2 ^ 63 := by omega
      rw [strconv.Atoi, strconv.ParseInt_of_decimal _ hd, if_pos this]
    have hnum : isNumericMap m = true :=
      isNumericMap_true_of_keys m hne (fun kv hkv => by rw [hatoi kv hkv]; rfl)
    obtain ⟨temp, htemp, _⟩ := convertTemp_some m hch
    have hmax : maxIndex m (-1) ≤ 2 ^ 63 - 2 := by
      rw [maxIndex_le_iff]
      refine ⟨by norm_num, ?_⟩
      intro kv hkv
      have := (hkeys kv hkv).2
      rw [hatoi kv hkv]
      simp only [Option.getD_some]
      omega
    exact ⟨_, convertMapsToSlices_map_numeric m temp hnum htemp (by omega)⟩
  · intro h
    have hnum : isNumericMap m = false := by
      rcases h with rfl | ⟨kv, hkv, hbad⟩
      · rfl
      · apply isNumericMap_false_of_key m kv hkv
        rcases hbad with hs | ⟨hd, hv⟩
        · exact strconv.ParseInt_of_not_signed _ hs
        · rw [strconv.Atoi, strconv.ParseInt_of_decimal _ hd, if_neg (by omega)]
    obtain ⟨m', hm', hf⟩ := convertEntries_some m hch
    refine ⟨m', ?_, Forall₂_keys_eq m m' hf⟩
    rw [convertMapsToSlices_map_not_numeric m hnum, hm']
    rfl

/-- C3, amended, at the mapping with keys `0` and `2`, which becomes a
sequence, and at the mapping with the key `x1`, which stays a mapping. -/
theorem convertMapsToSlices_map_or_seq_witness :
    (((∀ kv ∈ [("0".toList, Node.str "a".toList), ("2".toList, Node.str "c".toList)],
        (convertMapsToSlices kv.2).isSome = true) ∧
      ([("0".toList, Node.str "a".toList), ("2".toList, Node.str "c".toList)] ≠ [] ∧
        ∀ kv ∈ [("0".toList, Node.str "a".toList), ("2".toList, Node.str "c".toList)],
          isDecimal kv.1 = true ∧ decimalValue kv.1 < 2 ^ 63 - 1)) ∧
      ∃ l, convertMapsToSlices
          (Node.map [("0".toList, Node.str "a".toList), ("2".toList, Node.str "c".toList)])
        = some (Node.seq l)) ∧
    (((∀ kv ∈ [("x1".toList, Node.int 7)], (convertMapsToSlices kv.2).isSome = true) ∧
      ([("x1".toList, Node.int 7)] = [] ∨ ∃ kv ∈ [("x1".toList, Node.int 7)],
        isSignedDecimal kv.1 = false ∨ (isDecimal kv.1 = true ∧ 2 ^ 63 ≤ decimalValue kv.1))) ∧
      ∃ m', convertMapsToSlices (Node.map [("x1".toList, Node.int 7)]) = some (Node.map m') ∧
        m'.map Prod.fst = [("x1".toList, Node.int 7)].map Prod.fst) :=
  ⟨⟨⟨by simp [convertMapsToSlices], by simp, by decide⟩,
    (convertMapsToSlices_map_or_seq _ (by simp [convertMapsToSlices])).1
      ⟨by simp, by decide⟩⟩,
   ⟨⟨by simp [convertMapsToSlices], Or.inr ⟨_, List.mem_singleton.2 rfl, Or.inl (by decide)⟩⟩,
    (convertMapsToSlices_map_or_seq _ (by simp [convertMapsToSlices])).2
      (Or.inr ⟨_, List.mem_singleton.2 rfl, Or.inl (by decide)⟩)⟩⟩

/-- C4 fails on the code: the mapping `{"-5": "a"}` is turned into the empty
sequence.  Its length is 0, not the largest parsed key plus one, and the value
of the key is dropped. -/
theorem convertMapsToSlices_negative_key :
    strconv.Atoi "-5".toList = some (-5) ∧
    convertMapsToSlices (Node.map [("-5".toList, Node.str "a".toList)]) = some (Node.seq []) :=
  ⟨by decide, by rfl⟩

/-- C5, as stated, fails.  The parameters `/app/a` and `/app//a` have distinct
paths under the prefix `/app` and the same segment list: the second overwrites
the first, whose value is no longer reachable.  The parameters `/app/a` and
`/app/a/b` have distinct paths under `/app`, and `flattenToNestedMap` panics on
them: `/app/a` is inserted first as a scalar, and the type assertion of
`insertIntoTree` fails on it when `/app/a/b` is inserted. -/
theorem flattenToNestedMap_raw_panics :
    ("/app/a".toList ≠ "/app//a".toList ∧
      ("/app".toList).isPrefixOf "/app/a".toList = true ∧
      ("/app".toList).isPrefixOf "/app//a".toList = true ∧
      flattenToNestedMap GoLib.ascii true
        [("/app/a".toList, "x".toList), ("/app//a".toList, "y".toList)] "/app".toList
          = some [("a".toList, Node.str "y".toList)] ∧
      descend (Node.map [("a".toList, Node.str "y".toList)])
          (toSegments "/app/a".toList "/app".toList) = some (Node.str "y".toList) ∧
      parseTypedValue GoLib.ascii "x".toList = Node.str "x".toList) ∧
    ("/app/a".toList ≠ "/app/a/b".toList ∧
      ("/app".toList).isPrefixOf "/app/a".toList = true ∧
      ("/app".toList).isPrefixOf "/app/a/b".toList = true ∧
      flattenToNestedMap GoLib.ascii true
        [("/app/a".toList, "x".toList), ("/app/a/b".toList, "y".toList)] "/app".toList
          = none) :=
  ⟨⟨by decide, by decide, by decide, by rfl, by rfl, by rfl⟩,
   ⟨by decide, by decide, by decide, by rfl⟩⟩

/-- C5, amended: for every set of parameters and prefix such that no segment
list of a parameter is a prefix of (or equal to) the segment list of another,
`flattenToNestedMap` in raw mode completes and returns a tree in which every
parameter is reachable: descending from the root by the segment list of the
parameter passes only through mapping nodes and ends at `parseTypedValue` of
its stored value. -/
theorem flattenToNestedMap_raw_reachable (L : GoLib) (flat : List (Str × Str)) (pfx : Str)
    (hsep : (flat.map (fun kv => toSegments kv.1 pfx)).Pairwise Separate) :
    ∃ tree, flattenToNestedMap L true flat pfx = some tree ∧
      ∀ kv ∈ flat, descend (Node.map tree) (toSegments kv.1 pfx)
        = some (parseTypedValue L kv.2) := by
  have hkeys : (flat.map Prod.fst).Pairwise
      (fun a b => Separate (toSegments a pfx) (toSegments b pfx)) := by
    rw [List.pairwise_map] at hsep ⊢
    exact hsep
  have hnd : (flat.map Prod.fst).Nodup :=
    hkeys.imp (fun h e => h.ne (by rw [e]))
  have hperm := sort.SliceStable_perm keyLess (flat.map Prod.fst)
  have hsorted : (sort.SliceStable keyLess (flat.map Prod.fst)).Pairwise
      (fun a b => Separate (toSegments a pfx) (toSegments b pfx)) :=
    (hperm.pairwise_iff (fun h => h.symm)).2 hkeys
  obtain ⟨t', ht', _, h3⟩ := insertAll_reach L flat pfx _ [] []
    (by
      intro p x hx hnm
      cases p with
      | nil => simp [descend] at hx; exact absurd hx.symm (hnm [])
      | cons a as => simp [descend_nil_map] at hx)
    hsorted (by simp)
  refine ⟨t', by simp [flattenToNestedMap, ht'], ?_⟩
  intro kv hkv
  have hmem : kv.1 ∈ sort.SliceStable keyLess (flat.map Prod.fst) :=
    hperm.mem_iff.2 (List.mem_map.2 ⟨kv, hkv, rfl⟩)
  rw [h3 kv.1 hmem, flatGet_of_mem flat hnd kv hkv]

/-- C5, amended, at the parameters `/app/a/b = 1` and `/app/c = x`. -/
theorem flattenToNestedMap_raw_reachable_witness :
    (([("/app/a/b".toList, "1".toList), ("/app/c".toList, "x".toList)].map
        (fun kv => toSegments kv.1 "/app".toList)).Pairwise Separate) ∧
    ∃ tree, flattenToNestedMap GoLib.ascii true
        [("/app/a/b".toList, "1".toList), ("/app/c".toList, "x".toList)] "/app".toList
          = some tree ∧
      ∀ kv ∈ [("/app/a/b".toList, "1".toList), ("/app/c".toList, "x".toList)],
        descend (Node.map tree) (toSegments kv.1 "/app".toList)
          = some (parseTypedValue GoLib.ascii kv.2) :=
  have h : ([("/app/a/b".toList, "1".toList), ("/app/c".toList, "x".toList)].map
      (fun kv => toSegments kv.1 "/app".toList)).Pairwise Separate := by
    have e : [("/app/a/b".toList, "1".toList), ("/app/c".toList, "x".toList)].map
        (fun kv => toSegments kv.1 "/app".toList) = [["a".toList, "b".toList], ["c".toList]] := by
      decide
    rw [e]
    simp [Separate]
  ⟨h, flattenToNestedMap_raw_reachable GoLib.ascii _ "/app".toList h⟩

/-- C6: for every document and prefix, `flattenYAMLKeys` returns, in traversal
order, exactly one path per scalar-or-null leaf: the prefix with one trailing
slash removed followed by the `/`-separated keys and decimal indices of the
route to that leaf.  The routes listed are exactly the routes that reach a
scalar or null node, each once when the keys of every mapping are distinct.
Empty mappings and empty sequences have no leaf, and the document
`{a: {b: 1, c: [true, "x"]}}` under `/app` gives `/app/a/b`, `/app/a/c/0`,
`/app/a/c/1`. -/
theorem flattenYAMLKeys_leaf_paths :
    (∀ (d : Node) (pfx : Str), flattenYAMLKeys d pfx = (leafRoutes d).map (routePath pfx)) ∧
    (∀ (d : Node) (r : List Step),
      r ∈ leafRoutes d ↔ ∃ v, Reaches d r v ∧ v.isLeaf = true) ∧
    (∀ d : Node, DistinctKeys d → (leafRoutes d).Nodup) ∧
    leafRoutes (Node.map []) = [] ∧ leafRoutes (Node.seq []) = [] ∧
    flattenYAMLKeys exampleDoc "/app".toList
      = ["/app/a/b".toList, "/app/a/c/0".toList, "/app/a/c/1".toList] := by
  refine ⟨?_, ?_, fun d hd => leafEntries_nodup d hd, rfl, rfl, by decide⟩
  · intro d pfx
    simp [flattenYAMLKeys, flattenYAMLKeys.walk_eq, leafRoutes, routePath, Function.comp_def]
  · intro d r
    constructor
    · intro h
      obtain ⟨e, he, rfl⟩ := List.mem_map.1 h
      exact ⟨e.2, leafEntries_reaches d e he⟩
    · rintro ⟨v, hr, hv⟩
      exact List.mem_map.2 ⟨(r, v), leafEntries_of_reaches hr hv, rfl⟩

/-- C6, at the document `{a: {b: 1, c: [true, "x"]}}`, whose mappings have
distinct keys. -/
theorem flattenYAMLKeys_leaf_paths_witness :
    DistinctKeys exampleDoc ∧ (leafRoutes exampleDoc).Nodup :=
  have h : DistinctKeys exampleDoc := by
    simp only [exampleDoc, DistinctKeys, DistinctKeysEntries, DistinctKeysList]
    refine ⟨by decide, ⟨by decide, trivial, ⟨trivial, trivial, trivial⟩, trivial⟩, trivial⟩
  ⟨h, flattenYAMLKeys_leaf_paths.2.2.1 exampleDoc h⟩

/-- C7, as stated, fails: `/application/x` starts with the prefix `/app`, its
segments are `lication` and `x`, and joining them onto `/app` gives
`/app/lication/x`; and the path `/app` itself, under the prefix `/app`, has the
single empty segment and joins to `/app/`. -/
theorem joinPath_toSegments_counterexample :
    ("/app".toList).isPrefixOf "/application/x".toList = true ∧
    joinPath (toSegments "/application/x".toList "/app".toList) "/app".toList
      = "/app/lication/x".toList ∧
    joinPath (toSegments "/app".toList "/app".toList) "/app".toList = "/app/".toList :=
  ⟨by decide, by decide, by decide⟩

/-- C7, amended: for every prefix `pre` and every path `p` made of `pre` without
its trailing slash, then `/`, then a remainder `r` that neither starts nor ends
with `/`, joining the segments of `p` back onto `pre` gives `p`.  The join is
the one of the code: `flattenYAMLKeys` returns `p` for the mappings nested along
the segments, and, when no segment is empty, `loadConfig` writes to `p`. -/
theorem joinPath_toSegments (pre r : Str) (hhd : r.head? ≠ some '/')
    (hlast : r.getLast? ≠ some '/') :
    joinPath (toSegments (strings.TrimSuffix pre "/".toList ++ '/' :: r) pre) pre
      = strings.TrimSuffix pre "/".toList ++ '/' :: r ∧
    flattenYAMLKeys
        (chainDoc (toSegments (strings.TrimSuffix pre "/".toList ++ '/' :: r) pre) Node.null) pre
      = [strings.TrimSuffix pre "/".toList ++ '/' :: r] ∧
    ((∀ s ∈ toSegments (strings.TrimSuffix pre "/".toList ++ '/' :: r) pre, s ≠ []) →
      ∀ (L : GoLib) (fl : LoadFlags) (client : PutClient),
        (loadConfig L fl client
            (chainDoc (toSegments (strings.TrimSuffix pre "/".toList ++ '/' :: r) pre) Node.null)
            pre LoadLog.empty).2.puts.map PutParameterInput.Name
          = [strings.TrimSuffix pre "/".toList ++ '/' :: r]) := by
  have hseg := toSegments_of_rest pre r hhd hlast
  have hjoin : joinPath (strings.Split '/' r) pre
      = strings.TrimSuffix pre "/".toList ++ '/' :: r := by
    simp [joinPath, slashJoin_Split]
  rw [hseg]
  refine ⟨hjoin, ?_, ?_⟩
  · rw [flattenYAMLKeys_chainDoc, hjoin]
  · intro hne L fl client
    rw [(loadConfig_eq L fl client _ pre LoadLog.empty).2,
      leafEntries_chainDoc Node.null rfl]
    have hp := loadPath_chain (strings.Split '/' r) pre (strings.Split_ne_nil _ _)
      (fun s h => ⟨hne s h, strings.Split_no_sep '/' r s h⟩)
    simp [LoadLog.empty, putInputOf, hp, hjoin]

/-- C7, amended, at the prefix `/app/` and the path `/app/a/b`. -/
theorem joinPath_toSegments_witness :
    ((("a/b".toList).head? ≠ some '/' ∧ ("a/b".toList).getLast? ≠ some '/') ∧
      joinPath (toSegments "/app/a/b".toList "/app/".toList) "/app/".toList
        = "/app/a/b".toList) ∧
    ((∀ s ∈ toSegments "/app/a/b".toList "/app/".toList, s ≠ []) ∧
      (loadConfig GoLib.ascii LoadFlags.default PutClient.ok
          (chainDoc (toSegments "/app/a/b".toList "/app/".toList) Node.null)
          "/app/".toList LoadLog.empty).2.puts.map PutParameterInput.Name
        = ["/app/a/b".toList]) :=
  ⟨⟨by decide, (joinPath_toSegments "/app/".toList "a/b".toList (by decide) (by decide)).1⟩,
   ⟨by decide,
    (joinPath_toSegments "/app/".toList "a/b".toList (by decide) (by decide)).2.2 (by decide)
      GoLib.ascii LoadFlags.default PutClient.ok⟩⟩

/-- C8 fails on the code: for the document `{"a/": {b: 1}}` under `/app`,
`loadConfig` writes `/app/a/b` (it strips the trailing slash of the parent path
at every level) while `flattenYAMLKeys` returns `/app/a//b`. -/
theorem loadConfig_flattenYAMLKeys_differ :
    ((loadConfig GoLib.ascii LoadFlags.default PutClient.ok
        (Node.map [("a/".toList, Node.map [("b".toList, Node.int 1)])])
        "/app".toList LoadLog.empty).2.puts.map PutParameterInput.Name
      = ["/app/a/b".toList]) ∧
    flattenYAMLKeys (Node.map [("a/".toList, Node.map [("b".toList, Node.int 1)])])
        "/app".toList
      = ["/app/a//b".toList] :=
  ⟨by decide, by decide⟩

/-- C9: `isSensitiveKey` is true exactly when one of the keywords password,
secret, token, key, apikey, auth, private is a substring of the lowercased
path; the copy inside `printYAMLTree` returns the same answer; and
`/app/db/password` is sensitive while `/app/db/host` is not. -/
theorem isSensitiveKey_spec :
    (∀ (L : GoLib) (key : Str),
      (isSensitiveKey L key = true ↔
        ∃ w ∈ ["password", "secret", "token", "key", "apikey", "auth", "private"].map
            String.toList, w <:+: L.ToLower key) ∧
      printYAMLTree.isSensitiveKey L key = isSensitiveKey L key) ∧
    isSensitiveKey GoLib.ascii "/app/db/password".toList = true ∧
    isSensitiveKey GoLib.ascii "/app/db/host".toList = false :=
  ⟨fun L key => ⟨isSensitiveKey_iff L key, rfl⟩, by decide, by decide⟩

/-- C10: for every document, path, flag setting and store behaviour,
`loadConfig` returns no error and issues exactly one `PutParameter` call per
scalar-or-null leaf, in traversal order, whatever the outcome of the calls. -/
theorem loadConfig_one_put_per_leaf (L : GoLib) (fl : LoadFlags) (client : PutClient)
    (d : Node) (path : Str) (log : LoadLog) :
    (loadConfig L fl client d path log).1 = none ∧
    (loadConfig L fl client d path log).2.puts =
      log.puts ++ (leafEntries d).map (fun e => putInputOf L fl e.2 (loadPath path e.1)) :=
  loadConfig_eq L fl client d path log

/-- C11 fails on the code: `walk` of `printYAMLTree` chooses the connector once,
on entry, from the flag `last` of the node it was called on, and writes it on
the line of every child.  The root is walked with `last` set, so on every
mapping with two or more keys the line of the first key, which is not the last
sibling, starts with the corner connector and not with the branch connector. -/
theorem printYAMLTree_first_key_corner (L : GoLib) (C : ColorLib) (sv : Bool)
    (v : List (Str × Node)) (h : 2 ≤ v.length) :
    ∃ text rest, printYAMLTree L C sv (Node.map v)
      = (C.Sprint [color.Attribute.FgHiCyan, color.Attribute.Bold] "root".toList ++ "\n".toList) ::
        ("└── ".toList ++ text) :: rest ∧
      ¬ "├── ".toList <+: ("└── ".toList ++ text) := by
  rw [printYAMLTree_map]
  have hl : (sort.SliceStable keyLess (v.map Prod.fst)).length = v.length := by
    rw [sort.SliceStable_length, List.length_map]
  cases hs : sort.SliceStable keyLess (v.map Prod.fst) with
  | nil => rw [hs] at hl; simp at hl; omega
  | cons k ks =>
    rw [List.enum_cons, List.flatMap_cons]
    obtain ⟨text, below, hb⟩ := printYAMLTree.keyBody_line L C sv v
      (fun k => printYAMLTree.walk L C sv ((mapGet v k).getD Node.null))
      [] "└── ".toList [] (k :: ks).length 0 k
    rw [hb, List.nil_append, List.cons_append]
    refine ⟨text, _, rfl, ?_⟩
    intro hp
    have := List.IsPrefix.head hp (by simp)
    simp at this

/-- C11 on the code, at the documents `{a: 1, b: 2}` and
`{a: {x: 1, y: 2}, b: 3}`, without colours and without values: both lines of
the first document carry the corner connector; in the second the children of
`a`, which is not the last sibling, both carry the branch connector. -/
theorem printYAMLTree_first_key_corner_witness :
    2 ≤ [("a".toList, Node.int 1), ("b".toList, Node.int 2)].length ∧
    (∃ text rest, printYAMLTree GoLib.ascii ColorLib.plain false
        (Node.map [("a".toList, Node.int 1), ("b".toList, Node.int 2)])
      = (ColorLib.plain.Sprint [color.Attribute.FgHiCyan, color.Attribute.Bold] "root".toList ++
          "\n".toList) :: ("└── ".toList ++ text) :: rest ∧
      ¬ "├── ".toList <+: ("└── ".toList ++ text)) ∧
    printYAMLTree GoLib.ascii ColorLib.plain false
        (Node.map [("a".toList, Node.int 1), ("b".toList, Node.int 2)])
      = ["root\n".toList, "└── a\n".toList, "└── b\n".toList] ∧
    printYAMLTree GoLib.ascii ColorLib.plain false
        (Node.map [("a".toList, Node.map [("x".toList, Node.int 1), ("y".toList, Node.int 2)]),
                   ("b".toList, Node.int 3)])
      = ["root\n".toList, "└── a\n".toList, "    ├── x\n".toList, "    ├── y\n".toList,
         "└── b\n".toList] :=
  ⟨by decide,
   printYAMLTree_first_key_corner GoLib.ascii ColorLib.plain false
     [("a".toList, Node.int 1), ("b".toList, Node.int 2)] (by decide),
   by rfl, by rfl⟩

/-- C12: the keys a renderer ranges over are the keys of the map sorted by
`sort.SliceStable` with the comparison of the source.  For pairwise distinct
keys, as the keys of a Go map are, the sorted list has the same keys, is
strictly ascending by number of `/`-separated segments and then by the string
order, is strictly ascending by the string order alone when no key contains
`/`, and does not depend on the order in which the map was ranged over.  The
mapping case of `walk` in `printYAMLTree` writes the output of one pass of its
loop body per key in that order; `walk` in `printTree` writes the line of the
node and then the output of one recursive call per child in that order.  In
the tree `printTree` builds, at every node the keys are pairwise distinct, and
each is the name of the child, without `/`.  The string order is the byte-wise
lexicographic order of the UTF-8 encodings. -/
theorem renderers_sibling_order :
    (∀ ks : List Str, ks.Nodup →
      (sort.SliceStable keyLess ks).Perm ks ∧
      (sort.SliceStable keyLess ks).Pairwise SiblingBefore ∧
      ((∀ k ∈ ks, '/' ∉ k) →
        (sort.SliceStable keyLess ks).Pairwise (fun a b => strings.Less a b = true)) ∧
      (∀ ks' : List Str, ks'.Perm ks →
        sort.SliceStable keyLess ks' = sort.SliceStable keyLess ks)) ∧
    (∀ (L : GoLib) (C : ColorLib) (sv : Bool) (v : List (Str × Node)) (pfx : Str) (last : Bool)
        (fullPath : Str),
      printYAMLTree.walk L C sv (Node.map v) pfx last fullPath
        = (sort.SliceStable keyLess (v.map Prod.fst)).enum.flatMap (fun ik =>
            printYAMLTree.keyBody L C sv v
              (fun k => printYAMLTree.walk L C sv ((mapGet v k).getD Node.null))
              pfx (if last then "└── ".toList else "├── ".toList) fullPath
              (sort.SliceStable keyLess (v.map Prod.fst)).length ik.1 ik.2)) ∧
    (∀ (C : ColorLib) (values : List (Str × treeParam)) (sv : Bool) (name fullPath : Str)
        (children : List (Str × printTree.node)) (pfx : Str) (last : Bool),
      printTree.walk C values sv (printTree.node.mk name fullPath children) pfx last
        = (if name ≠ "/".toList then
            [pfx ++ (if last then "└── ".toList else "├── ".toList) ++
              printTree.label C values sv name fullPath ++ "\n".toList]
           else []) ++
          (sort.SliceStable keyLess (children.map Prod.fst)).enum.flatMap (fun ik =>
            printTree.walkChild C values sv children ik.2
              (if name ≠ "/".toList then pfx ++ (if last then "    ".toList else "│   ".toList)
               else pfx)
              (decide (ik.1 = (sort.SliceStable keyLess (children.map Prod.fst)).length - 1)))) ∧
    (∀ (paths : List Str) (rootPrefix : Str),
      printTree.node.Built (printTree.build paths rootPrefix)) ∧
    (∀ (name fullPath : Str) (children : List (Str × printTree.node)),
      printTree.node.Built (printTree.node.mk name fullPath children) →
      (children.map Prod.fst).Nodup ∧
        ∀ kc ∈ children, kc.2.name = kc.1 ∧ '/' ∉ kc.1 ∧ printTree.node.Built kc.2) ∧
    (∀ a b : Str, strings.Less a b = bytesLess (bytesOf a) (bytesOf b)) := by
  refine ⟨?_, printYAMLTree.walk_map, printTree.walk_node, printTree.build_Built,
    printTree.Built_children, strings.Less_eq_bytesLess⟩
  intro ks hn
  have hs := sort.SliceStable_sorted ks hn
  refine ⟨sort.SliceStable_perm keyLess ks, hs.imp (fun h => (keyLess_iff _ _).1 h), ?_, ?_⟩
  · intro hk
    refine hs.imp_of_mem ?_
    intro a b ha hb hab
    have ha' := hk a ((sort.SliceStable_perm keyLess ks).mem_iff.1 ha)
    have hb' := hk b ((sort.SliceStable_perm keyLess ks).mem_iff.1 hb)
    rw [← keyLess_of_no_slash a b ha' hb']
    exact hab
  · intro ks' hp
    exact sort.SliceStable_of_perm ks' ks hp hn

/-- C12, at the sibling names `abc`, `2`, `10`: in whichever order the map is
ranged over they are sorted to `10`, `2`, `abc`, and both renderers write
their lines in that order. -/
theorem renderers_sibling_order_witness :
    ["abc".toList, "2".toList, "10".toList].Nodup ∧
    (sort.SliceStable keyLess ["abc".toList, "2".toList, "10".toList]).Pairwise SiblingBefore ∧
    sort.SliceStable keyLess ["abc".toList, "2".toList, "10".toList]
      = ["10".toList, "2".toList, "abc".toList] ∧
    sort.SliceStable keyLess ["2".toList, "10".toList, "abc".toList]
      = ["10".toList, "2".toList, "abc".toList] ∧
    printTree ColorLib.plain false ["abc".toList, "2".toList, "10".toList] [] "/app".toList
      = ["├── 10\n".toList, "├── 2\n".toList, "└── abc\n".toList] ∧
    printYAMLTree GoLib.ascii ColorLib.plain false
        (Node.map [("abc".toList, Node.int 1), ("2".toList, Node.int 2),
                   ("10".toList, Node.int 3)])
      = ["root\n".toList, "└── 10\n".toList, "└── 2\n".toList, "└── abc\n".toList] :=
  ⟨by decide,
   (renderers_sibling_order.1 ["abc".toList, "2".toList, "10".toList] (by decide)).2.1,
   by decide, by decide, by rfl, by rfl⟩

/-- C13 fails on the code: whenever there is a parameter, the insertion loop
completes, and the first segment of every parameter is accepted by
`strconv.Atoi`, the tree is a mapping of integers at the root, which
`convertMapsToSlices` never returns as a mapping, and `flattenToNestedMap` with
array coercion enabled panics. -/
theorem flattenToNestedMap_numeric_root_panics (L : GoLib) (flat : List (Str × Str))
    (pfx : Str) (hne : flat ≠ [])
    (hraw : (flattenToNestedMap L true flat pfx).isSome = true)
    (hnum : ∀ kv ∈ flat, ∃ s, (toSegments kv.1 pfx).head? = some s ∧
      (strconv.Atoi s).isSome = true) :
    ∃ tree, flattenToNestedMap L true flat pfx = some tree ∧
      (∀ r, convertMapsToSlices (Node.map tree) = some r → ∃ l, r = Node.seq l) ∧
      flattenToNestedMap L false flat pfx = none := by
  obtain ⟨tree, ht⟩ := Option.isSome_iff_exists.1 hraw
  have hn : isNumericMap tree = true :=
    (flattenToNestedMap_raw_numeric L flat pfx tree ht).2 ⟨hne, hnum⟩
  exact ⟨tree, ht, convertMapsToSlices_numeric_seq tree hn,
    flattenToNestedMap_numeric_root L flat pfx tree ht hn⟩

/-- C13 on the code, at the single parameter `/app/0 = x` under the prefix
`/app`: the tree is `{"0": "x"}`, it is converted to the sequence `["x"]`, and
the type assertion to a mapping panics. -/
theorem flattenToNestedMap_numeric_root_panics_witness :
    ([("/app/0".toList, "x".toList)] ≠ [] ∧
      (flattenToNestedMap GoLib.ascii true [("/app/0".toList, "x".toList)]
        "/app".toList).isSome = true ∧
      ∀ kv ∈ [("/app/0".toList, "x".toList)],
        ∃ s, (toSegments kv.1 "/app".toList).head? = some s ∧ (strconv.Atoi s).isSome = true) ∧
    (∃ tree, flattenToNestedMap GoLib.ascii true [("/app/0".toList, "x".toList)] "/app".toList
        = some tree ∧
      (∀ r, convertMapsToSlices (Node.map tree) = some r → ∃ l, r = Node.seq l) ∧
      flattenToNestedMap GoLib.ascii false [("/app/0".toList, "x".toList)] "/app".toList
        = none) ∧
    flattenToNestedMap GoLib.ascii true [("/app/0".toList, "x".toList)] "/app".toList
      = some [("0".toList, Node.str "x".toList)] ∧
    convertMapsToSlices (Node.map [("0".toList, Node.str "x".toList)])
      = some (Node.seq [Node.str "x".toList]) :=
  have h1 : (flattenToNestedMap GoLib.ascii true [("/app/0".toList, "x".toList)]
      "/app".toList).isSome = true := by rfl
  have h2 : ∀ kv ∈ [("/app/0".toList, "x".toList)],
      ∃ s, (toSegments kv.1 "/app".toList).head? = some s ∧ (strconv.Atoi s).isSome = true := by
    intro kv hkv
    rw [List.mem_singleton] at hkv
    subst hkv
    exact ⟨"0".toList, by decide, by decide⟩
  ⟨⟨List.cons_ne_nil _ _, h1, h2⟩,
   flattenToNestedMap_numeric_root_panics GoLib.ascii _ "/app".toList (List.cons_ne_nil _ _) h1 h2,
   by rfl, by rfl⟩
